import Mathlib

/-!
A shallow embedding of the `cubek-einsum` crate (notation parser, validator,
pattern recognizer, cost model, contraction-path search, plan builder and
executor) together with theorems settling the specification claims.

Machine integers are modelled as `Nat` with explicit saturating / wrapping
operations where the Rust code uses `u64::saturating_add`, `saturating_mul`,
plain (wrapping in release builds) arithmetic, or division (which panics on a
zero divisor and is therefore modelled with `Option`).  `BTreeSet<char>` is
modelled as a sorted, duplicate-free `List Char`; `HashMap<char, usize>` as an
association list with insert-overwrite semantics.  Rust panics (failed
`assert!`, `unwrap`, `expect`, out-of-bounds indexing, division by zero) are
modelled by returning `none`.
-/

namespace CubekEinsum

/-! ## u64 arithmetic -/

/-- `u64::MAX`. -/
def U64_MAX : Nat := 2 ^ 64 - 1

/-- `u64::saturating_add`. -/
def satAdd (a b : Nat) : Nat := min (a + b) U64_MAX

/-- `u64::saturating_mul`. -/
def satMul (a b : Nat) : Nat := min (a * b) U64_MAX

/-- Wrapping (release-mode) `u64` addition. -/
def wrapAdd (a b : Nat) : Nat := (a + b) % 2 ^ 64

/-- Wrapping (release-mode) `u64` multiplication. -/
def wrapMul (a b : Nat) : Nat := (a * b) % 2 ^ 64

/-- `iter().map(|&d| d as u64).product()` over a list of dimension sizes:
a plain (wrapping) `u64` product. -/
def wrapProd (l : List Nat) : Nat := l.foldl wrapMul 1

/-- `u64` division; Rust panics when the divisor is zero. -/
def u64Div (a b : Nat) : Option Nat := if b = 0 then none else some (a / b)

/-! ## Character sets and maps

`BTreeSet<char>` iterates in ascending order; we model it as a sorted,
duplicate-free list.  `HashMap<char, usize>` is modelled as an association
list where `insert` overwrites. -/

/-- Insertion into an ascending sorted character list. -/
def insertAsc (c : Char) : List Char → List Char
  | [] => [c]
  | x :: xs => if c ≤ x then c :: x :: xs else x :: insertAsc c xs

/-- Ascending insertion sort (kernel-computable). -/
def sortChars (l : List Char) : List Char := l.foldr insertAsc []

/-- First occurrences of a list, in order (kernel-computable `dedup`). -/
def dedupChars : List Char → List Char
  | [] => []
  | x :: xs => if (dedupChars xs).contains x then dedupChars xs else x :: dedupChars xs

/-- The contents of a `BTreeSet<char>` built by inserting the elements of `l`:
the distinct characters, sorted ascending. -/
def sortedDedup (l : List Char) : List Char :=
  sortChars (dedupChars l)

/-- Set membership test (`BTreeSet::contains` / `HashSet::contains`). -/
def memChar (l : List Char) (c : Char) : Bool := l.contains c

/-- `BTreeSet` intersection, iterated in ascending order of the first set. -/
def setInter (a b : List Char) : List Char := a.filter (fun c => memChar b c)

/-- `BTreeSet` union (insertions into a clone of `a`). -/
def setUnion (a b : List Char) : List Char := sortedDedup (a ++ b)

/-- Association list with insert-overwrite semantics for `HashMap<char, usize>`. -/
abbrev DimMap := List (Char × Nat)

/-- `HashMap::insert` (overwrites an existing binding). -/
def dimInsert (m : DimMap) (c : Char) (d : Nat) : DimMap :=
  (c, d) :: m

/-- `HashMap::get`. -/
def dimGet (m : DimMap) (c : Char) : Option Nat :=
  (List.find? (fun p => p.1 = c) m).map Prod.snd

/-- Insert the bindings of `indices.zip(shape)` in order (later bindings
overwrite earlier ones, matching the Rust insertion loops). -/
def dimInsertZip (m : DimMap) (indices : List Char) (shape : List Nat) : DimMap :=
  match indices, shape with
  | c :: cs, d :: ds => dimInsertZip (dimInsert m c d) cs ds
  | _, _ => m

/-! ## Cost model (`optimization/cost.rs`) -/

/-- `ContractionCost`: flops, memory traffic, and the combined total. -/
structure ContractionCost where
  flops : Nat
  memory : Nat
  total : Nat
deriving Repr, DecidableEq

namespace ContractionCost

/-- `ContractionCost::new`. -/
def new (flops memory alpha : Nat) : ContractionCost :=
  { flops := flops, memory := memory, total := satAdd flops (satMul memory alpha) }

/-- `ContractionCost::zero`. -/
def zero : ContractionCost := { flops := 0, memory := 0, total := 0 }

/-- `impl Add for ContractionCost`. -/
def add (a b : ContractionCost) : ContractionCost :=
  { flops := satAdd a.flops b.flops
    memory := satAdd a.memory b.memory
    total := satAdd a.total b.total }

/-- `Ord for ContractionCost` compares by `total`; this is the strict order. -/
def lt (a b : ContractionCost) : Bool := a.total < b.total

/-- `a <= b` in the derived order (comparison by `total`). -/
def le (a b : ContractionCost) : Bool := a.total ≤ b.total

end ContractionCost

/-- `CostModel` (only the `alpha` field). -/
structure CostModel where
  alpha : Nat
deriving Repr, DecidableEq

/-- `CostModel::compute_pairwise_cost`.

Returns `none` when the Rust code would panic (the `output_size /= d` loop
divides by zero when a common non-contracted index has size 0).  The
`common_non_contracted` vector is collected from a `HashSet` intersection whose
iteration order is unspecified in Rust; we iterate it in sorted order (under
the divisibility conditions of every claim that relies on this function the
result is order-independent). -/
def CostModel.compute_pairwise_cost (m : CostModel)
    (shape_a shape_b : List Nat) (indices_a indices_b contracted : List Char) :
    Option ContractionCost := do
  let dim_map : DimMap := dimInsertZip (dimInsertZip [] indices_a shape_a) indices_b shape_b
  let contracted_set := sortedDedup contracted
  -- output_size: saturating product over non-contracted occurrences
  let output_size0 : Nat :=
    (indices_a ++ indices_b).foldl
      (fun acc c =>
        if memChar contracted_set c then acc
        else match dimGet dim_map c with
          | some d => satMul acc d
          | none => acc)
      1
  -- deduplicate: divide once for every common non-contracted index
  let common_non_contracted : List Char :=
    (setInter (sortedDedup indices_a) (sortedDedup indices_b)).filter
      (fun c => ! memChar contracted_set c)
  let output_size ← common_non_contracted.foldlM
    (fun acc c =>
      match dimGet dim_map c with
      | some d => u64Div acc d
      | none => pure acc)
    output_size0
  let contracted_size : Nat :=
    wrapProd (contracted.filterMap (fun c => dimGet dim_map c))
  let flops := satMul (satMul output_size contracted_size) 2
  let input_a_size := wrapProd shape_a
  let input_b_size := wrapProd shape_b
  let memory := wrapAdd (wrapAdd input_a_size input_b_size) output_size
  pure (ContractionCost.new flops memory m.alpha)

/-- `CostModel::optimistic_remaining_cost` (the `_indices` argument is unused
in the source). -/
def CostModel.optimistic_remaining_cost (m : CostModel)
    (shapes : List (List Nat)) : ContractionCost :=
  if shapes.length ≤ 1 then ContractionCost.zero
  else
    let total_elements : Nat := shapes.foldl (fun acc s => wrapAdd acc (wrapProd s)) 0
    ContractionCost.new total_elements total_elements m.alpha

/-! ## Errors (`error.rs`) -/

/-- `EinsumError`.  Message strings are descriptive (the Rust code formats
dynamic data into them; no claim depends on message contents). -/
inductive EinsumError where
  | ParseError (message : String)
  | OutputIndexNotInInputs (index : Char)
  | IndexAppearsMoreThanTwice (index : Char) (count : Nat)
  | InconsistentEllipsis (message : String)
  | ShapeMismatch (index : Char) (expected got : Nat)
  | DimensionMismatch (subscript : String) (expected got : Nat)
  | EllipsisDimensionMismatch (expected got : Nat)
  | EmptySubscript
  | NoInputs
  | LaunchError (message : String)
  | Unsupported (message : String)
  | MemoryError (message : String)
  | ShapeError (message : String)
deriving Repr, DecidableEq

/-- `EinsumResult<T>`. -/
def EinsumResult (α : Type) := Except EinsumError α

instance : Monad EinsumResult := inferInstanceAs (Monad (Except EinsumError))

instance : MonadExcept EinsumError EinsumResult :=
  inferInstanceAs (MonadExcept EinsumError (Except EinsumError))

/-! ## Subscripts (`notation/subscript.rs`)

The Rust `Subscript` caches `ellipsis_pos` and `explicit_count`; both are
derivable from the index list (the constructors maintain the cache in sync),
so the embedding keeps only the list and computes the rest. -/

/-- `Index`: a named letter or the ellipsis token. -/
inductive EIndex where
  | named (c : Char)
  | ellipsis
deriving Repr, DecidableEq

/-- `Index::is_ellipsis`. -/
def EIndex.is_ellipsis : EIndex → Bool
  | .ellipsis => true
  | .named _ => false

/-- `Index::as_char`. -/
def EIndex.as_char : EIndex → Option Char
  | .named c => some c
  | .ellipsis => none

/-- `Subscript` (just the ordered index list; see the section comment). -/
structure Subscript where
  indices : List EIndex
deriving Repr, DecidableEq

namespace Subscript

/-- `Subscript::new`. -/
def new : Subscript := ⟨[]⟩

/-- `Subscript::from_chars` (each character becomes a named index). -/
def from_chars (l : List Char) : Subscript := ⟨l.map EIndex.named⟩

/-- `Subscript::push_named`. -/
def push_named (s : Subscript) (c : Char) : Subscript := ⟨s.indices ++ [.named c]⟩

/-- `Subscript::has_ellipsis`. -/
def has_ellipsis (s : Subscript) : Bool := s.indices.any EIndex.is_ellipsis

/-- `Subscript::push_ellipsis` (a no-op when an ellipsis is already present). -/
def push_ellipsis (s : Subscript) : Subscript :=
  if s.has_ellipsis then s else ⟨s.indices ++ [.ellipsis]⟩

/-- `Subscript::ellipsis_position`. -/
def ellipsis_position (s : Subscript) : Option Nat :=
  s.indices.findIdx? EIndex.is_ellipsis

/-- `Subscript::explicit_count`. -/
def explicit_count (s : Subscript) : Nat :=
  (s.indices.filter (fun i => ! i.is_ellipsis)).length

/-- `Subscript::len`. -/
def len (s : Subscript) : Nat := s.indices.length

/-- `Subscript::is_empty`. -/
def is_empty (s : Subscript) : Bool := s.indices.isEmpty

/-- `Subscript::named_indices` (collected into a list). -/
def named_indices (s : Subscript) : List Char :=
  s.indices.filterMap EIndex.as_char

/-- `Subscript::contains`. -/
def contains (s : Subscript) (c : Char) : Bool :=
  s.indices.any (fun i => i = .named c)

/-- `Subscript::count`. -/
def count (s : Subscript) (c : Char) : Nat :=
  (s.indices.filter (fun i => i = .named c)).length

/-- `Subscript::position` (first occurrence of a named index). -/
def position (s : Subscript) (c : Char) : Option Nat :=
  s.indices.findIdx? (fun i => i = .named c)

/-- `Subscript::expand_ellipsis`. -/
def expand_ellipsis (s : Subscript) (batch_indices : List Char) : Subscript :=
  if ¬ s.has_ellipsis then s
  else ⟨s.indices.flatMap (fun i =>
    match i with
    | .ellipsis => batch_indices.map EIndex.named
    | other => [other])⟩

/-- `Subscript::to_string`. -/
def to_string (s : Subscript) : List Char :=
  s.indices.flatMap (fun i =>
    match i with
    | .named c => [c]
    | .ellipsis => ['.', '.', '.'])

end Subscript

/-! ## Notation structure (`notation/notation.rs`)

The Rust type is `EinsumNotation`; it is named `EinsumExpr` here. -/

/-- `EinsumNotation`: inputs, output, and the derived index data computed by
`EinsumNotation::new`. -/
structure EinsumExpr where
  inputs : List Subscript
  output : Subscript
  contraction_indices : List Char
  batch_indices : List Char
  output_indices : List Char
  has_ellipsis : Bool
  original : Option (List Char)
deriving Repr, DecidableEq

namespace EinsumExpr

/-- `EinsumNotation::new` (computes the derived sets; `BTreeSet`s are sorted
duplicate-free lists). -/
def new (inputs : List Subscript) (output : Subscript) : EinsumExpr :=
  let has_ellipsis := inputs.any Subscript.has_ellipsis || output.has_ellipsis
  let all_input_indices : List Char :=
    sortedDedup (inputs.flatMap Subscript.named_indices)
  let output_indices : List Char := output.named_indices
  let output_set : List Char := sortedDedup output_indices
  let contraction_indices : List Char :=
    all_input_indices.filter (fun c => ! memChar output_set c)
  let batch_indices : List Char :=
    output_set.filter (fun c => inputs.all (fun s => s.contains c))
  { inputs := inputs
    output := output
    contraction_indices := contraction_indices
    batch_indices := batch_indices
    output_indices := output_indices
    has_ellipsis := has_ellipsis
    original := none }

/-- `EinsumNotation::with_original`. -/
def with_original (e : EinsumExpr) (s : List Char) : EinsumExpr :=
  { e with original := some s }

/-- `EinsumNotation::num_inputs`. -/
def num_inputs (e : EinsumExpr) : Nat := e.inputs.length

/-- `EinsumNotation::is_unary`. -/
def is_unary (e : EinsumExpr) : Bool := e.inputs.length = 1

/-- `EinsumNotation::is_binary`. -/
def is_binary (e : EinsumExpr) : Bool := e.inputs.length = 2

/-- `EinsumNotation::is_permutation_only`. -/
def is_permutation_only (e : EinsumExpr) : Bool := e.contraction_indices.isEmpty

/-- `EinsumNotation::is_scalar_output`. -/
def is_scalar_output (e : EinsumExpr) : Bool :=
  e.output.is_empty || (e.output.len = 1 && e.output.has_ellipsis)

end EinsumExpr

/-! ## Parser (`notation/parser.rs`) -/

/-- The letter class accepted by the parser (`'a'..='z' | 'A'..='Z'`). -/
def isEinsumLetter (c : Char) : Bool :=
  ('a' ≤ c && c ≤ 'z') || ('A' ≤ c && c ≤ 'Z')

/-- ASCII whitespace skipped by the parser (`' ' | '\t'`). -/
def isSubscriptSpace (c : Char) : Bool := c = ' ' || c = '\t'

/-- Whitespace removed by `str::trim` (modelled for the ASCII range). -/
def isTrimSpace (c : Char) : Bool :=
  c = ' ' || c = '\t' || c = '\n' || c = '\r'

/-- `str::trim` on a character list. -/
def strTrim (s : List Char) : List Char :=
  (s.dropWhile isTrimSpace).reverse.dropWhile isTrimSpace |>.reverse

/-- `str::find("->")` followed by the split into the input part and the output
part: splits at the first occurrence of `"->"`. -/
def splitArrow : List Char → Option (List Char × List Char)
  | [] => none
  | '-' :: '>' :: rest => some ([], rest)
  | c :: rest =>
    match splitArrow rest with
    | some (pre, post) => some (c :: pre, post)
    | none => none

/-- `str::split(',')` (always returns at least one piece). -/
def splitComma : List Char → List (List Char)
  | [] => [[]]
  | ',' :: rest => [] :: splitComma rest
  | c :: rest =>
    match splitComma rest with
    | piece :: pieces => (c :: piece) :: pieces
    | [] => [[c]]

/-- The character loop of `parse_subscript`. -/
def parse_subscript_aux : List Char → Subscript → EinsumResult Subscript
  | [], acc => .ok acc
  | '.' :: rest, acc =>
    match rest with
    | '.' :: '.' :: rest2 =>
      if acc.has_ellipsis then
        .error (EinsumError.ParseError "multiple ellipses in subscript")
      else
        parse_subscript_aux rest2 acc.push_ellipsis
    | _ => .error (EinsumError.ParseError "incomplete ellipsis")
  | c :: rest, acc =>
    if isEinsumLetter c then parse_subscript_aux rest (acc.push_named c)
    else if isSubscriptSpace c then parse_subscript_aux rest acc
    else .error (EinsumError.ParseError "invalid character in subscript")

/-- `parse_subscript`. -/
def parse_subscript (s : List Char) : EinsumResult Subscript :=
  parse_subscript_aux s Subscript.new

/-- `infer_output`: the implicit-output rule.  The Rust code collects the
once-occurring indices from a `HashMap` in arbitrary order and then sorts, so
the result is the ascending duplicate-free list of indices occurring exactly
once across all inputs. -/
def infer_output (inputs : List Subscript) : EinsumResult Subscript :=
  let all : List Char := inputs.flatMap Subscript.named_indices
  let has_ellipsis := inputs.any Subscript.has_ellipsis
  let once : List Char :=
    (sortedDedup all).filter (fun c => (all.filter (fun x => x = c)).length = 1)
  let base : Subscript := if has_ellipsis then ⟨[.ellipsis]⟩ else ⟨[]⟩
  .ok ⟨base.indices ++ once.map EIndex.named⟩

/-- The input-subscript parsing loop of `parse_einsum` (each field trimmed,
errors propagate). -/
def parse_subscripts : List (List Char) → EinsumResult (List Subscript)
  | [] => .ok []
  | x :: xs =>
    match parse_subscript (strTrim x) with
    | .error e => .error e
    | .ok s =>
      match parse_subscripts xs with
      | .error e => .error e
      | .ok ss => .ok (s :: ss)

/-- `parse_einsum` (the `?` operator is explicit error propagation). -/
def parse_einsum (s0 : List Char) : EinsumResult EinsumExpr :=
  let s := strTrim s0
  if s.isEmpty then .error (EinsumError.ParseError "empty einsum string")
  else
    let (inputs_str, output_str) :=
      match splitArrow s with
      | some (pre, post) => (pre, some post)
      | none => (s, none)
    let input_strs := splitComma inputs_str
    if input_strs.isEmpty || (input_strs.length = 1 && (input_strs.headD []).isEmpty) then
      .error EinsumError.NoInputs
    else
      match parse_subscripts input_strs with
      | .error e => .error e
      | .ok inputs =>
        match
          (match output_str with
           | some out => parse_subscript (strTrim out)
           | none => infer_output inputs) with
        | .error e => .error e
        | .ok output => .ok ((EinsumExpr.new inputs output).with_original s)

/-! ## Validation (`notation/validation.rs`) -/

/-- `validate_output_indices`. -/
def validate_output_indices (e : EinsumExpr) : EinsumResult Unit :=
  match e.output.named_indices.find?
      (fun c => ¬ e.inputs.any (fun s => s.contains c)) with
  | some c => .error (EinsumError.OutputIndexNotInInputs c)
  | none => .ok ()

/-- Total occurrences of `c` across the inputs and the output. -/
def totalIndexCount (e : EinsumExpr) (c : Char) : Nat :=
  (e.inputs.map (fun s => s.count c)).sum + e.output.count c

/-- `validate_index_counts`: errors when some index occurs more than three
times in total.  The Rust code iterates a `HashMap` in unspecified order; the
embedding reports the first offender in first-occurrence order. -/
def validate_index_counts (e : EinsumExpr) : EinsumResult Unit :=
  let all : List Char :=
    (e.inputs.flatMap Subscript.named_indices) ++ e.output.named_indices
  match all.dedup.find? (fun c => totalIndexCount e c > 3) with
  | some c => .error (EinsumError.IndexAppearsMoreThanTwice c (totalIndexCount e c))
  | none => .ok ()

/-- `validate_ellipsis_consistency`. -/
def validate_ellipsis_consistency (e : EinsumExpr) : EinsumResult Unit :=
  let with_ellipsis := (e.inputs.filter Subscript.has_ellipsis).length
  let output_has := e.output.has_ellipsis
  if with_ellipsis ≠ 0 || output_has then
    if with_ellipsis ≠ e.num_inputs then
      .error (EinsumError.InconsistentEllipsis "not all inputs have an ellipsis")
    else if ¬ output_has then
      .error (EinsumError.InconsistentEllipsis "output lacks an ellipsis")
    else .ok ()
  else .ok ()

/-- `validate_notation` from `validation.rs`. -/
def validate_expr (e : EinsumExpr) : EinsumResult Unit := do
  validate_output_indices e
  validate_index_counts e
  validate_ellipsis_consistency e

/-- `generate_batch_indices`: circled-digit characters `U+2460 + i`. -/
def generate_batch_indices (count : Nat) : List Char :=
  (List.range count).map (fun i =>
    if h : (0x2460 + i).isValidChar then Char.ofNatAux (0x2460 + i) h else '?')

/-- `compute_ellipsis_dims`. -/
def compute_ellipsis_dims (e : EinsumExpr) (shapes : List (List Nat)) :
    EinsumResult Nat :=
  if ¬ e.has_ellipsis then .ok 0
  else
    let rec go : List (Subscript × List Nat) → Option Nat → EinsumResult Nat
      | [], acc => .ok (acc.getD 0)
      | (input, shape) :: rest, acc =>
        if input.has_ellipsis then
          let explicit := input.explicit_count
          let total := shape.length
          if total < explicit then
            .error (EinsumError.DimensionMismatch "rank below explicit count" explicit total)
          else
            let this_dims := total - explicit
            match acc with
            | some prev =>
              if prev ≠ this_dims then
                .error (EinsumError.EllipsisDimensionMismatch prev this_dims)
              else go rest acc
            | none => go rest (some this_dims)
        else go rest acc
    go (e.inputs.zip shapes) none

/-- `build_dimension_map`. -/
def build_dimension_map (e : EinsumExpr) (shapes : List (List Nat))
    (ellipsis_dims : Nat) : EinsumResult DimMap :=
  let batch_indices := generate_batch_indices ellipsis_dims
  let rec go : List (Subscript × List Nat) → DimMap → EinsumResult DimMap
    | [], m => .ok m
    | (input, shape) :: rest, m =>
      let expanded := input.expand_ellipsis batch_indices
      if expanded.explicit_count ≠ shape.length then
        .error (EinsumError.DimensionMismatch "rank differs from subscript"
          expanded.explicit_count shape.length)
      else
        let rec bind : List (Char × Nat) → DimMap → EinsumResult DimMap
          | [], m => .ok m
          | (c, dim) :: more, m =>
            match dimGet m c with
            | some existing =>
              if existing ≠ dim then
                .error (EinsumError.ShapeMismatch c existing dim)
              else bind more m
            | none => bind more (dimInsert m c dim)
        match bind (expanded.named_indices.zip shape) m with
        | .ok m2 => go rest m2
        | .error err => .error err
  go (e.inputs.zip shapes) []

/-- `compute_output_shape` in `validation.rs`. -/
def validation_output_shape (e : EinsumExpr) (dim_map : DimMap)
    (ellipsis_dims : Nat) : EinsumResult (List Nat) :=
  let batch_indices := generate_batch_indices ellipsis_dims
  let expanded := e.output.expand_ellipsis batch_indices
  let rec go : List Char → List Nat → EinsumResult (List Nat)
    | [], acc => .ok acc.reverse
    | c :: rest, acc =>
      match dimGet dim_map c with
      | some dim => go rest (dim :: acc)
      | none => .error (EinsumError.OutputIndexNotInInputs c)
  go expanded.named_indices []

/-- `ValidationResult`. -/
structure ValidationResult where
  ellipsis_dims : Nat
  dim_map : DimMap
  output_shape : List Nat
  contracted_shape : List Nat

/-- `validate_shapes`. -/
def validate_shapes (e : EinsumExpr) (shapes : List (List Nat)) :
    EinsumResult ValidationResult := do
  if shapes.length ≠ e.num_inputs then
    throw (EinsumError.ParseError "wrong number of input shapes")
  let ellipsis_dims ← compute_ellipsis_dims e shapes
  let dim_map ← build_dimension_map e shapes ellipsis_dims
  let output_shape ← validation_output_shape e dim_map ellipsis_dims
  let contracted_shape : List Nat :=
    e.contraction_indices.filterMap (fun c => dimGet dim_map c)
  pure { ellipsis_dims := ellipsis_dims, dim_map := dim_map,
         output_shape := output_shape, contracted_shape := contracted_shape }

/-! ## Fast paths (`pattern/fast_path.rs`) -/

/-- `ReduceOp` in `fast_path.rs`. -/
inductive FPReduceOp where
  | Sum | Prod | Max | Min | Mean
deriving Repr, DecidableEq

/-- `FastPath`. -/
inductive FastPath where
  | Matmul (transpose_a transpose_b : Bool)
  | BatchedMatmul (batch_dims : List Nat) (transpose_a transpose_b : Bool)
  | Reduce (axes : List Nat) (op : FPReduceOp)
  | Transpose (permutation : List Nat)
  | Hadamard
  | OuterProduct
  | DotProduct
  | Trace
  | DiagonalExtract
deriving Repr, DecidableEq

/-! ## Unary patterns (`pattern/unary.rs`) -/

/-- `is_transpose`: returns the permutation for a pure (non-identity)
permutation notation. -/
def is_transpose (e : EinsumExpr) : Option (List Nat) := do
  if ¬ e.is_unary then none
  else
    let input := e.inputs.headD Subscript.new
    let output := e.output
    if ¬ e.is_permutation_only then none
    else if input.explicit_count ≠ output.explicit_count then none
    else
      let input_indices := input.named_indices
      let output_indices := output.named_indices
      let permutation : List Nat :=
        output_indices.filterMap (fun c => input_indices.indexOf? c)
      if permutation.length ≠ input_indices.length then none
      else
        let is_identity :=
          (List.range permutation.length).zip permutation |>.all (fun p => p.1 = p.2)
        if is_identity then none else some permutation

/-- `ReductionType` in `unary.rs`. -/
inductive ReductionType where
  | Sum | Prod | Max | Min
deriving Repr, DecidableEq

/-- `is_reduction`. -/
def is_reduction (e : EinsumExpr) : Option (List Nat × ReductionType) :=
  if ¬ e.is_unary then none
  else if e.is_permutation_only then none
  else
    let input := e.inputs.headD Subscript.new
    let input_indices := input.named_indices
    let output_indices := sortedDedup e.output.named_indices
    let reduced_axes : List Nat :=
      ((List.range input_indices.length).zip input_indices).filterMap
        (fun p => if memChar output_indices p.2 then none else some p.1)
    if reduced_axes.isEmpty then none
    else some (reduced_axes, ReductionType.Sum)

/-- `is_trace`. -/
def is_trace (e : EinsumExpr) : Bool :=
  if ¬ e.is_unary then false
  else
    let input := e.inputs.headD Subscript.new
    let output := e.output
    if ¬ e.is_scalar_output then false
    else
      let input_indices := input.named_indices
      let uniq := sortedDedup input_indices
      if uniq.length ≥ input_indices.length then false
      else
        input_indices.all (fun c =>
          let cnt := (input_indices.filter (fun x => x = c)).length
          ¬ (cnt > 1 && output.contains c))

/-- `DiagonalConfig`. -/
structure DiagonalConfig where
  diagonal_index : Char
  diagonal_dim : Nat
deriving Repr, DecidableEq

/-- The repeated-character scan of `is_diagonal_extract` (chars seen before,
in order of second occurrence, without duplicates). -/
def repeatedChars (l : List Char) : List Char :=
  let rec go : List Char → List Char → List Char → List Char
    | [], _, rep => rep.reverse
    | c :: rest, seen, rep =>
      if seen.contains c then
        if rep.contains c then go rest seen rep else go rest seen (c :: rep)
      else go rest (c :: seen) rep
  go l [] []

/-- `is_diagonal_extract`. -/
def is_diagonal_extract (e : EinsumExpr) : Option DiagonalConfig := do
  if ¬ e.is_unary then none
  else
    let input := e.inputs.headD Subscript.new
    let output := e.output
    let input_indices := input.named_indices
    let repeated := repeatedChars input_indices
    if repeated.isEmpty then none
    else if ¬ repeated.all (fun c => output.contains c) then none
    else
      let non_repeated := input_indices.filter (fun c => ! repeated.contains c)
      if ¬ non_repeated.all (fun c => output.contains c) then none
      else do
        let diag_dim ← input_indices.findIdx? (fun c => repeated.contains c)
        let first ← repeated.head?
        pure { diagonal_index := first, diagonal_dim := diag_dim }

/-! ## Binary patterns (`pattern/binary.rs`) -/

/-- `is_hadamard`. -/
def is_hadamard (e : EinsumExpr) : Bool :=
  if ¬ e.is_binary then false
  else if ¬ e.is_permutation_only then false
  else
    let a := sortedDedup ((e.inputs.headD Subscript.new).named_indices)
    let b := sortedDedup ((e.inputs.getD 1 Subscript.new).named_indices)
    let out := sortedDedup e.output.named_indices
    a = b && a = out

/-- `is_outer_product`. -/
def is_outer_product (e : EinsumExpr) : Bool :=
  if ¬ e.is_binary then false
  else if ¬ e.is_permutation_only then false
  else
    let a := sortedDedup ((e.inputs.headD Subscript.new).named_indices)
    let b := sortedDedup ((e.inputs.getD 1 Subscript.new).named_indices)
    let out := sortedDedup e.output.named_indices
    a.all (fun c => ! memChar b c) && setUnion a b = out

/-- `is_dot_product`. -/
def is_dot_product (e : EinsumExpr) : Bool :=
  if ¬ e.is_binary then false
  else if ¬ e.is_scalar_output then false
  else
    let a := sortedDedup ((e.inputs.headD Subscript.new).named_indices)
    let b := sortedDedup ((e.inputs.getD 1 Subscript.new).named_indices)
    a = b

/-! ## Matmul patterns (`pattern/matmul.rs`) -/

/-- `MatmulConfig`. -/
structure MatmulConfig where
  transpose_a : Bool
  transpose_b : Bool
  batch_dims : List Nat
  m_dim : Nat
  n_dim : Nat
  k_index : Char
deriving Repr, DecidableEq

/-- `is_matmul`. -/
def is_matmul (e : EinsumExpr) : Option MatmulConfig := do
  if ¬ e.is_binary then none
  else
    let sub_a := e.inputs.headD Subscript.new
    let sub_b := e.inputs.getD 1 Subscript.new
    let output := e.output
    if sub_a.explicit_count ≠ 2 || sub_b.explicit_count ≠ 2 then none
    else if output.explicit_count ≠ 2 then none
    else
      let indices_a := sub_a.named_indices
      let indices_b := sub_b.named_indices
      let indices_out := output.named_indices
      let set_a := sortedDedup indices_a
      let set_b := sortedDedup indices_b
      let set_out := sortedDedup indices_out
      let common := setInter set_a set_b
      let contracted := common.filter (fun c => ! memChar set_out c)
      if contracted.length ≠ 1 then none
      else do
        let k_index ← contracted.head?
        let m_candidates :=
          (set_a.filter (fun c => ! memChar set_b c)).filter (fun c => memChar set_out c)
        if m_candidates.length ≠ 1 then none
        else do
          let m_index ← m_candidates.head?
          let n_candidates :=
            (set_b.filter (fun c => ! memChar set_a c)).filter (fun c => memChar set_out c)
          if n_candidates.length ≠ 1 then none
          else do
            let n_index ← n_candidates.head?
            let m_pos_a ← indices_a.indexOf? m_index
            let k_pos_a ← indices_a.indexOf? k_index
            let k_pos_b ← indices_b.indexOf? k_index
            let n_pos_b ← indices_b.indexOf? n_index
            let m_dim ← indices_out.indexOf? m_index
            let n_dim ← indices_out.indexOf? n_index
            pure { transpose_a := k_pos_a < m_pos_a
                   transpose_b := n_pos_b < k_pos_b
                   batch_dims := []
                   m_dim := m_dim, n_dim := n_dim, k_index := k_index }

/-- `is_batched_matmul`. -/
def is_batched_matmul (e : EinsumExpr) : Option MatmulConfig := do
  if ¬ e.is_binary then none
  else
    let sub_a := e.inputs.headD Subscript.new
    let sub_b := e.inputs.getD 1 Subscript.new
    let output := e.output
    if sub_a.explicit_count < 3 || sub_b.explicit_count < 3 then none
    else
      let indices_a := sub_a.named_indices
      let indices_b := sub_b.named_indices
      let indices_out := output.named_indices
      let set_a := sortedDedup indices_a
      let set_b := sortedDedup indices_b
      let set_out := sortedDedup indices_out
      let common_ab := setInter set_a set_b
      let batch_indices := common_ab.filter (fun c => memChar set_out c)
      if batch_indices.isEmpty then none
      else
        let contracted := common_ab.filter (fun c => ! memChar set_out c)
        if contracted.length ≠ 1 then none
        else do
          let k_index ← contracted.head?
          let batch_set := batch_indices
          let m_candidates :=
            (set_a.filter (fun c => ! memChar set_b c)).filter
              (fun c => memChar set_out c && ! memChar batch_set c)
          if m_candidates.length ≠ 1 then none
          else do
            let m_index ← m_candidates.head?
            let n_candidates :=
              (set_b.filter (fun c => ! memChar set_a c)).filter
                (fun c => memChar set_out c && ! memChar batch_set c)
            if n_candidates.length ≠ 1 then none
            else do
              let n_index ← n_candidates.head?
              let batch_dims : List Nat :=
                batch_indices.filterMap (fun c => indices_out.indexOf? c)
              let non_batch_a := indices_a.filter (fun c => ! memChar batch_set c)
              let non_batch_b := indices_b.filter (fun c => ! memChar batch_set c)
              if non_batch_a.length ≠ 2 || non_batch_b.length ≠ 2 then none
              else do
                let m_pos_a ← non_batch_a.indexOf? m_index
                let k_pos_a ← non_batch_a.indexOf? k_index
                let k_pos_b ← non_batch_b.indexOf? k_index
                let n_pos_b ← non_batch_b.indexOf? n_index
                let non_batch_out := indices_out.filter (fun c => ! memChar batch_set c)
                if non_batch_out.length ≠ 2 then none
                else do
                  let m_out ← non_batch_out.indexOf? m_index
                  let n_out ← non_batch_out.indexOf? n_index
                  pure { transpose_a := k_pos_a < m_pos_a
                         transpose_b := n_pos_b < k_pos_b
                         batch_dims := batch_dims
                         m_dim := batch_dims.length + m_out
                         n_dim := batch_dims.length + n_out
                         k_index := k_index }

/-! ## Pattern dispatch (`pattern/mod.rs`) -/

/-- `recognize_pattern`. -/
def recognize_pattern (e : EinsumExpr) : Option FastPath :=
  if e.is_unary then
    match is_transpose e with
    | some perm => some (FastPath.Transpose perm)
    | none =>
      if is_trace e then some FastPath.Trace
      else if (is_diagonal_extract e).isSome then some FastPath.DiagonalExtract
      else match is_reduction e with
        | some (axes, _) => some (FastPath.Reduce axes FPReduceOp.Sum)
        | none => none
  else if e.is_binary then
    match is_batched_matmul e with
    | some config =>
      some (FastPath.BatchedMatmul config.batch_dims config.transpose_a config.transpose_b)
    | none =>
      match is_matmul e with
      | some config => some (FastPath.Matmul config.transpose_a config.transpose_b)
      | none =>
        if is_hadamard e then some FastPath.Hadamard
        else if is_outer_product e then some FastPath.OuterProduct
        else if is_dot_product e then some FastPath.DotProduct
        else none
  else none

/-! ## Contraction paths (`optimization/path.rs`) -/

/-- `ContractionStep`. -/
structure ContractionStep where
  inputs : Nat × Nat
  contracted_indices : List Char
  result_indices : List Char
  estimated_flops : Nat
deriving Repr, DecidableEq

/-- `ContractionPath`. -/
structure ContractionPath where
  steps : List ContractionStep
  total_flops : Nat
  total_memory : Nat
deriving Repr, DecidableEq

namespace ContractionPath

/-- `ContractionPath::new` (also `with_capacity`, which only preallocates). -/
def new : ContractionPath := { steps := [], total_flops := 0, total_memory := 0 }

/-- `ContractionPath::push`. -/
def push (p : ContractionPath) (s : ContractionStep) : ContractionPath :=
  { p with total_flops := satAdd p.total_flops s.estimated_flops
           steps := p.steps ++ [s] }

/-- `ContractionPath::len`. -/
def len (p : ContractionPath) : Nat := p.steps.length

/-- A path built by pushing each step of a list in order (the reconstruction
loops in `branch_bound.rs`). -/
def ofSteps (l : List ContractionStep) : ContractionPath :=
  l.foldl push new

end ContractionPath

/-- `TensorState`. -/
structure TensorState where
  shapes : List (List Nat)
  indices : List (List Char)
  original_indices : List Nat
deriving Repr, DecidableEq

namespace TensorState

/-- `TensorState::new`. -/
def new (shapes : List (List Nat)) (indices : List (List Char)) : TensorState :=
  { shapes := shapes, indices := indices,
    original_indices := List.range shapes.length }

/-- `TensorState::len`. -/
def len (s : TensorState) : Nat := s.shapes.length

/-- `TensorState::contract`; `none` models the `assert!(i < j && j < self.len())`
panic. -/
def contract (s : TensorState) (i j : Nat) (output_indices : List Char) :
    Option TensorState :=
  if ¬ (i < j ∧ j < s.len) then none
  else
    let dim_map : DimMap :=
      dimInsertZip (dimInsertZip [] (s.indices.getD i []) (s.shapes.getD i []))
        (s.indices.getD j []) (s.shapes.getD j [])
    let result_shape : List Nat :=
      output_indices.map (fun c => (dimGet dim_map c).getD 1)
    let keep := fun (k : Nat) => k ≠ i ∧ k ≠ j
    let idxs := (List.range s.len).filter (fun k => decide (keep k))
    some
      { shapes := idxs.map (fun k => s.shapes.getD k []) ++ [result_shape]
        indices := idxs.map (fun k => s.indices.getD k []) ++ [output_indices]
        original_indices :=
          idxs.map (fun k => s.original_indices.getD k 0) ++
            [min (s.original_indices.getD i 0) (s.original_indices.getD j 0)] }

end TensorState

/-! ## Greedy search (`optimization/greedy.rs`) -/

/-- All index pairs `i < j < n` in loop order. -/
def pairList (n : Nat) : List (Nat × Nat) :=
  (List.range n).flatMap (fun i => ((List.range n).drop (i + 1)).map (fun j => (i, j)))

/-- `evaluate_pair`: contracted indices, result indices and cost for
contracting positions `i` and `j`. -/
def evaluate_pair (state : TensorState) (i j : Nat)
    (final_output : List Char) (cost_model : CostModel) :
    Option (ContractionStep × ContractionCost) := do
  let indices_i := sortedDedup (state.indices.getD i [])
  let indices_j := sortedDedup (state.indices.getD j [])
  let common := setInter indices_i indices_j
  let kept_elsewhere : List Char :=
    sortedDedup (final_output ++
      (((List.range state.len).filter (fun k => decide (k ≠ i ∧ k ≠ j))).flatMap
        (fun k => state.indices.getD k [])))
  let contracted : List Char := common.filter (fun c => ! memChar kept_elsewhere c)
  let contracted_set := sortedDedup contracted
  let pick := fun (l : List Char) (seen : List Char) =>
    l.foldl (fun (acc : List Char) c =>
      if memChar contracted_set c || acc.contains c then acc else acc ++ [c]) seen
  let result_indices : List Char := pick (state.indices.getD j []) (pick (state.indices.getD i []) [])
  let cost ← cost_model.compute_pairwise_cost
    (state.shapes.getD i []) (state.shapes.getD j [])
    (state.indices.getD i []) (state.indices.getD j []) contracted
  pure ({ inputs := (i, j), contracted_indices := contracted,
          result_indices := result_indices, estimated_flops := cost.flops }, cost)

/-- `find_best_pair`: the pair with strictly smallest cost (first of equals);
`none` models the `expect` panic when no pair beats the `u64::MAX` sentinel. -/
def find_best_pair (state : TensorState) (output_indices : List Char)
    (cost_model : CostModel) : Option (Nat × Nat × ContractionStep) := do
  let init : ContractionCost × (Nat × Nat) × Option ContractionStep :=
    (ContractionCost.new U64_MAX U64_MAX 1, (0, 1), none)
  let res ← (pairList state.len).foldlM
    (fun acc (p : Nat × Nat) => do
      let (step, cost) ← evaluate_pair state p.1 p.2 output_indices cost_model
      if cost.lt acc.1 then pure (cost, p, some step) else pure acc)
    init
  let step ← res.2.2
  pure (res.2.1.1, res.2.1.2, step)

/-- The `while state.len() > 1` loop of `greedy_path`; the fuel is an upper
bound on the iteration count (each iteration shrinks the state by one). -/
def greedy_loop (cost_model : CostModel) (output_set : List Char) :
    Nat → TensorState → ContractionPath → Option ContractionPath
  | 0, state, path => if state.len > 1 then none else some path
  | fuel + 1, state, path =>
    if state.len ≤ 1 then some path
    else do
      let (i, j, step) ← find_best_pair state output_set cost_model
      let new_state ← state.contract i j step.result_indices
      greedy_loop cost_model output_set fuel new_state (path.push step)

/-- The initial index lists of a notation (`named_indices` of each input). -/
def initialIndices (e : EinsumExpr) : List (List Char) :=
  e.inputs.map Subscript.named_indices

/-- `greedy_path`. -/
def greedy_path (e : EinsumExpr) (shapes : List (List Nat))
    (cost_model : CostModel) : Option ContractionPath :=
  let n := e.num_inputs
  if n = 0 then some ContractionPath.new
  else if n = 1 then some ContractionPath.new
  else
    let state := TensorState.new shapes (initialIndices e)
    let output_set := sortedDedup e.output.named_indices
    greedy_loop cost_model output_set n state ContractionPath.new

/-! ## Optimal DP search (`optimization/dynamic.rs`) -/

/-- `MAX_DP_TENSORS`. -/
def MAX_DP_TENSORS : Nat := 12

/-- `generate_subsets` (include-`start` branch first, matching the Rust
recursion order).  Kernel-computable via the fuel `n - start`, which the
wrapper supplies exactly. -/
def generate_subsets_go (n : Nat) : Nat → Nat → Nat → Nat → List Nat
  | fuel, size, start, current =>
    if size = 0 then [current]
    else if start ≥ n then []
    else if n - start < size then []
    else
      match fuel with
      | 0 => []
      | fuel + 1 =>
        generate_subsets_go n fuel (size - 1) (start + 1) (current ||| (1 <<< start)) ++
          generate_subsets_go n fuel size (start + 1) current

/-- `generate_subsets`. -/
def generate_subsets (n size start current : Nat) : List Nat :=
  generate_subsets_go n (n - start) size start current

/-- `subsets_of_size`. -/
def subsets_of_size (n size : Nat) : List Nat := generate_subsets n size 0 0

/-- `proper_subsets`: all non-empty submasks of `set`, in the descending
`(s - 1) & set` enumeration order.  Kernel-computable via a fuel that always
dominates the current submask. -/
def proper_subsets_go (set : Nat) : Nat → Nat → List Nat
  | 0, _ => []
  | fuel + 1, s => if s = 0 then [] else s :: proper_subsets_go set fuel ((s - 1) &&& set)

/-- `proper_subsets`. -/
def proper_subsets (set : Nat) : List Nat :=
  if set = 0 then [] else proper_subsets_go set set set

/-- `compute_contraction` in `dynamic.rs`. -/
def compute_contraction (shape_a : List Nat) (indices_a : List Char)
    (shape_b : List Nat) (indices_b : List Char) (output_set : List Char)
    (_is_final : Bool) (cost_model : CostModel) :
    Option (ContractionCost × List Nat × List Char) := do
  let set_a := sortedDedup indices_a
  let set_b := sortedDedup indices_b
  let common := setInter set_a set_b
  -- both branches of the `is_final` match contract `common \ output`
  let contracted : List Char := common.filter (fun c => ! memChar output_set c)
  let contracted_set := sortedDedup contracted
  let pick := fun (l : List Char) (seen : List Char) =>
    l.foldl (fun (acc : List Char) c =>
      if memChar contracted_set c || acc.contains c then acc else acc ++ [c]) seen
  let result_indices : List Char := pick indices_b (pick indices_a [])
  let dim_map : DimMap :=
    dimInsertZip (dimInsertZip [] indices_a shape_a) indices_b shape_b
  let result_shape : List Nat :=
    result_indices.map (fun c => (dimGet dim_map c).getD 1)
  let cost ← cost_model.compute_pairwise_cost shape_a shape_b indices_a indices_b contracted
  pure (cost, result_shape, result_indices)

/-- Association map over bitmask keys (`HashMap<u32, _>`). -/
def MaskMap (α : Type) := List (Nat × α)

/-- `HashMap::insert` for mask keys. -/
def maskInsert {α : Type} (m : MaskMap α) (k : Nat) (v : α) : MaskMap α :=
  (k, v) :: m

/-- `HashMap::get` for mask keys. -/
def maskGet {α : Type} (m : MaskMap α) (k : Nat) : Option α :=
  (List.find? (fun p => p.1 = k) m).map Prod.snd

/-- The lowest set bit of a non-zero mask below `n` (Rust computes
`(0..n).filter(bit set).min()`); `none` models the `unwrap` panic. -/
def minBitIndex (n mask : Nat) : Option Nat :=
  ((List.range n).filter (fun i => mask.testBit i)).head?

/-- The per-subset bipartition fold of `optimal_path`: try every proper
submask pair, tracking the strictly best candidate. -/
def dpSubsetFold (n : Nat) (cost_model : CostModel) (output_set : List Char)
    (memo : MaskMap (ContractionCost × List (Nat × Nat)))
    (cache : MaskMap (List Nat × List Char)) (subset : Nat) :
    Option ((ContractionCost × List (Nat × Nat)) × Option (List Nat × List Char)) := do
  let init : (ContractionCost × List (Nat × Nat)) × Option (List Nat × List Char) :=
    ((ContractionCost.new U64_MAX U64_MAX 1, []), none)
  (proper_subsets subset).foldlM
    (fun acc left => do
      let right := subset ^^^ left
      if right = 0 || left = 0 then pure acc
      else if left > right then pure acc
      else do
        let (left_cost, left_path) ← maskGet memo left
        let (right_cost, right_path) ← maskGet memo right
        let (left_shape, left_indices) ← maskGet cache left
        let (right_shape, right_indices) ← maskGet cache right
        let (contract_cost, result_shape, result_indices) ←
          compute_contraction left_shape left_indices right_shape right_indices
            output_set (subset = (1 <<< n) - 1) cost_model
        let total_cost := (left_cost.add right_cost).add contract_cost
        if total_cost.lt acc.1.1 then do
          let left_rep ← minBitIndex n left
          let right_rep ← minBitIndex n right
          let best_path := left_path ++ right_path ++ [(left_rep, right_rep)]
          pure ((total_cost, best_path), some (result_shape, result_indices))
        else pure acc)
    init

/-- `build_contraction_path`: replay a pair list over the evolving tensor
list, recomputing contracted/result index lists at each step. -/
def build_contraction_path (pairs : List (Nat × Nat))
    (initial_indices : List (List Char)) (output_set : List Char) : ContractionPath :=
  let step := fun (acc : ContractionPath × List (List Char) × List Nat)
      (p : Nat × Nat) =>
    let (path, current_indices, index_to_position) := acc
    let left_pos := index_to_position.getD p.1 0
    let right_pos := index_to_position.getD p.2 0
    let i := min left_pos right_pos
    let j := max left_pos right_pos
    let indices_i := sortedDedup (current_indices.getD i [])
    let indices_j := sortedDedup (current_indices.getD j [])
    let common := setInter indices_i indices_j
    let contracted : List Char := common.filter (fun c => ! memChar output_set c)
    let contracted_set := sortedDedup contracted
    let pick := fun (l : List Char) (seen : List Char) =>
      l.foldl (fun (acc : List Char) c =>
        if memChar contracted_set c || acc.contains c then acc else acc ++ [c]) seen
    let result_indices : List Char :=
      pick (current_indices.getD j []) (pick (current_indices.getD i []) [])
    let path := path.push
      { inputs := (i, j), contracted_indices := contracted,
        result_indices := result_indices, estimated_flops := 0 }
    let current_indices :=
      ((current_indices.set i result_indices).eraseIdx j)
    let index_to_position := index_to_position.map
      (fun pos => if pos = j then i else if pos > j then pos - 1 else pos)
    (path, current_indices, index_to_position)
  (pairs.foldl step
    (ContractionPath.new, initial_indices, List.range initial_indices.length)).1

/-- `optimal_path`; `none` models the `assert!(n <= MAX_DP_TENSORS)` panic and
the `unwrap` panics on memo/cache misses. -/
def optimal_path (e : EinsumExpr) (shapes : List (List Nat))
    (cost_model : CostModel) : Option ContractionPath := do
  let n := e.num_inputs
  if n = 0 || n = 1 then some ContractionPath.new
  else if n > MAX_DP_TENSORS then none
  else do
    let tensor_shapes := shapes
    let tensor_indices := initialIndices e
    let output_set := sortedDedup e.output.named_indices
    -- singleton subsets
    let memo0 : MaskMap (ContractionCost × List (Nat × Nat)) :=
      (List.range n).foldl
        (fun m i => maskInsert m (1 <<< i) (ContractionCost.zero, [])) []
    let cache0 : MaskMap (List Nat × List Char) :=
      (List.range n).foldl
        (fun m i => maskInsert m (1 <<< i) (tensor_shapes.getD i [], tensor_indices.getD i [])) []
    -- DP over subset sizes 2..n
    let sizes := (List.range (n - 1)).map (fun k => k + 2)
    let (memo, _cache) ← sizes.foldlM
      (fun (acc : MaskMap (ContractionCost × List (Nat × Nat)) ×
                  MaskMap (List Nat × List Char)) size => do
        (subsets_of_size n size).foldlM
          (fun (acc2 : MaskMap (ContractionCost × List (Nat × Nat)) ×
                       MaskMap (List Nat × List Char)) subset => do
            let (best, best_result) ←
              dpSubsetFold n cost_model output_set acc2.1 acc2.2 subset
            let memo' := maskInsert acc2.1 subset best
            let cache' := match best_result with
              | some r => maskInsert acc2.2 subset r
              | none => acc2.2
            pure (memo', cache'))
          acc)
      (memo0, cache0)
    let full := (1 <<< n) - 1
    let (_, pair_path) ← maskGet memo full
    pure (build_contraction_path pair_path tensor_indices output_set)

/-! ## Branch and bound (`optimization/branch_bound.rs`) -/

/-- `MAX_SEARCH_DEPTH`. -/
def MAX_SEARCH_DEPTH : Nat := 8

/-- `MAX_NODES`. -/
def MAX_NODES : Nat := 100000

/-- The mutable part of `SearchState` (the notation, cost model and output
set are passed as parameters). -/
structure BBState where
  best_path : Option ContractionPath
  best_cost : ContractionCost
  nodes_explored : Nat
deriving Repr, DecidableEq

/-- `generate_candidates`: every pair with its contracted/result lists and
cost.  (The `kept_indices` set computed at the top of the Rust function is
unused there and omitted.) -/
def generate_candidates (state : TensorState) (output_indices : List Char)
    (cost_model : CostModel) :
    Option (List (Nat × Nat × ContractionCost × ContractionStep)) :=
  (pairList state.len).mapM
    (fun p => do
      let (step, cost) ← evaluate_pair state p.1 p.2 output_indices cost_model
      pure (p.1, p.2, cost, step))

/-- `compute_path_cost`: re-simulate a path from the initial state, summing
per-step costs. -/
def compute_path_cost_loop (cost_model : CostModel) :
    List ContractionStep → TensorState → ContractionCost →
    Option ContractionCost
  | [], _, total => some total
  | step :: rest, state, total => do
    let cost ← cost_model.compute_pairwise_cost
      (state.shapes.getD step.inputs.1 []) (state.shapes.getD step.inputs.2 [])
      (state.indices.getD step.inputs.1 []) (state.indices.getD step.inputs.2 [])
      step.contracted_indices
    let state' ← state.contract step.inputs.1 step.inputs.2 step.result_indices
    compute_path_cost_loop cost_model rest state' (total.add cost)

/-- `compute_path_cost`. -/
def compute_path_cost (path : ContractionPath) (initial_shapes : List (List Nat))
    (initial_indices : List (List Char)) (cost_model : CostModel) :
    Option ContractionCost :=
  compute_path_cost_loop cost_model path.steps
    (TensorState.new initial_shapes initial_indices) ContractionCost.zero

/-- `Iterator::min_by` on candidates (first of equals kept). -/
def minByCost (l : List (Nat × Nat × ContractionCost × ContractionStep)) :
    Option (Nat × Nat × ContractionCost × ContractionStep) :=
  match l with
  | [] => none
  | x :: rest => some (rest.foldl (fun acc y => if y.2.2.1.lt acc.2.2.1 then y else acc) x)

/-- `greedy_remaining_steps` (fueled loop; each iteration shrinks the state). -/
def greedy_remaining_loop (cost_model : CostModel) (output_indices : List Char) :
    Nat → TensorState → List ContractionStep → Option (List ContractionStep)
  | 0, state, steps => if state.len > 1 then none else some steps
  | fuel + 1, state, steps =>
    if state.len ≤ 1 then some steps
    else do
      let candidates ← generate_candidates state output_indices cost_model
      let best ← minByCost candidates
      let state' ← state.contract best.1 best.2.1 best.2.2.2.result_indices
      greedy_remaining_loop cost_model output_indices fuel state' (steps ++ [best.2.2.2])

/-- `greedy_remaining_steps`. -/
def greedy_remaining_steps (state : TensorState) (output_indices : List Char)
    (cost_model : CostModel) : Option (List ContractionStep) :=
  greedy_remaining_loop cost_model output_indices state.len state []

/-- `greedy_remaining_cost`: the summed cost of the greedy completion. -/
def greedy_remaining_cost (state : TensorState) (output_indices : List Char)
    (cost_model : CostModel) : Option ContractionCost := do
  let steps ← greedy_remaining_steps state output_indices cost_model
  compute_path_cost_loop cost_model steps state ContractionCost.zero

/-- Insertion of a candidate into a list sorted ascending by cost total,
after existing equal elements (so the overall sort is stable, like Rust's
`sort_by`). -/
def insertByCost (x : Nat × Nat × ContractionCost × ContractionStep) :
    List (Nat × Nat × ContractionCost × ContractionStep) →
    List (Nat × Nat × ContractionCost × ContractionStep)
  | [] => [x]
  | y :: rest =>
    if x.2.2.1.total < y.2.2.1.total then x :: y :: rest
    else y :: insertByCost x rest

/-- Stable ascending sort by cost total (`candidates.sort_by(cmp on cost)`). -/
def sortByCost (l : List (Nat × Nat × ContractionCost × ContractionStep)) :
    List (Nat × Nat × ContractionCost × ContractionStep) :=
  l.foldl (fun acc x => insertByCost x acc) []

/-- The candidate loop of `branch_bound_search` (with the sorted-candidates
early `break`), mutually recursive with the search itself via the fuel. -/
def bb_candidates_loop (cost_model : CostModel) (output_indices : List Char)
    (search : BBState → TensorState → List ContractionStep → ContractionCost →
      Nat → Option BBState)
    (tensor_state : TensorState) (current_path : List ContractionStep)
    (current_cost : ContractionCost) (depth : Nat) :
    BBState → List (Nat × Nat × ContractionCost × ContractionStep) → Option BBState
  | st, [] => some st
  | st, (i, j, step_cost, step) :: rest =>
    let new_cost := current_cost.add step_cost
    if ¬ new_cost.lt st.best_cost then some st
    else do
      let new_tensor_state ← tensor_state.contract i j step.result_indices
      let st' ← search st new_tensor_state (current_path ++ [step]) new_cost (depth + 1)
      if st'.nodes_explored ≥ MAX_NODES then some st'
      else
        bb_candidates_loop cost_model output_indices search tensor_state current_path current_cost depth st' rest

/-- `branch_bound_search` (fueled; the recursion depth is bounded by the
number of tensors, so any fuel above `tensor_state.len` is enough). -/
def bb_search (cost_model : CostModel) (output_indices : List Char) :
    Nat → BBState → TensorState → List ContractionStep → ContractionCost →
    Nat → Option BBState
  | 0, _, _, _, _, _ => none
  | fuel + 1, st0, tensor_state, current_path, current_cost, depth =>
    let st : BBState := { st0 with nodes_explored := st0.nodes_explored + 1 }
    if st.nodes_explored ≥ MAX_NODES then some st
    else if tensor_state.len ≤ 1 then
      if current_cost.lt st.best_cost then
        some { st with best_cost := current_cost
                       best_path := some (ContractionPath.ofSteps current_path) }
      else some st
    else if depth ≥ MAX_SEARCH_DEPTH then do
      let remaining_cost ← greedy_remaining_cost tensor_state output_indices cost_model
      let total_cost := current_cost.add remaining_cost
      if total_cost.lt st.best_cost then do
        let greedy_steps ← greedy_remaining_steps tensor_state output_indices cost_model
        pure { st with best_cost := total_cost
                       best_path := some (ContractionPath.ofSteps (current_path ++ greedy_steps)) }
      else some st
    else
      let lower_bound := cost_model.optimistic_remaining_cost tensor_state.shapes
      if ¬ (current_cost.add lower_bound).lt st.best_cost then some st
      else do
        let candidates ← generate_candidates tensor_state output_indices cost_model
        let sorted := sortByCost candidates
        bb_candidates_loop cost_model output_indices
          (bb_search cost_model output_indices fuel) tensor_state current_path
          current_cost depth st sorted

/-- `branch_bound_path`. -/
def branch_bound_path (e : EinsumExpr) (shapes : List (List Nat))
    (cost_model : CostModel) : Option ContractionPath := do
  let n := e.num_inputs
  if n = 0 || n = 1 then some ContractionPath.new
  else do
    let initial_shapes := shapes
    let initial_indices := initialIndices e
    let output_indices := sortedDedup e.output.named_indices
    let greedy ← greedy_path e shapes cost_model
    let greedy_cost ← compute_path_cost greedy initial_shapes initial_indices cost_model
    let st : BBState :=
      { best_path := some greedy, best_cost := greedy_cost, nodes_explored := 0 }
    let tensor_state := TensorState.new initial_shapes initial_indices
    let final ← bb_search cost_model output_indices (n + 1) st tensor_state []
      ContractionCost.zero 0
    pure (final.best_path.getD ContractionPath.new)

/-! ## Execution plans (`optimization/plan.rs`) -/

/-- `MAX_BB_TENSORS`. -/
def MAX_BB_TENSORS : Nat := 20

/-- `ContractionStrategy`. -/
inductive ContractionStrategy where
  | Greedy | Optimal | BranchBound | Auto
deriving Repr, DecidableEq

/-- `ReductionOp` in `plan.rs`. -/
inductive ReductionOp where
  | Sum | Prod | Max | Min
deriving Repr, DecidableEq

/-- `ExecutionStep`. -/
inductive ExecutionStep where
  | FastPathStep (fp : FastPath)
  | Contraction (inputs : Nat × Nat) (contracted result : List Char) (flops : Nat)
  | Permutation (input : Nat) (perm : List Nat)
  | Reduction (input : Nat) (axes : List Nat) (op : ReductionOp)
deriving Repr, DecidableEq

/-- `ExecutionPlan`. -/
structure ExecutionPlan where
  steps : List ExecutionStep
  total_flops : Nat
  output_shape : List Nat
  uses_fast_path : Bool
  input_indices : List (List Char)
deriving Repr, DecidableEq

namespace ExecutionPlan

/-- `ExecutionPlan::fast_path`. -/
def fast_path (fp : FastPath) (output_shape : List Nat) (flops : Nat) :
    ExecutionPlan :=
  { steps := [ExecutionStep.FastPathStep fp], total_flops := flops,
    output_shape := output_shape, uses_fast_path := true, input_indices := [] }

/-- `ExecutionPlan::from_contraction_path`. -/
def from_contraction_path (path : ContractionPath) (output_shape : List Nat)
    (input_indices : List (List Char)) : ExecutionPlan :=
  { steps := path.steps.map (fun s =>
      ExecutionStep.Contraction s.inputs s.contracted_indices s.result_indices
        s.estimated_flops)
    total_flops := path.total_flops
    output_shape := output_shape
    uses_fast_path := false
    input_indices := input_indices }

/-- `ExecutionPlan::num_steps`. -/
def num_steps (p : ExecutionPlan) : Nat := p.steps.length

end ExecutionPlan

/-- `compute_output_shape` in `plan.rs` (a simplified non-ellipsis version of
the validator's computation: missing indices are silently skipped). -/
def plan_output_shape (e : EinsumExpr) (shapes : List (List Nat)) : List Nat :=
  let dim_map : DimMap :=
    (e.inputs.zip shapes).foldl
      (fun m p => dimInsertZip m p.1.named_indices p.2) []
  e.output.named_indices.filterMap (fun c => dimGet dim_map c)

/-- `estimate_fast_path_flops` (plain `u64` arithmetic, wrapping on overflow). -/
def estimate_fast_path_flops (fp : FastPath) (shapes : List (List Nat)) : Nat :=
  match fp with
  | FastPath.Matmul _ _ =>
    if shapes.length ≥ 2 then
      let m := (shapes.getD 0 []).getD 0 1
      let k := (shapes.getD 0 []).getD 1 1
      let n := (shapes.getD 1 []).getD 1 1
      wrapMul (wrapMul (wrapMul 2 m) k) n
    else 0
  | FastPath.BatchedMatmul batch_dims _ _ =>
    if shapes.length ≥ 2 then
      let batch_size := wrapProd (batch_dims.map (fun i => (shapes.getD 0 []).getD i 1))
      let m := (shapes.getD 0 []).getD batch_dims.length 1
      let k := (shapes.getD 0 []).getD (batch_dims.length + 1) 1
      let n := (shapes.getD 1 []).getD (batch_dims.length + 1) 1
      wrapMul (wrapMul (wrapMul (wrapMul 2 batch_size) m) k) n
    else 0
  | FastPath.Reduce _ _ =>
    match shapes.head? with
    | some shape => wrapProd shape
    | none => 0
  | FastPath.Transpose _ =>
    match shapes.head? with
    | some shape => wrapProd shape
    | none => 0
  | FastPath.Hadamard =>
    match shapes.head? with
    | some shape => wrapProd shape
    | none => 0
  | FastPath.OuterProduct =>
    if shapes.length ≥ 2 then
      wrapMul (wrapProd (shapes.getD 0 [])) (wrapProd (shapes.getD 1 []))
    else 0
  | FastPath.DotProduct =>
    match shapes.head? with
    | some shape => wrapMul 2 (wrapProd shape)
    | none => 0
  | FastPath.Trace =>
    match shapes.head? with
    | some shape => shape.getD 0 1
    | none => 0
  | FastPath.DiagonalExtract =>
    match shapes.head? with
    | some shape => shape.getD 0 1
    | none => 0

/-- The strategy dispatch inside `create_plan` (the `match strategy` block;
the cost model there is `CostModel::default()`, `alpha = 64`). -/
def select_path (e : EinsumExpr) (shapes : List (List Nat))
    (cost_model : CostModel) (strategy : ContractionStrategy) :
    Option ContractionPath :=
  let n := e.num_inputs
  match strategy with
  | ContractionStrategy.Greedy => greedy_path e shapes cost_model
  | ContractionStrategy.Optimal =>
    if n ≤ MAX_DP_TENSORS then optimal_path e shapes cost_model
    else greedy_path e shapes cost_model
  | ContractionStrategy.BranchBound =>
    if n ≤ MAX_BB_TENSORS then branch_bound_path e shapes cost_model
    else greedy_path e shapes cost_model
  | ContractionStrategy.Auto =>
    if n ≤ 4 then optimal_path e shapes cost_model
    else if n ≤ MAX_DP_TENSORS then branch_bound_path e shapes cost_model
    else if n ≤ MAX_BB_TENSORS then branch_bound_path e shapes cost_model
    else greedy_path e shapes cost_model

/-- `create_plan`; `none` models panics propagated from the strategy
functions. -/
def create_plan (e : EinsumExpr) (shapes : List (List Nat))
    (strategy : ContractionStrategy) : Option ExecutionPlan :=
  match recognize_pattern e with
  | some fp =>
    let output_shape := plan_output_shape e shapes
    let flops := estimate_fast_path_flops fp shapes
    some (ExecutionPlan.fast_path fp output_shape flops)
  | none =>
    match select_path e shapes { alpha := 64 } strategy with
    | none => none
    | some path =>
      let output_shape := plan_output_shape e shapes
      let input_indices := initialIndices e
      some (ExecutionPlan.from_contraction_path path output_shape input_indices)

/-! ## Executor model (`launch/executor.rs`, `kernels/*.rs`)

`TensorHandle` is an opaque reference-counted buffer id plus shape/strides
metadata and an element type.  Kernel and backend launches are recorded in a
trace; the external GEMM and reduce backends and the device kernels are
assumed to succeed (their numeric effect is outside this model, their launch
is the observable event).  Rust panics are a distinct outcome. -/

/-- `compute_strides` in `executor.rs`: row-major contiguous strides
(`strides[i] = strides[i+1] * shape[i+1]`, wrapping `usize` products). -/
def compute_strides (shape : List Nat) : List Nat :=
  (shape.foldr (fun d (acc : List Nat × Nat) => (acc.2 :: acc.1, wrapMul acc.2 d))
    ([], 1)).1

/-- A tensor view: buffer id, shape, strides (elements), element type. -/
structure TensorHandle where
  handle : Nat
  shape : List Nat
  strides : List Nat
  dtype : Nat
deriving Repr, DecidableEq

/-- One recorded launch: a delegated GEMM, a delegated reduce, or one of the
elementary kernels. -/
inductive LaunchEvent where
  | gemm (lhs rhs out : TensorHandle)
  | reduceK (input out : TensorHandle) (axis : Nat)
  | hadamardK (lhs rhs out : TensorHandle)
  | outerK (lhs rhs out : TensorHandle)
  | dotFusedK (lhs rhs out : TensorHandle)
  | dotPartialK (lhs rhs partial_sums : TensorHandle)
  | dotReduceK (partial_sums out : TensorHandle)
  | dotReduceMultiK (partial_sums out : TensorHandle)
  | diagK (input out : TensorHandle)
  | copyK (input out : TensorHandle)
  | bmul1dK (lhs rhs out : TensorHandle)
  | bmul2dK (lhs rhs out : TensorHandle)
  | copyBroadcastK (input out : TensorHandle)
deriving Repr, DecidableEq

/-- Executor state: allocation counter and the launch trace (in order). -/
structure ExecS where
  nextId : Nat
  trace : List LaunchEvent
deriving Repr, DecidableEq

/-- Outcome of an executor computation: success, an `EinsumError`, or a Rust
panic. -/
inductive ExecOut (α : Type) where
  | ok (a : α) (s : ExecS)
  | err (e : EinsumError) (s : ExecS)
  | panic
deriving Repr

/-- The executor monad. -/
def Exec (α : Type) := ExecS → ExecOut α

instance : Monad Exec where
  pure a := fun s => ExecOut.ok a s
  bind x f := fun s =>
    match x s with
    | ExecOut.ok a s' => f a s'
    | ExecOut.err e s' => ExecOut.err e s'
    | ExecOut.panic => ExecOut.panic

/-- Record a launch event. -/
def emit (ev : LaunchEvent) : Exec Unit :=
  fun s => ExecOut.ok () { s with trace := s.trace ++ [ev] }

/-- Raise an `EinsumError`. -/
def throwE {α : Type} (e : EinsumError) : Exec α :=
  fun s => ExecOut.err e s

/-- A Rust panic. -/
def panicE {α : Type} : Exec α := fun _ => ExecOut.panic

/-- `TensorHandle::zeros` / `TensorHandle::empty`: allocate a fresh
contiguous buffer (allocation is a runtime call, not a kernel launch). -/
def tensorAlloc (shape : List Nat) (dtype : Nat) : Exec TensorHandle :=
  fun s => ExecOut.ok
    { handle := s.nextId, shape := shape,
      strides := compute_strides shape, dtype := dtype }
    { s with nextId := s.nextId + 1 }

/-- `usize` product of a shape (`shape.iter().product()`, wrapping). -/
def usizeProd (l : List Nat) : Nat := wrapProd l

/-- `a as u32` truncation. -/
def toU32 (a : Nat) : Nat := a % 2 ^ 32

/-- `swap` of two positions of a `Vec`. -/
def listSwap (l : List Nat) (a b : Nat) : List Nat :=
  (l.set a (l.getD b 0)).set b (l.getD a 0)

/-! ### `kernels/hadamard.rs` -/

/-- `launch_hadamard`. -/
def launch_hadamard (lhs rhs output : TensorHandle) : Exec Unit := do
  if lhs.shape ≠ rhs.shape then
    throwE (EinsumError.LaunchError "hadamard requires same shape inputs")
  else if lhs.shape ≠ output.shape then
    throwE (EinsumError.LaunchError "hadamard output shape mismatch")
  else
    let num_elements := usizeProd lhs.shape
    if num_elements = 0 then pure ()
    else emit (LaunchEvent.hadamardK lhs rhs output)

/-! ### `kernels/outer_product.rs` -/

/-- `launch_outer_product`. -/
def launch_outer_product (lhs rhs output : TensorHandle) : Exec Unit := do
  let lhs_size := usizeProd lhs.shape
  let rhs_size := usizeProd rhs.shape
  if lhs_size = 0 || rhs_size = 0 then pure ()
  else
    let expected := wrapMul lhs_size rhs_size
    let output_size := usizeProd output.shape
    if output_size ≠ expected then
      throwE (EinsumError.LaunchError "outer product output size mismatch")
    else emit (LaunchEvent.outerK lhs rhs output)

/-! ### `kernels/dot_product.rs` -/

/-- `launch_dot_product`. -/
def launch_dot_product (lhs rhs output : TensorHandle) : Exec Unit := do
  if lhs.shape ≠ rhs.shape then
    throwE (EinsumError.LaunchError "dot product requires same shape inputs")
  else
    let num_elements := usizeProd lhs.shape
    if num_elements = 0 then pure ()
    else
      let output_size := usizeProd output.shape
      if output_size ≠ 1 then
        throwE (EinsumError.LaunchError "dot product output should be scalar")
      else
        let n32 := toU32 num_elements
        let num_blocks := toU32 (n32 + 256 - 1) / 256
        if num_blocks = 1 then
          emit (LaunchEvent.dotFusedK lhs rhs output)
        else do
          let partial_sums ← tensorAlloc [num_blocks] lhs.dtype
          emit (LaunchEvent.dotPartialK lhs rhs partial_sums)
          let final_blocks := toU32 (num_blocks + 256 - 1) / 256
          if final_blocks = 1 then
            emit (LaunchEvent.dotReduceK partial_sums output)
          else do
            let level2 ← tensorAlloc [final_blocks] lhs.dtype
            emit (LaunchEvent.dotReduceMultiK partial_sums level2)
            emit (LaunchEvent.dotReduceK level2 output)

/-! ### `kernels/diagonal.rs` -/

/-- `launch_diagonal`. -/
def launch_diagonal (input output : TensorHandle) : Exec Unit := do
  if input.shape.length < 2 then
    throwE (EinsumError.LaunchError "diagonal requires at least 2D input")
  else
    let ndim := input.shape.length
    let rows := input.shape.getD (ndim - 2) 0
    let cols := input.shape.getD (ndim - 1) 0
    if rows ≠ cols then
      throwE (EinsumError.LaunchError "diagonal requires square matrix")
    else
      let n := rows
      if n = 0 then pure ()
      else
        let batch_size := if ndim > 2 then usizeProd (input.shape.take (ndim - 2)) else 1
        let expected := wrapMul batch_size n
        let output_size := usizeProd output.shape
        if output_size ≠ expected then
          throwE (EinsumError.LaunchError "diagonal output size mismatch")
        else emit (LaunchEvent.diagK input output)

/-! ### `kernels/trace.rs` -/

/-- `launch_trace`: extract the diagonal into a workspace, then delegate to
the external reduce along the last axis. -/
def launch_trace (input output : TensorHandle) : Exec Unit := do
  if input.shape.length < 2 then
    throwE (EinsumError.LaunchError "trace requires at least 2D input")
  else
    let ndim := input.shape.length
    let rows := input.shape.getD (ndim - 2) 0
    let cols := input.shape.getD (ndim - 1) 0
    if rows ≠ cols then
      throwE (EinsumError.LaunchError "trace requires square matrix")
    else
      let n := rows
      if n = 0 then pure ()
      else
        let batch_size := if ndim > 2 then usizeProd (input.shape.take (ndim - 2)) else 1
        let output_size := usizeProd output.shape
        if output_size ≠ batch_size then
          throwE (EinsumError.LaunchError "trace output size mismatch")
        else do
          let diagonal_shape :=
            if ndim > 2 then input.shape.take (ndim - 2) ++ [n] else [n]
          let diagonal_workspace ← tensorAlloc diagonal_shape input.dtype
          launch_diagonal input diagonal_workspace
          let reduce_axis := diagonal_workspace.shape.length - 1
          emit (LaunchEvent.reduceK diagonal_workspace output reduce_axis)

/-! ### `kernels/copy_reshape.rs` -/

/-- `copy_reshape`. -/
def copy_reshape (input output : TensorHandle) : Exec Unit := do
  let input_elements := usizeProd input.shape
  let output_elements := usizeProd output.shape
  if input_elements ≠ output_elements then
    throwE (EinsumError.ShapeError "copy_reshape element count mismatch")
  else if input_elements = 0 then pure ()
  else emit (LaunchEvent.copyK input output)

/-! ### `kernels/broadcast_multiply.rs` -/

/-- `materialize_tensor`: copy a (possibly stride-0) view into a fresh
contiguous buffer. -/
def materialize_tensor (input : TensorHandle) (target_shape : List Nat) :
    Exec TensorHandle := do
  let num_elements := usizeProd target_shape
  let result ← tensorAlloc target_shape input.dtype
  if num_elements = 0 then pure result
  else
    let rank := target_shape.length
    if rank = 1 || rank = 2 || rank = 3 then do
      emit (LaunchEvent.copyBroadcastK input result)
      pure result
    else throwE (EinsumError.LaunchError "broadcast multiply rank exceeds 3")

/-- `materialize_and_multiply`. -/
def materialize_and_multiply (lhs rhs output : TensorHandle) : Exec Unit := do
  let lhs_contiguous ←
    if lhs.strides.any (fun s => s = 0) then materialize_tensor lhs output.shape
    else pure lhs
  let rhs_contiguous ←
    if rhs.strides.any (fun s => s = 0) then materialize_tensor rhs output.shape
    else pure rhs
  launch_hadamard lhs_contiguous rhs_contiguous output

/-- `launch_broadcast_multiply`. -/
def launch_broadcast_multiply (lhs rhs output : TensorHandle) : Exec Unit := do
  let rank := output.shape.length
  if lhs.shape.length ≠ rank || rhs.shape.length ≠ rank then
    throwE (EinsumError.LaunchError "broadcast multiply rank mismatch")
  else
    let num_elements := usizeProd output.shape
    if num_elements = 0 then pure ()
    else if rank = 1 then emit (LaunchEvent.bmul1dK lhs rhs output)
    else if rank = 2 then emit (LaunchEvent.bmul2dK lhs rhs output)
    else materialize_and_multiply lhs rhs output

/-! ### Executor (`launch/executor.rs`)

Functions that take `output: &mut TensorHandle` in Rust return the updated
output handle here. -/

/-- Insertion into a descending sorted `Nat` list. -/
def insertDesc (a : Nat) : List Nat → List Nat
  | [] => [a]
  | x :: xs => if x ≤ a then a :: x :: xs else x :: insertDesc a xs

/-- Descending insertion sort (`sort_by(|a, b| b.cmp(a))`). -/
def sortNatDesc (l : List Nat) : List Nat := l.foldr insertDesc []

/-- `EinsumConfig` (`launch/config.rs`). -/
structure EinsumConfig where
  strategy : ContractionStrategy
  use_tensor_cores : Bool
  autotune : Bool
  validate_shapes : Bool
deriving Repr, DecidableEq

/-- `EinsumConfig::default`. -/
def EinsumConfig.default : EinsumConfig :=
  { strategy := ContractionStrategy.Auto, use_tensor_cores := true,
    autotune := true, validate_shapes := true }

/-- `execute_matmul`: swap the last two axes of transposed operands
(zero-copy) and delegate to the external GEMM. -/
def execute_matmul (inputs : List TensorHandle) (output : TensorHandle)
    (transpose_a transpose_b : Bool) (_batch_dims : List Nat) :
    Exec TensorHandle := do
  if inputs.length < 2 then
    throwE (EinsumError.Unsupported "matmul requires 2 inputs")
  else
    let lhs0 := inputs.getD 0 output
    let rhs0 := inputs.getD 1 output
    let lhs :=
      if transpose_a then
        let ndim := lhs0.shape.length
        if ndim ≥ 2 then
          { lhs0 with shape := listSwap lhs0.shape (ndim - 2) (ndim - 1)
                      strides := listSwap lhs0.strides (ndim - 2) (ndim - 1) }
        else lhs0
      else lhs0
    let rhs :=
      if transpose_b then
        let ndim := rhs0.shape.length
        if ndim ≥ 2 then
          { rhs0 with shape := listSwap rhs0.shape (ndim - 2) (ndim - 1)
                      strides := listSwap rhs0.strides (ndim - 2) (ndim - 1) }
        else rhs0
      else rhs0
    emit (LaunchEvent.gemm lhs rhs output)
    pure output

/-- `keep_dim_shape[axis] = 1` with the Rust index-out-of-bounds panic. -/
def setKeepDim (shape : List Nat) (axis : Nat) : Exec (List Nat) :=
  if axis < shape.length then pure (shape.set axis 1) else panicE

/-- `execute_multi_axis_reduce`: reduce one axis at a time in descending
order; the final step rebinds the output buffer when the caller's shape is
the squeezed one. -/
def execute_multi_axis_reduce (input output : TensorHandle) (axes : List Nat) :
    Exec TensorHandle := do
  let sorted_axes := sortNatDesc axes
  let dtype := input.dtype
  let rec go (current output : TensorHandle) : List Nat → Exec TensorHandle
    | [] => pure output
    | axis :: rest => do
      let keep_dim_shape ← setKeepDim current.shape axis
      if rest.isEmpty then
        if output.shape = keep_dim_shape then do
          emit (LaunchEvent.reduceK current output axis)
          pure output
        else do
          let intermediate ← tensorAlloc keep_dim_shape dtype
          emit (LaunchEvent.reduceK current intermediate axis)
          pure { output with handle := intermediate.handle
                             strides := compute_strides output.shape }
      else do
        let workspace ← tensorAlloc keep_dim_shape dtype
        emit (LaunchEvent.reduceK current workspace axis)
        go workspace output rest
  go input output sorted_axes

/-- `execute_reduce`. -/
def execute_reduce (inputs : List TensorHandle) (output : TensorHandle)
    (axes : List Nat) : Exec TensorHandle := do
  if inputs.isEmpty then
    throwE (EinsumError.Unsupported "reduce requires at least 1 input")
  else
    let input := inputs.getD 0 output
    if axes.length > 1 then execute_multi_axis_reduce input output axes
    else if axes.isEmpty then
      throwE (EinsumError.Unsupported "empty reduction axes")
    else do
      let axis := axes.getD 0 0
      let keep_dim_shape ← setKeepDim input.shape axis
      if output.shape = keep_dim_shape then do
        emit (LaunchEvent.reduceK input output axis)
        pure output
      else do
        let intermediate ← tensorAlloc keep_dim_shape input.dtype
        emit (LaunchEvent.reduceK input intermediate axis)
        pure { output with handle := intermediate.handle
                           strides := compute_strides output.shape }

/-- `execute_transpose`: zero-copy permutation of the output's metadata (the
buffer handle is left as the caller set it). -/
def execute_transpose (inputs : List TensorHandle) (output : TensorHandle)
    (permutation : List Nat) : Exec TensorHandle := do
  if inputs.isEmpty then
    throwE (EinsumError.Unsupported "transpose requires 1 input")
  else
    let input := inputs.getD 0 output
    if permutation.any (fun i => input.shape.length ≤ i) then panicE
    else if permutation.any (fun i => input.strides.length ≤ i) then panicE
    else
      pure { output with
        shape := permutation.map (fun i => input.shape.getD i 0)
        strides := permutation.map (fun i => input.strides.getD i 0) }

/-- `execute_broadcast_multiply` (in `executor.rs`): align one operand to the
other with stride-0 broadcast axes and invoke the broadcast-multiply kernel. -/
def execute_broadcast_multiply (lhs rhs output : TensorHandle)
    (lhs_indices rhs_indices : List Char) : Exec TensorHandle := do
  let lhs_rank := lhs_indices.length
  let rhs_rank := rhs_indices.length
  if lhs_indices = rhs_indices ∧ lhs.shape = rhs.shape then do
    launch_hadamard lhs rhs output
    pure output
  else if rhs_rank < lhs_rank ∧ rhs_indices.all (fun c => lhs_indices.contains c) then do
    let pairs := (List.range lhs_indices.length).map
      (fun i => (i, lhs_indices.getD i ' '))
    let new_shape := pairs.map (fun p =>
      match rhs_indices.indexOf? p.2 with
      | some pos => rhs.shape.getD pos 0
      | none => lhs.shape.getD p.1 0)
    let new_strides := pairs.map (fun p =>
      match rhs_indices.indexOf? p.2 with
      | some pos => rhs.strides.getD pos 0
      | none => 0)
    let rhs_broadcast := { rhs with shape := new_shape, strides := new_strides }
    launch_broadcast_multiply lhs rhs_broadcast output
    pure output
  else if lhs_rank < rhs_rank ∧ lhs_indices.all (fun c => rhs_indices.contains c) then do
    let pairs := (List.range rhs_indices.length).map
      (fun i => (i, rhs_indices.getD i ' '))
    let new_shape := pairs.map (fun p =>
      match lhs_indices.indexOf? p.2 with
      | some pos => lhs.shape.getD pos 0
      | none => rhs.shape.getD p.1 0)
    let new_strides := pairs.map (fun p =>
      match lhs_indices.indexOf? p.2 with
      | some pos => lhs.strides.getD pos 0
      | none => 0)
    let lhs_broadcast := { lhs with shape := new_shape, strides := new_strides }
    launch_broadcast_multiply lhs_broadcast rhs output
    pure output
  else
    throwE (EinsumError.Unsupported "complex broadcast multiply not yet supported")

/-- `is_identity_permutation`. -/
def is_identity_permutation (perm : List Nat) : Bool :=
  ((List.range perm.length).zip perm).all (fun p => p.1 = p.2)

/-- `execute_general_contraction_with_indices`: permute/reshape both operands
into `[batch..., M, K]` / `[batch..., K, N]` layout (materializing via
copy-reshape when both a permutation and a collapse are needed) and delegate
to the external batched GEMM.  The batch index list is collected from a
`HashSet` difference in Rust (unspecified order); it is sorted here. -/
def execute_general_contraction_with_indices (lhs rhs output : TensorHandle)
    (lhs_indices rhs_indices contracted : List Char) : Exec TensorHandle := do
  if contracted.isEmpty then
    execute_broadcast_multiply lhs rhs output lhs_indices rhs_indices
  else
    let dim_map : DimMap :=
      dimInsertZip (dimInsertZip [] lhs_indices lhs.shape) rhs_indices rhs.shape
    let contracted_set := sortedDedup contracted
    let lhs_set := sortedDedup lhs_indices
    let rhs_set := sortedDedup rhs_indices
    let common_indices := setInter lhs_set rhs_set
    let batch_indices := common_indices.filter (fun c => ! memChar contracted_set c)
    let batch_set := batch_indices
    let positionsWhere := fun (l : List Char) (p : Char → Bool) =>
      ((List.range l.length).zip l).filterMap
        (fun q => if p q.2 then some q.1 else none)
    let lhs_batch := positionsWhere lhs_indices (fun c => memChar batch_set c)
    let lhs_m := positionsWhere lhs_indices
      (fun c => ! memChar contracted_set c && ! memChar batch_set c)
    let lhs_contracted := positionsWhere lhs_indices (fun c => memChar contracted_set c)
    let rhs_batch := positionsWhere rhs_indices (fun c => memChar batch_set c)
    let lhs_contracted_chars := lhs_indices.filter (fun c => memChar contracted_set c)
    let rhs_contracted := lhs_contracted_chars.filterMap
      (fun c => ((List.range rhs_indices.length).zip rhs_indices).reverse.findSome?
        (fun q => if q.2 = c && memChar contracted_set c then some q.1 else none))
    let rhs_n := positionsWhere rhs_indices
      (fun c => ! memChar contracted_set c && ! memChar batch_set c)
    let batch_shape := batch_indices.map (fun c => (dimGet dim_map c).getD 0)
    let m := max (usizeProd (lhs_m.map (fun i => lhs.shape.getD i 0))) 1
    let k := max (usizeProd (lhs_contracted.map (fun i => lhs.shape.getD i 0))) 1
    let n := max (usizeProd (rhs_n.map (fun i => rhs.shape.getD i 0))) 1
    let lhs_perm := lhs_batch ++ lhs_m ++ lhs_contracted
    let rhs_perm := rhs_batch ++ rhs_contracted ++ rhs_n
    let lhs_needs_transpose := ¬ is_identity_permutation lhs_perm
    let rhs_needs_transpose := ¬ is_identity_permutation rhs_perm
    let lhs_target_shape :=
      if ¬ batch_shape.isEmpty then batch_shape ++ [m, k] else [m, k]
    let rhs_target_shape :=
      if ¬ batch_shape.isEmpty then batch_shape ++ [k, n] else [k, n]
    let lhs_needs_reshape := lhs_perm.length ≠ lhs_target_shape.length
    let rhs_needs_reshape := rhs_perm.length ≠ rhs_target_shape.length
    let lhs_reshaped ←
      if lhs_needs_transpose ∧ lhs_needs_reshape then do
        let permuted := { lhs with
          shape := lhs_perm.map (fun i => lhs.shape.getD i 0)
          strides := lhs_perm.map (fun i => lhs.strides.getD i 0) }
        let materialized ← tensorAlloc lhs_target_shape lhs.dtype
        copy_reshape permuted materialized
        pure materialized
      else if lhs_needs_transpose then
        pure { lhs with
          shape := lhs_perm.map (fun i => lhs.shape.getD i 0)
          strides := lhs_perm.map (fun i => lhs.strides.getD i 0) }
      else if lhs_needs_reshape then
        pure { lhs with shape := lhs_target_shape
                        strides := compute_strides lhs_target_shape }
      else pure lhs
    let rhs_reshaped ←
      if rhs_needs_transpose ∧ rhs_needs_reshape then do
        let permuted := { rhs with
          shape := rhs_perm.map (fun i => rhs.shape.getD i 0)
          strides := rhs_perm.map (fun i => rhs.strides.getD i 0) }
        let materialized ← tensorAlloc rhs_target_shape rhs.dtype
        copy_reshape permuted materialized
        pure materialized
      else if rhs_needs_transpose then
        pure { rhs with
          shape := rhs_perm.map (fun i => rhs.shape.getD i 0)
          strides := rhs_perm.map (fun i => rhs.strides.getD i 0) }
      else if rhs_needs_reshape then
        pure { rhs with shape := rhs_target_shape
                        strides := compute_strides rhs_target_shape }
      else pure rhs
    let needs_reshape := output.shape.length < 2
    let output_for_matmul :=
      if needs_reshape then
        let new_shape :=
          if ¬ batch_shape.isEmpty then batch_shape ++ [max m 1, max n 1]
          else [m, n]
        { output with shape := new_shape, strides := compute_strides new_shape }
      else output
    emit (LaunchEvent.gemm lhs_reshaped rhs_reshaped output_for_matmul)
    if needs_reshape then
      pure { output with strides := compute_strides output.shape }
    else pure output

/-- `infer_input_indices`. -/
def infer_input_indices (input_idx ndim : Nat) : List Char :=
  let all_indices := "abcdefghijklmnopqrstuvwxyz".toList
  let start := input_idx * 4
  (List.range ndim).map (fun i => all_indices.getD (start + i) '?')

/-- `compute_contraction_shape_with_indices`. -/
def compute_contraction_shape_with_indices (lhs rhs : TensorHandle)
    (lhs_indices rhs_indices result_indices : List Char) : List Nat :=
  let dim_map : DimMap :=
    dimInsertZip (dimInsertZip [] lhs_indices lhs.shape) rhs_indices rhs.shape
  result_indices.filterMap (fun c => dimGet dim_map c)

/-- `TrackedTensor`. -/
structure TrackedTensor where
  tensor : TensorHandle
  indices : List Char
deriving Repr, DecidableEq

/-- `execute_hadamard`. -/
def execute_hadamard (inputs : List TensorHandle) (output : TensorHandle) :
    Exec TensorHandle := do
  if inputs.length < 2 then
    throwE (EinsumError.Unsupported "hadamard requires 2 inputs")
  else do
    launch_hadamard (inputs.getD 0 output) (inputs.getD 1 output) output
    pure output

/-- `execute_outer_product`. -/
def execute_outer_product (inputs : List TensorHandle) (output : TensorHandle) :
    Exec TensorHandle := do
  if inputs.length < 2 then
    throwE (EinsumError.Unsupported "outer product requires 2 inputs")
  else do
    launch_outer_product (inputs.getD 0 output) (inputs.getD 1 output) output
    pure output

/-- `execute_dot_product`. -/
def execute_dot_product (inputs : List TensorHandle) (output : TensorHandle) :
    Exec TensorHandle := do
  if inputs.length < 2 then
    throwE (EinsumError.Unsupported "dot product requires 2 inputs")
  else do
    launch_dot_product (inputs.getD 0 output) (inputs.getD 1 output) output
    pure output

/-- `execute_trace`. -/
def execute_trace (inputs : List TensorHandle) (output : TensorHandle) :
    Exec TensorHandle := do
  if inputs.isEmpty then
    throwE (EinsumError.Unsupported "trace requires 1 input")
  else do
    launch_trace (inputs.getD 0 output) output
    pure output

/-- `execute_diagonal`. -/
def execute_diagonal (inputs : List TensorHandle) (output : TensorHandle) :
    Exec TensorHandle := do
  if inputs.isEmpty then
    throwE (EinsumError.Unsupported "diagonal extraction requires 1 input")
  else do
    launch_diagonal (inputs.getD 0 output) output
    pure output

/-- `execute_fast_path`. -/
def execute_fast_path (fp : FastPath) (inputs : List TensorHandle)
    (output : TensorHandle) : Exec TensorHandle :=
  match fp with
  | FastPath.Matmul ta tb => execute_matmul inputs output ta tb []
  | FastPath.BatchedMatmul bd ta tb => execute_matmul inputs output ta tb bd
  | FastPath.Reduce axes _ => execute_reduce inputs output axes
  | FastPath.Transpose perm => execute_transpose inputs output perm
  | FastPath.Hadamard => execute_hadamard inputs output
  | FastPath.OuterProduct => execute_outer_product inputs output
  | FastPath.DotProduct => execute_dot_product inputs output
  | FastPath.Trace => execute_trace inputs output
  | FastPath.DiagonalExtract => execute_diagonal inputs output

/-- One iteration of the step loop in `execute_contractions`. -/
def execute_contraction_step (tracked : List TrackedTensor)
    (output : TensorHandle) (dtype : Nat) (is_last : Bool)
    (inputs : List TensorHandle) (_config_unused : Unit) :
    ExecutionStep → Exec (List TrackedTensor × TensorHandle × Option TensorHandle)
  | ExecutionStep.Contraction (i, j) contracted result _ => do
    if tracked.length ≤ i || tracked.length ≤ j then
      throwE (EinsumError.LaunchError "contraction step references invalid tensor indices")
    else
      let ti := (tracked.getD i ⟨output, []⟩)
      let tj := (tracked.getD j ⟨output, []⟩)
      let lhs_indices := ti.indices
      let rhs_indices := tj.indices
      let contraction_output_shape :=
        compute_contraction_shape_with_indices ti.tensor tj.tensor
          lhs_indices rhs_indices result
      if is_last then do
        let output' ← execute_general_contraction_with_indices ti.tensor tj.tensor
          output lhs_indices rhs_indices contracted
        pure (tracked, output', none)
      else do
        let workspace ← tensorAlloc contraction_output_shape dtype
        let workspace' ← execute_general_contraction_with_indices ti.tensor tj.tensor
          workspace lhs_indices rhs_indices contracted
        let lo := min i j
        let hi := max i j
        let tracked' := ((tracked.eraseIdx hi).eraseIdx lo) ++
          [⟨workspace', result⟩]
        pure (tracked', output, none)
  | ExecutionStep.FastPathStep fp => do
    let out' ← execute_fast_path fp inputs output
    pure (tracked, out', some out')
  | ExecutionStep.Permutation input perm => do
    if tracked.length ≤ input then
      throwE (EinsumError.LaunchError "permutation references invalid tensor")
    else
      let tt := tracked.getD input ⟨output, []⟩
      if perm.any (fun p => tt.tensor.shape.length ≤ p ∨ tt.tensor.strides.length ≤ p ∨
          tt.indices.length ≤ p) then panicE
      else
        let tt' : TrackedTensor :=
          { tensor := { tt.tensor with
              shape := perm.map (fun p => tt.tensor.shape.getD p 0)
              strides := perm.map (fun p => tt.tensor.strides.getD p 0) }
            indices := perm.map (fun p => tt.indices.getD p ' ') }
        pure (tracked.set input tt', output, none)
  | ExecutionStep.Reduction input axes op => do
    if tracked.length ≤ input then
      throwE (EinsumError.LaunchError "reduction references invalid tensor")
    else if op ≠ ReductionOp.Sum then
      throwE (EinsumError.Unsupported "only sum reduction supported")
    else
      let tt := tracked.getD input ⟨output, []⟩
      if is_last then do
        let output' ← execute_reduce [tt.tensor] output axes
        pure (tracked, output', none)
      else
        let reduced_shape0 :=
          ((List.range tt.tensor.shape.length).zip tt.tensor.shape).filterMap
            (fun p => if axes.contains p.1 then none else some p.2)
        let reduced_indices :=
          ((List.range tt.indices.length).zip tt.indices).filterMap
            (fun p => if axes.contains p.1 then none else some p.2)
        let reduced_shape := if reduced_shape0.isEmpty then [1] else reduced_shape0
        do
          let workspace ← tensorAlloc reduced_shape dtype
          let workspace' ← execute_reduce [tt.tensor] workspace axes
          pure (tracked.set input ⟨workspace', reduced_indices⟩, output, none)

/-- The step loop of `execute_contractions` (an early-returned fast path is
signalled through the third component). -/
def execute_contractions_loop (inputs : List TensorHandle) (dtype : Nat) :
    List ExecutionStep → List TrackedTensor → TensorHandle → Exec TensorHandle
  | [], _, output => pure output
  | step :: rest, tracked, output => do
    let is_last := rest.isEmpty
    let (tracked', output', early) ←
      execute_contraction_step tracked output dtype is_last inputs () step
    match early with
    | some out => pure out
    | none => execute_contractions_loop inputs dtype rest tracked' output'

/-- `execute_contractions`. -/
def execute_contractions (plan : ExecutionPlan) (inputs : List TensorHandle)
    (output : TensorHandle) : Exec TensorHandle := do
  if plan.steps.isEmpty then pure output
  else
    let plan_indices := plan.input_indices
    let tracked : List TrackedTensor :=
      ((List.range inputs.length).zip inputs).map (fun p =>
        let indices :=
          if p.1 < plan_indices.length then plan_indices.getD p.1 []
          else infer_input_indices p.1 p.2.shape.length
        ⟨p.2, indices⟩)
    let dtype := (inputs.headD output).dtype
    execute_contractions_loop inputs dtype plan.steps tracked output

/-- `execute_plan`. -/
def execute_plan (plan : ExecutionPlan) (inputs : List TensorHandle)
    (output : TensorHandle) : Exec TensorHandle := do
  if plan.uses_fast_path then
    match plan.steps.head? with
    | some (ExecutionStep.FastPathStep fp) => execute_fast_path fp inputs output
    | some _ => throwE (EinsumError.Unsupported "invalid plan structure")
    | none => panicE
  else execute_contractions plan inputs output

/-- Lift an `EinsumResult` into the executor monad. -/
def liftR {α : Type} (r : EinsumResult α) : Exec α :=
  match r with
  | .ok a => pure a
  | .error e => throwE e

/-- `einsum`: the public entry point (parse, validate, plan, execute). -/
def einsum (nota_str : List Char) (inputs : List TensorHandle)
    (output : TensorHandle) (config : Option EinsumConfig) : Exec TensorHandle := do
  let config := config.getD EinsumConfig.default
  let e ← liftR (parse_einsum nota_str)
  liftR (validate_expr e)
  let shapes := inputs.map TensorHandle.shape
  if config.validate_shapes then do
    let _ ← liftR (validate_shapes e shapes)
    pure ()
  else pure ()
  match create_plan e shapes config.strategy with
  | none => panicE
  | some plan => execute_plan plan inputs output

/-! ## Support definitions for concrete instances and spec-side statements -/

instance {ε α : Type} [DecidableEq ε] [DecidableEq α] : DecidableEq (Except ε α)
  | .ok a, .ok b =>
    if h : a = b then .isTrue (by rw [h])
    else .isFalse (by intro hh; injection hh; contradiction)
  | .ok _, .error _ => .isFalse (by intro h; cases h)
  | .error _, .ok _ => .isFalse (by intro h; cases h)
  | .error e, .error f =>
    if h : e = f then .isTrue (by rw [h])
    else .isFalse (by intro hh; injection hh; contradiction)

instance {α : Type} [DecidableEq α] : DecidableEq (EinsumResult α) :=
  inferInstanceAs (DecidableEq (Except EinsumError α))

theorem error_ne_of_ne {α : Type} {e f : EinsumError} (hne : e ≠ f) :
    (Except.error e : EinsumResult α) ≠ Except.error f :=
  fun h => hne (Except.error.inj h)

instance : LawfulMonad EinsumResult :=
  inferInstanceAs (LawfulMonad (Except EinsumError))

/-- `Result::is_ok`. -/
def isOkR {α : Type} (r : EinsumResult α) : Bool :=
  match r with
  | .ok _ => true
  | .error _ => false

/-- The parsed notation of a concrete string (used for concrete instances;
falls back to a trivial value on parse errors, which never happens for the
strings used). -/
def exprOf (s : String) : EinsumExpr :=
  match parse_einsum s.toList with
  | .ok e => e
  | .error _ => EinsumExpr.new [] Subscript.new

/-- A pure-FLOP cost model (`alpha = 0`). -/
def flopModel : CostModel := { alpha := 0 }

/-- Concrete tensor with contiguous strides (for executor instances). -/
def cTensor (h : Nat) (shape : List Nat) : TensorHandle :=
  { handle := h, shape := shape, strides := compute_strides shape, dtype := 7 }

/-- Initial executor state for concrete runs. -/
def execS0 : ExecS := { nextId := 1000, trace := [] }

/-- The plan used by the C2 witness. -/
def c2_witness_plan : ExecutionPlan :=
  (create_plan (exprOf "ij,jk->ik") [[2, 3], [3, 4]] ContractionStrategy.Greedy).getD
    (ExecutionPlan.fast_path FastPath.Hadamard [] 0)

/-! ## Spec-side definitions (formulations following the specification text,
for comparison against the embedded code) -/

/-- Spec §4.4: `|output|`, the product of the sizes of the distinct result
indices of a pairwise contraction — `(Iₐ ∪ I_b) \ C`, each index counted
once. -/
def spec_output_size (dims : Char → Nat) (indices_a indices_b contracted : List Char) : Nat :=
  (((indices_a ++ indices_b).dedup.filter (fun c => ! contracted.contains c)).map dims).prod

/-- Spec §4.4: `|K|`, the product of the contracted-index sizes. -/
def spec_contracted_size (dims : Char → Nat) (contracted : List Char) : Nat :=
  (contracted.map dims).prod

/-- Spec §4.4: `flops = 2·|output|·|K|`. -/
def spec_pairwise_flops (dims : Char → Nat) (indices_a indices_b contracted : List Char) : Nat :=
  2 * spec_output_size dims indices_a indices_b contracted *
    spec_contracted_size dims contracted

/-- Spec §4.4: `memory = |Sₐ| + |S_b| + |output|` in elements. -/
def spec_pairwise_memory (dims : Char → Nat) (indices_a indices_b contracted : List Char) : Nat :=
  (indices_a.map dims).prod + (indices_b.map dims).prod +
    spec_output_size dims indices_a indices_b contracted

/-- Replay of a step list from a state, keeping both the resulting state and
the accumulated cost (the state/total pair threaded by `compute_path_cost`'s
loop). -/
def replayPair (cm : CostModel) :
    List ContractionStep → TensorState → ContractionCost →
    Option (TensorState × ContractionCost)
  | [], state, total => some (state, total)
  | step :: rest, state, total => do
    let cost ← cm.compute_pairwise_cost
      (state.shapes.getD step.inputs.1 []) (state.shapes.getD step.inputs.2 [])
      (state.indices.getD step.inputs.1 []) (state.indices.getD step.inputs.2 [])
      step.contracted_indices
    let state' ← state.contract step.inputs.1 step.inputs.2 step.result_indices
    replayPair cm rest state' (total.add cost)

/-- All three components of a cost fit in `u64` (every cost built by
`compute_pairwise_cost` satisfies this). -/
def CostClamped (c : ContractionCost) : Prop :=
  c.flops ≤ U64_MAX ∧ c.memory ≤ U64_MAX ∧ c.total ≤ U64_MAX

/-- The invariant maintained on the branch-and-bound search state: the
recorded best path replays from the initial tensor state with exactly the
recorded best cost, and that cost total never exceeds the greedy seed's
total `CG`. -/
def bbInv (cm : CostModel) (shapes0 : List (List Nat)) (idx0 : List (List Char))
    (CG : Nat) (st : BBState) : Prop :=
  (∃ p c, st.best_path = some p ∧
    compute_path_cost p shapes0 idx0 cm = some c ∧ c = st.best_cost) ∧
  st.best_cost.total ≤ CG

/- ===================================================================== -/
/- ## THEOREMS                                                           -/
/- ===================================================================== -/

/-! ### Claim C8 — blank comma-separated fields -/

theorem parse_subscript_aux_ne_empty (l : List Char) (acc : Subscript) :
    parse_subscript_aux l acc ≠ Except.error EinsumError.EmptySubscript := by
  induction l, acc using parse_subscript_aux.induct with
  | case1 acc => intro h; simp [parse_subscript_aux] at h
  | case2 acc rest2 h =>
    simp only [parse_subscript_aux, h, if_true]
    exact error_ne_of_ne (by decide)
  | case3 acc rest2 h ih => simpa [parse_subscript_aux, h] using ih
  | case4 rest acc h =>
    cases rest with
    | nil => simp only [parse_subscript_aux]; exact error_ne_of_ne (by decide)
    | cons c rest' =>
      by_cases hc : c = '.'
      · subst hc
        cases rest' with
        | nil => simp only [parse_subscript_aux]; exact error_ne_of_ne (by decide)
        | cons d rest'' =>
          by_cases hd : d = '.'
          · exact absurd (h rest'' (by rw [hd])) (fun x => x)
          · simp only [parse_subscript_aux, hd]
            exact error_ne_of_ne (by decide)
      · simp only [parse_subscript_aux, hc]
        exact error_ne_of_ne (by decide)
  | case5 c rest acc h hlet ih => simpa [parse_subscript_aux, h, hlet] using ih
  | case6 c rest acc h hlet hsp ih => simpa [parse_subscript_aux, h, hlet, hsp] using ih
  | case7 c rest acc h hlet hsp =>
    simp only [parse_subscript_aux, hlet, hsp, Bool.false_eq_true, if_false]
    exact error_ne_of_ne (by decide)

theorem parse_subscript_ne_empty (l : List Char) :
    parse_subscript l ≠ Except.error EinsumError.EmptySubscript :=
  parse_subscript_aux_ne_empty l Subscript.new

theorem parse_subscripts_ne_empty (ls : List (List Char)) :
    parse_subscripts ls ≠ Except.error EinsumError.EmptySubscript := by
  induction ls with
  | nil => intro h; cases h
  | cons x xs ih =>
    unfold parse_subscripts
    cases hx : parse_subscript (strTrim x) with
    | error e =>
      simp only
      intro hcontra
      have he : e = EinsumError.EmptySubscript := Except.error.inj hcontra
      exact parse_subscript_ne_empty (strTrim x) (by rw [hx, he])
    | ok s =>
      simp only
      cases hxs : parse_subscripts xs with
      | error e2 =>
        intro hcontra
        have he : e2 = EinsumError.EmptySubscript := Except.error.inj hcontra
        exact ih (by rw [hxs, he])
      | ok ss => intro h; cases h

theorem infer_output_ne_error (inputs : List Subscript) (e : EinsumError) :
    infer_output inputs ≠ Except.error e := by
  simp [infer_output]

/-- C8 (amended): parsing never returns the `EmptySubscript` error — a blank
comma-separated field yields an empty subscript for that input and parsing
succeeds; the parser's only errors are `ParseError` and `NoInputs`. -/
theorem C8_parser_never_empty_subscript (s : List Char) :
    parse_einsum s ≠ Except.error EinsumError.EmptySubscript := by
  unfold parse_einsum
  dsimp only
  split
  · intro h; injection h with h2; cases h2
  · split
    · intro h; injection h with h2; cases h2
    · split
      · rename_i heq
        intro h
        injection h with h2
        exact parse_subscripts_ne_empty _ (by rw [heq, h2])
      · split
        · rename_i inputs heq2
          intro h
          injection h with h2
          subst h2
          revert heq2
          split
          · intro heq2
            exact parse_subscript_ne_empty _ heq2
          · intro heq2
            exact infer_output_ne_error _ _ heq2
        · intro h; cases h

/-- C8 counterexample: `"ij,,jk"` (blank middle field) parses successfully,
so it does not return the `EmptySubscript` error the claim requires. -/
theorem C8_blank_field_parses_ok :
    isOkR (parse_einsum "ij,,jk".toList) = true ∧
      parse_einsum "ij,,jk".toList ≠ Except.error EinsumError.EmptySubscript := by
  constructor
  · rfl
  · decide

/-! ### Claim C2 — plan step count vs fast path -/

/-- C2 (amended): a fast-path plan always has exactly one step (the converse
direction of the claimed equivalence fails, see the counterexample). -/
theorem C2_fast_path_implies_one_step (e : EinsumExpr) (shapes : List (List Nat))
    (strategy : ContractionStrategy) (p : ExecutionPlan)
    (hp : create_plan e shapes strategy = some p) (hf : p.uses_fast_path = true) :
    p.num_steps = 1 := by
  unfold create_plan at hp
  cases hrec : recognize_pattern e with
  | some fp =>
    rw [hrec] at hp
    simp only [Option.some.injEq] at hp
    subst hp
    rfl
  | none =>
    rw [hrec] at hp
    cases hX : select_path e shapes { alpha := 64 } strategy with
    | none => rw [hX] at hp; cases hp
    | some path =>
      rw [hX] at hp
      simp only [Option.some.injEq] at hp
      subst hp
      cases hf

theorem C2_fast_path_implies_one_step_witness :
    create_plan (exprOf "ij,jk->ik") [[2, 3], [3, 4]] ContractionStrategy.Greedy =
      some c2_witness_plan ∧
    c2_witness_plan.uses_fast_path = true ∧ c2_witness_plan.num_steps = 1 :=
  ⟨by rfl, by rfl,
    C2_fast_path_implies_one_step (exprOf "ij,jk->ik") [[2, 3], [3, 4]]
      ContractionStrategy.Greedy c2_witness_plan (by rfl) (by rfl)⟩

/-- C2 counterexample: the matrix-vector product `"ij,j->i"` matches no fast
path, yet its general plan has exactly one step — so `num_steps == 1` does
not imply `uses_fast_path`. -/
theorem C2_one_step_without_fast_path :
    (create_plan (exprOf "ij,j->i") [[2, 3], [3]] ContractionStrategy.Auto).map
      (fun p => (p.num_steps, p.uses_fast_path)) = some (1, false) := by rfl

/-! ### Claim C4 — the Transpose fast path -/

/-- C4 (amended): the Transpose fast path applies `perm` to the input view's
shape and strides and writes those into the caller's output tensor; the
output's buffer handle (and dtype) are left untouched — the input's buffer
handle is NOT copied in (the code assumes the caller already shares the
buffer), and no kernel is launched. -/
theorem C4_transpose_metadata_only (input output : TensorHandle)
    (perm : List Nat) (s : ExecS)
    (hs : ∀ p ∈ perm, p < input.shape.length)
    (hst : ∀ p ∈ perm, p < input.strides.length) :
    execute_transpose [input] output perm s =
      ExecOut.ok
        { output with shape := perm.map (fun i => input.shape.getD i 0)
                      strides := perm.map (fun i => input.strides.getD i 0) } s ∧
    (perm.map (fun i => input.shape.getD i 0)).length = perm.length ∧
    (∀ k, k < perm.length →
      (perm.map (fun i => input.shape.getD i 0)).getD k 0 =
        input.shape.getD (perm.getD k 0) 0 ∧
      (perm.map (fun i => input.strides.getD i 0)).getD k 0 =
        input.strides.getD (perm.getD k 0) 0) := by
  refine ⟨?_, by simp, ?_⟩
  · unfold execute_transpose
    have h0 : ([input].getD 0 output) = input := rfl
    have h1 : ([input].isEmpty : Bool) = false := by rfl
    have h2 : ((perm.any (fun i => input.shape.length ≤ i)) : Bool) = false := by
      rw [List.any_eq_false]
      intro p hp
      simpa using hs p hp
    have h3 : ((perm.any (fun i => input.strides.length ≤ i)) : Bool) = false := by
      rw [List.any_eq_false]
      intro p hp
      simpa using hst p hp
    simp only [h0, h1, h2, h3, Bool.false_eq_true, if_false, ite_false]
    rfl
  · intro k hk
    constructor
    · rw [List.getD_eq_getElem?_getD, List.getElem?_map]
      have hsome : perm[k]? = some (perm.getD k 0) := by
        rw [List.getD_eq_getElem?_getD]
        cases hE : perm[k]? with
        | none => exact absurd (List.getElem?_eq_none_iff.mp hE) (by omega)
        | some v => rfl
      rw [hsome]
      rfl
    · rw [List.getD_eq_getElem?_getD, List.getElem?_map]
      have hsome : perm[k]? = some (perm.getD k 0) := by
        rw [List.getD_eq_getElem?_getD]
        cases hE : perm[k]? with
        | none => exact absurd (List.getElem?_eq_none_iff.mp hE) (by omega)
        | some v => rfl
      rw [hsome]
      rfl

theorem C4_transpose_metadata_only_witness :
    (∀ p ∈ [1, 0], p < (cTensor 1 [2, 3]).shape.length) ∧
    execute_transpose [cTensor 1 [2, 3]] (cTensor 3 [3, 2]) [1, 0] execS0 =
      ExecOut.ok
        { cTensor 3 [3, 2] with
            shape := [1, 0].map (fun i => (cTensor 1 [2, 3]).shape.getD i 0)
            strides := [1, 0].map (fun i => (cTensor 1 [2, 3]).strides.getD i 0) }
        execS0 :=
  ⟨by decide,
    (C4_transpose_metadata_only (cTensor 1 [2, 3]) (cTensor 3 [3, 2]) [1, 0] execS0
      (by decide) (by decide)).1⟩

/-- C4 counterexample: after the Transpose fast path the output keeps its own
buffer handle (3) instead of receiving the input's handle (1), contradicting
the claim that the input's buffer handle is written into the output. -/
theorem C4_transpose_keeps_output_handle :
    execute_transpose [cTensor 1 [2, 3]] (cTensor 3 [3, 2]) [1, 0] execS0 =
      ExecOut.ok { handle := 3, shape := [3, 2], strides := [1, 3], dtype := 7 }
        execS0 ∧ (3 : Nat) ≠ 1 := by
  exact ⟨by rfl, by decide⟩

/-! ### Infrastructure: character sets, dimension maps, exact arithmetic -/

theorem insertAsc_perm (c : Char) (l : List Char) :
    List.Perm (insertAsc c l) (c :: l) := by
  induction l with
  | nil => simp [insertAsc]
  | cons x xs ih =>
    unfold insertAsc
    by_cases h : c ≤ x
    · simp [h]
    · simp only [h, if_false, ite_false]
      exact (List.Perm.cons x ih).trans (List.Perm.swap c x xs)

theorem sortChars_perm (l : List Char) : List.Perm (sortChars l) l := by
  induction l with
  | nil => exact List.Perm.refl _
  | cons x xs ih =>
    have h1 : sortChars (x :: xs) = insertAsc x (sortChars xs) := rfl
    rw [h1]
    exact ((insertAsc_perm x (sortChars xs)).trans (List.Perm.cons x ih))

theorem mem_dedupChars {c : Char} {l : List Char} : c ∈ dedupChars l ↔ c ∈ l := by
  induction l with
  | nil => simp [dedupChars]
  | cons x xs ih =>
    unfold dedupChars
    by_cases h : x ∈ dedupChars xs
    · rw [if_pos (by simpa [List.elem_iff] using h)]
      rw [ih]
      constructor
      · exact fun hc => List.mem_cons_of_mem x hc
      · intro hc
        rcases List.mem_cons.mp hc with hc | hc
        · subst hc; exact ih.mp h
        · exact hc
    · rw [if_neg (by simpa [List.elem_iff] using h)]
      simp only [List.mem_cons, ih]

theorem dedupChars_nodup (l : List Char) : (dedupChars l).Nodup := by
  induction l with
  | nil => simp [dedupChars]
  | cons x xs ih =>
    unfold dedupChars
    by_cases h : x ∈ dedupChars xs
    · rw [if_pos (by simpa [List.elem_iff] using h)]
      exact ih
    · rw [if_neg (by simpa [List.elem_iff] using h)]
      exact List.Nodup.cons h ih

theorem mem_sortedDedup {c : Char} {l : List Char} : c ∈ sortedDedup l ↔ c ∈ l := by
  unfold sortedDedup
  rw [(sortChars_perm (dedupChars l)).mem_iff]
  exact mem_dedupChars

theorem sortedDedup_nodup (l : List Char) : (sortedDedup l).Nodup := by
  unfold sortedDedup
  exact ((sortChars_perm (dedupChars l)).nodup_iff).mpr (dedupChars_nodup l)

theorem memChar_iff {l : List Char} {c : Char} : memChar l c = true ↔ c ∈ l := by
  simp [memChar, List.elem_iff]

theorem memChar_sortedDedup {l : List Char} {c : Char} :
    memChar (sortedDedup l) c = true ↔ c ∈ l := by
  rw [memChar_iff, mem_sortedDedup]

/-- A `DimMap` consistent with a global dimension assignment. -/
def dimConsistent (dims : Char → Nat) (m : DimMap) : Prop :=
  ∀ p ∈ m, p.2 = dims p.1

theorem dimConsistent_nil (dims : Char → Nat) : dimConsistent dims [] := by
  intro p hp; cases hp

theorem dimConsistent_insertZip (dims : Char → Nat) (m : DimMap)
    (ind : List Char) (hm : dimConsistent dims m) :
    dimConsistent dims (dimInsertZip m ind (ind.map dims)) := by
  induction ind generalizing m with
  | nil => simpa [dimInsertZip] using hm
  | cons c cs ih =>
    simp only [List.map_cons, dimInsertZip]
    apply ih
    intro p hp
    rcases List.mem_cons.mp hp with hp | hp
    · subst hp; rfl
    · exact hm p hp

theorem dimGet_consistent {dims : Char → Nat} {m : DimMap} (hm : dimConsistent dims m)
    {c : Char} {d : Nat} (h : dimGet m c = some d) : d = dims c := by
  unfold dimGet at h
  cases hf : List.find? (fun p => p.1 = c) m with
  | none => rw [hf] at h; cases h
  | some p =>
    rw [hf] at h
    have hp := List.find?_some hf
    have hpm := List.mem_of_find?_eq_some hf
    have : p.1 = c := by simpa using hp
    have h2 : p.2 = d := by injection h
    rw [← h2, hm p hpm, this]

theorem dimGet_insertZip_notmem (m : DimMap) (ind : List Char) (shape : List Nat)
    {c : Char} (hc : ¬ c ∈ ind) :
    dimGet (dimInsertZip m ind shape) c = dimGet m c := by
  induction ind generalizing m shape with
  | nil => cases shape <;> rfl
  | cons x xs ih =>
    cases shape with
    | nil => rfl
    | cons d ds =>
      have hx : ¬ (c = x) := fun h => hc (by rw [h]; exact List.mem_cons_self x xs)
      have hxs : ¬ c ∈ xs := fun h => hc (List.mem_cons_of_mem x h)
      rw [show dimInsertZip m (x :: xs) (d :: ds) = dimInsertZip (dimInsert m x d) xs ds
        from rfl]
      rw [ih (dimInsert m x d) ds hxs]
      have hx2 : ¬ (x = c) := fun h => hx h.symm
      simp [dimGet, dimInsert, List.find?, hx2]

theorem dimGet_mem_insertZip (dims : Char → Nat) (m : DimMap) (ind : List Char)
    {c : Char} (hc : c ∈ ind) :
    ∃ d, dimGet (dimInsertZip m ind (ind.map dims)) c = some d := by
  induction ind generalizing m with
  | nil => cases hc
  | cons x xs ih =>
    simp only [List.map_cons]
    rw [show dimInsertZip m (x :: xs) (dims x :: xs.map dims) =
      dimInsertZip (dimInsert m x (dims x)) xs (xs.map dims) from rfl]
    by_cases hcx : c ∈ xs
    · exact ih (dimInsert m x (dims x)) hcx
    · have hcx2 : c = x := by
        rcases List.mem_cons.mp hc with h | h
        · exact h
        · exact absurd h hcx
      subst hcx2
      refine ⟨dims c, ?_⟩
      rw [dimGet_insertZip_notmem (dimInsert m c (dims c)) xs (xs.map dims) hcx]
      simp [dimGet, dimInsert, List.find?]

theorem dimGet_insertZip_eq (dims : Char → Nat) (m : DimMap) (ind : List Char)
    {c : Char} (hc : c ∈ ind) (hm : dimConsistent dims m) :
    dimGet (dimInsertZip m ind (ind.map dims)) c = some (dims c) := by
  obtain ⟨d, hd⟩ := dimGet_mem_insertZip dims m ind hc
  have := dimGet_consistent (dimConsistent_insertZip dims m ind hm) hd
  rw [hd, this]

theorem satAdd_eq {a b : Nat} (h : a + b ≤ U64_MAX) : satAdd a b = a + b :=
  min_eq_left h

theorem satMul_eq {a b : Nat} (h : a * b ≤ U64_MAX) : satMul a b = a * b :=
  min_eq_left h

theorem wrapAdd_eq {a b : Nat} (h : a + b < 2 ^ 64) : wrapAdd a b = a + b :=
  Nat.mod_eq_of_lt h

theorem wrapMul_eq {a b : Nat} (h : a * b < 2 ^ 64) : wrapMul a b = a * b :=
  Nat.mod_eq_of_lt h

theorem prod_le_prod_of_sublist {l₁ l₂ : List Nat} (h : List.Sublist l₁ l₂)
    (hpos : ∀ x ∈ l₂, 0 < x) : l₁.prod ≤ l₂.prod := by
  induction h with
  | slnil => exact le_refl _
  | cons x h ih =>
    rename_i la lb
    have hx : 0 < x := hpos x (List.mem_cons_self x lb)
    have := ih (fun y hy => hpos y (List.mem_cons_of_mem x hy))
    calc la.prod ≤ lb.prod := this
      _ ≤ x * lb.prod := Nat.le_mul_of_pos_left _ hx
      _ = (x :: lb).prod := by simp
  | cons₂ x h ih =>
    rename_i la lb
    have := ih (fun y hy => hpos y (List.mem_cons_of_mem x hy))
    simpa using Nat.mul_le_mul_left x this

theorem foldl_satMul_eq (dm : DimMap) (dims : Char → Nat) (P : Char → Bool)
    (l : List Char) (acc : Nat)
    (hdm : ∀ c ∈ l, dimGet dm c = some (dims c))
    (hpos : ∀ c, 0 < dims c)
    (hb : acc * ((l.filter (fun c => ! P c)).map dims).prod ≤ U64_MAX) :
    l.foldl
      (fun acc c =>
        if P c then acc
        else match dimGet dm c with
          | some d => satMul acc d
          | none => acc) acc
      = acc * ((l.filter (fun c => ! P c)).map dims).prod := by
  induction l generalizing acc with
  | nil => simp
  | cons c cs ih =>
    have hdc := hdm c (List.mem_cons_self c cs)
    have hdm' : ∀ x ∈ cs, dimGet dm x = some (dims x) :=
      fun x hx => hdm x (List.mem_cons_of_mem c hx)
    by_cases hP : P c
    · simp only [List.foldl_cons, hP, if_true, ite_true]
      have hfilter : (c :: cs).filter (fun c => ! P c) = cs.filter (fun c => ! P c) := by
        simp [List.filter_cons, hP]
      rw [hfilter] at hb
      rw [ih acc hdm' hb]
      rw [hfilter]
    · have hfilter : (c :: cs).filter (fun c => ! P c) =
          c :: cs.filter (fun c => ! P c) := by
        simp [List.filter_cons, hP]
      rw [hfilter] at hb
      simp only [List.map_cons, List.prod_cons] at hb
      have hrest_pos : 0 < ((cs.filter (fun c => ! P c)).map dims).prod := by
        apply List.prod_pos
        intro x hx
        obtain ⟨y, _, hy⟩ := List.mem_map.mp hx
        rw [← hy]; exact hpos y
      have hmul : acc * dims c ≤ U64_MAX := by
        calc acc * dims c ≤ acc * dims c * ((cs.filter (fun c => ! P c)).map dims).prod :=
              Nat.le_mul_of_pos_right _ hrest_pos
          _ = acc * (dims c * ((cs.filter (fun c => ! P c)).map dims).prod) := by ring
          _ ≤ U64_MAX := hb
      simp only [List.foldl_cons, hP, Bool.false_eq_true, if_false, ite_false, hdc]
      rw [satMul_eq hmul]
      rw [ih (acc * dims c) hdm' (by rw [← Nat.mul_assoc] at hb; exact hb)]
      rw [hfilter]
      simp [Nat.mul_assoc]

theorem foldl_wrapMul_eq (l : List Nat) (acc : Nat)
    (hpos : ∀ x ∈ l, 0 < x) (hb : acc * l.prod < 2 ^ 64) :
    l.foldl wrapMul acc = acc * l.prod := by
  induction l generalizing acc with
  | nil => simp
  | cons x xs ih =>
    have hxpos : 0 < x := hpos x (List.mem_cons_self x xs)
    have hrest : 0 < xs.prod :=
      List.prod_pos (fun y hy => hpos y (List.mem_cons_of_mem x hy))
    simp only [List.prod_cons] at hb
    have hax : acc * x < 2 ^ 64 := by
      calc acc * x ≤ acc * x * xs.prod := Nat.le_mul_of_pos_right _ hrest
        _ = acc * (x * xs.prod) := by ring
        _ < 2 ^ 64 := hb
    simp only [List.foldl_cons]
    rw [show wrapMul acc x = acc * x from wrapMul_eq hax]
    rw [ih (acc * x) (fun y hy => hpos y (List.mem_cons_of_mem x hy))
      (by rw [← Nat.mul_assoc] at hb; exact hb)]
    simp [List.prod_cons]
    ring

theorem wrapProd_eq (l : List Nat) (hpos : ∀ x ∈ l, 0 < x) (hb : l.prod < 2 ^ 64) :
    wrapProd l = l.prod := by
  unfold wrapProd
  rw [foldl_wrapMul_eq l 1 hpos (by simpa using hb)]
  simp

theorem foldlM_div_eq (dm : DimMap) (dims : Char → Nat) (l : List Char) (out : Nat)
    (hdm : ∀ c ∈ l, dimGet dm c = some (dims c))
    (hpos : ∀ c, 0 < dims c) :
    l.foldlM
      (fun acc c =>
        match dimGet dm c with
        | some d => u64Div acc d
        | none => pure acc)
      (out * (l.map dims).prod) = some out := by
  induction l generalizing out with
  | nil => simp
  | cons c cs ih =>
    have hdc := hdm c (List.mem_cons_self c cs)
    have hdm' : ∀ x ∈ cs, dimGet dm x = some (dims x) :=
      fun x hx => hdm x (List.mem_cons_of_mem c hx)
    simp only [List.foldlM_cons, hdc]
    have hne : dims c ≠ 0 := Nat.pos_iff_ne_zero.mp (hpos c)
    have hdiv : u64Div (out * ((c :: cs).map dims).prod) (dims c) =
        some (out * (cs.map dims).prod) := by
      unfold u64Div
      rw [if_neg hne]
      congr 1
      simp only [List.map_cons, List.prod_cons]
      rw [show out * (dims c * (cs.map dims).prod) = dims c * (out * (cs.map dims).prod) by ring]
      exact Nat.mul_div_cancel_left _ (hpos c)
    rw [hdiv]
    exact ih out hdm'

theorem count_nodup {l : List Char} (h : l.Nodup) (c : Char) :
    l.count c = if c ∈ l then 1 else 0 := by
  by_cases hc : c ∈ l
  · rw [if_pos hc]
    exact List.count_eq_one_of_mem h hc
  · rw [if_neg hc]
    exact List.count_eq_zero_of_not_mem hc

/-- Occurrence decomposition: for duplicate-free operand index lists, the
non-contracted occurrences of `ia ++ ib` are (as a multiset) the distinct
non-contracted indices plus one extra copy of each common non-contracted
index. -/
theorem occ_perm_decomp (ia ib : List Char) (P : Char → Bool)
    (hna : ia.Nodup) (hnb : ib.Nodup) :
    List.Perm ((ia ++ ib).filter (fun c => ! P c))
      (((ia ++ ib).dedup.filter (fun c => ! P c)) ++
        ((setInter (sortedDedup ia) (sortedDedup ib)).filter (fun c => ! P c))) := by
  rw [List.perm_iff_count]
  intro c
  have hInter : (setInter (sortedDedup ia) (sortedDedup ib)).count c =
      if c ∈ ia ∧ c ∈ ib then 1 else 0 := by
    unfold setInter
    by_cases hab : c ∈ ia ∧ c ∈ ib
    · rw [if_pos hab]
      apply List.count_eq_one_of_mem
      · exact List.Nodup.filter _ (sortedDedup_nodup ia)
      · apply List.mem_filter.mpr
        exact ⟨mem_sortedDedup.mpr hab.1, memChar_sortedDedup.mpr hab.2⟩
    · rw [if_neg hab]
      apply List.count_eq_zero_of_not_mem
      intro hmem
      have h1 := List.mem_of_mem_filter hmem
      have h2 := List.of_mem_filter hmem
      exact hab ⟨mem_sortedDedup.mp h1, memChar_sortedDedup.mp (by simpa using h2)⟩
  rw [List.count_append]
  by_cases hP : P c
  · have h1 : ((ia ++ ib).filter (fun c => ! P c)).count c = 0 := by
      apply List.count_eq_zero_of_not_mem
      intro hmem
      have := List.of_mem_filter hmem
      simp [hP] at this
    have h2 : (((ia ++ ib).dedup.filter (fun c => ! P c))).count c = 0 := by
      apply List.count_eq_zero_of_not_mem
      intro hmem
      have := List.of_mem_filter hmem
      simp [hP] at this
    have h3 : (((setInter (sortedDedup ia) (sortedDedup ib)).filter (fun c => ! P c))).count c = 0 := by
      apply List.count_eq_zero_of_not_mem
      intro hmem
      have := List.of_mem_filter hmem
      simp [hP] at this
    omega
  · have hPc : ((fun x => ! P x) c) = true := by simp [hP]
    have e1 : (((ia ++ ib).filter (fun c => ! P c)).count c) = (ia ++ ib).count c :=
      List.count_filter hPc
    have e2 : ((((ia ++ ib).dedup.filter (fun c => ! P c))).count c) =
        (ia ++ ib).dedup.count c := List.count_filter hPc
    have e3 : (((setInter (sortedDedup ia) (sortedDedup ib)).filter
        (fun c => ! P c)).count c) =
        (setInter (sortedDedup ia) (sortedDedup ib)).count c := List.count_filter hPc
    rw [e1, e2, e3, hInter, List.count_append, count_nodup hna c, count_nodup hnb c,
      count_nodup (List.nodup_dedup _) c]
    simp only [List.mem_dedup, List.mem_append]
    by_cases h1 : c ∈ ia <;> by_cases h2 : c ∈ ib <;> simp [h1, h2]

/-- The pairwise cost returned by `compute_pairwise_cost` for duplicate-free
operand index lists, consistent shapes, positive dimensions and no `u64`
saturation: the flops are `2 * |output| * |K|` and the memory is
`|S_a| + |S_b| + |output|`, matching the specification formulas. -/
theorem compute_pairwise_cost_spec (m : CostModel) (dims : Char → Nat)
    (ia ib C : List Char)
    (hna : ia.Nodup) (hnb : ib.Nodup) (hnC : C.Nodup)
    (hCa : ∀ c ∈ C, c ∈ ia) (hCb : ∀ c ∈ C, c ∈ ib)
    (hpos : ∀ c, 0 < dims c)
    (hb : 3 * ((ia ++ ib).map dims).prod < 2 ^ 64) :
    m.compute_pairwise_cost (ia.map dims) (ib.map dims) ia ib C =
      some (ContractionCost.new (spec_pairwise_flops dims ia ib C)
        (spec_pairwise_memory dims ia ib C) m.alpha) := by
  classical
  have h2pow : (2 : Nat) ^ 64 = 18446744073709551616 := by norm_num
  rw [h2pow] at hb
  have hUeq : U64_MAX = 18446744073709551615 := by norm_num [U64_MAX]
  -- lookups in the dimension map
  have hm0 : dimConsistent dims (dimInsertZip [] ia (ia.map dims)) :=
    dimConsistent_insertZip dims [] ia (dimConsistent_nil dims)
  have hdm : ∀ c ∈ ia ++ ib,
      dimGet (dimInsertZip (dimInsertZip [] ia (ia.map dims)) ib (ib.map dims)) c
        = some (dims c) := by
    intro c hc
    by_cases hcb : c ∈ ib
    · exact dimGet_insertZip_eq dims _ ib hcb hm0
    · have hca : c ∈ ia := by
        rcases List.mem_append.mp hc with h | h
        · exact h
        · exact absurd h hcb
      rw [dimGet_insertZip_notmem _ ib (ib.map dims) hcb]
      exact dimGet_insertZip_eq dims [] ia hca (dimConsistent_nil dims)
  -- positivity and global bound
  have hpos_all : ∀ x ∈ (ia ++ ib).map dims, 0 < x := by
    intro x hx
    obtain ⟨c, _, rfl⟩ := List.mem_map.mp hx
    exact hpos c
  have hocc_pos : 0 < ((ia ++ ib).map dims).prod := List.prod_pos hpos_all
  have hU : ((ia ++ ib).map dims).prod ≤ U64_MAX := by rw [hUeq]; omega
  have hsub_le : ∀ l : List Char, List.Sublist l (ia ++ ib) →
      (l.map dims).prod ≤ ((ia ++ ib).map dims).prod := fun l hl =>
    prod_le_prod_of_sublist (hl.map dims) hpos_all
  have hsubperm_le : ∀ l : List Char, l.Nodup → (∀ c ∈ l, c ∈ ia ++ ib) →
      (l.map dims).prod ≤ ((ia ++ ib).map dims).prod := by
    intro l hln hlsub
    obtain ⟨l2, hperm2, hsub2⟩ := List.Nodup.subperm hln hlsub
    calc (l.map dims).prod = (l2.map dims).prod :=
          (List.Perm.prod_eq (hperm2.map dims)).symm
      _ ≤ ((ia ++ ib).map dims).prod :=
          prod_le_prod_of_sublist (hsub2.map dims) hpos_all
  -- the contracted-set membership test agrees with List.contains
  have hPC : ∀ c : Char, memChar (sortedDedup C) c = C.contains c := by
    intro c
    by_cases h : c ∈ C
    · have h1 : memChar (sortedDedup C) c = true := memChar_sortedDedup.mpr h
      have h2 : C.contains c = true := List.elem_iff.mpr h
      rw [h1, h2]
    · have h1 : memChar (sortedDedup C) c = false := by
        cases hmc : memChar (sortedDedup C) c
        · rfl
        · exact absurd (memChar_sortedDedup.mp hmc) h
      have h2 : C.contains c = false := by
        cases hmc : C.contains c
        · rfl
        · exact absurd (List.elem_iff.mp hmc) h
      rw [h1, h2]
  have hDED : (ia ++ ib).dedup.filter (fun c => ! memChar (sortedDedup C) c) =
      (ia ++ ib).dedup.filter (fun c => ! C.contains c) :=
    List.filter_congr (fun c _ => by rw [hPC c])
  have hperm : List.Perm ((ia ++ ib).filter (fun c => ! memChar (sortedDedup C) c))
      (((ia ++ ib).dedup.filter (fun c => ! memChar (sortedDedup C) c)) ++
        ((setInter (sortedDedup ia) (sortedDedup ib)).filter
          (fun c => ! memChar (sortedDedup C) c))) :=
    occ_perm_decomp ia ib (fun c => memChar (sortedDedup C) c) hna hnb
  have hprod_eq :
      (((ia ++ ib).filter (fun c => ! memChar (sortedDedup C) c)).map dims).prod =
      spec_output_size dims ia ib C *
        (((setInter (sortedDedup ia) (sortedDedup ib)).filter
          (fun c => ! memChar (sortedDedup C) c)).map dims).prod := by
    rw [List.Perm.prod_eq (hperm.map dims), List.map_append, List.prod_append, hDED]
    rfl
  -- component bounds
  have hfilt_le :
      (((ia ++ ib).filter (fun c => ! memChar (sortedDedup C) c)).map dims).prod
        ≤ ((ia ++ ib).map dims).prod :=
    hsub_le _ (List.filter_sublist _)
  have hOUT_pos : 0 < spec_output_size dims ia ib C := by
    apply List.prod_pos
    intro x hx
    obtain ⟨c, _, rfl⟩ := List.mem_map.mp hx
    exact hpos c
  have hOUTK_le : spec_output_size dims ia ib C * (C.map dims).prod
      ≤ ((ia ++ ib).map dims).prod := by
    have hL : ((ia ++ ib).dedup.filter (fun c => ! C.contains c) ++ C).Nodup := by
      rw [List.nodup_append]
      refine ⟨List.Nodup.filter _ (List.nodup_dedup _), hnC, ?_⟩
      intro c hc hcC
      have h1 := List.of_mem_filter hc
      rw [← hPC c, memChar_sortedDedup.mpr hcC] at h1
      simp at h1
    have hLsub : ∀ c ∈ ((ia ++ ib).dedup.filter (fun c => ! C.contains c) ++ C),
        c ∈ ia ++ ib := by
      intro c hc
      rcases List.mem_append.mp hc with h | h
      · exact List.mem_dedup.mp (List.mem_of_mem_filter h)
      · exact List.mem_append.mpr (Or.inl (hCa c h))
    have hstep := hsubperm_le _ hL hLsub
    calc spec_output_size dims ia ib C * (C.map dims).prod
        = ((((ia ++ ib).dedup.filter (fun c => ! C.contains c)) ++ C).map dims).prod := by
          rw [List.map_append, List.prod_append]; rfl
      _ ≤ ((ia ++ ib).map dims).prod := hstep
  have hK_le : (C.map dims).prod ≤ ((ia ++ ib).map dims).prod :=
    calc (C.map dims).prod
        ≤ spec_output_size dims ia ib C * (C.map dims).prod :=
          Nat.le_mul_of_pos_left _ hOUT_pos
      _ ≤ ((ia ++ ib).map dims).prod := hOUTK_le
  have hOUT_le : spec_output_size dims ia ib C ≤ ((ia ++ ib).map dims).prod := by
    apply hsubperm_le
    · exact List.Nodup.filter _ (List.nodup_dedup _)
    · intro c hc
      exact List.mem_dedup.mp (List.mem_of_mem_filter hc)
  have hA_le : (ia.map dims).prod ≤ ((ia ++ ib).map dims).prod :=
    hsub_le ia (List.sublist_append_left ia ib)
  have hB_le : (ib.map dims).prod ≤ ((ia ++ ib).map dims).prod :=
    hsub_le ib (List.sublist_append_right ia ib)
  -- the running saturating product over all non-contracted occurrences
  have hfold :
      (ia ++ ib).foldl
        (fun acc c =>
          if memChar (sortedDedup C) c then acc
          else match dimGet (dimInsertZip (dimInsertZip [] ia (ia.map dims)) ib
              (ib.map dims)) c with
            | some d => satMul acc d
            | none => acc) 1
      = spec_output_size dims ia ib C *
          (((setInter (sortedDedup ia) (sortedDedup ib)).filter
            (fun c => ! memChar (sortedDedup C) c)).map dims).prod := by
    rw [foldl_satMul_eq (dimInsertZip (dimInsertZip [] ia (ia.map dims)) ib (ib.map dims))
      dims (fun c => memChar (sortedDedup C) c) (ia ++ ib) 1 hdm hpos
      (by rw [one_mul]; exact le_trans hfilt_le hU)]
    rw [one_mul]
    exact hprod_eq
  -- lookups for the common non-contracted indices
  have hdmCNC : ∀ c ∈ (setInter (sortedDedup ia) (sortedDedup ib)).filter
      (fun c => ! memChar (sortedDedup C) c),
      dimGet (dimInsertZip (dimInsertZip [] ia (ia.map dims)) ib (ib.map dims)) c
        = some (dims c) := by
    intro c hc
    apply hdm
    have h1 := List.mem_of_mem_filter hc
    have h2 := List.mem_of_mem_filter h1
    exact List.mem_append.mpr (Or.inl (mem_sortedDedup.mp h2))
  -- the contracted-size product
  have hfm : ∀ (l : List Char), (∀ c ∈ l, c ∈ ia) →
      l.filterMap (fun c => dimGet (dimInsertZip (dimInsertZip [] ia (ia.map dims)) ib
        (ib.map dims)) c) = l.map dims := by
    intro l
    induction l with
    | nil => intro _; rfl
    | cons c cs ih =>
      intro hsub
      have hc := hdm c (List.mem_append.mpr (Or.inl (hsub c (List.mem_cons_self c cs))))
      simp only [List.filterMap_cons, hc, List.map_cons]
      rw [ih (fun x hx => hsub x (List.mem_cons_of_mem c hx))]
  have hKw : wrapProd (C.filterMap (fun c =>
      dimGet (dimInsertZip (dimInsertZip [] ia (ia.map dims)) ib (ib.map dims)) c))
      = (C.map dims).prod := by
    rw [hfm C hCa]
    apply wrapProd_eq
    · intro x hx
      obtain ⟨c, _, rfl⟩ := List.mem_map.mp hx
      exact hpos c
    · rw [h2pow]; omega
  -- saturation-freedom of the final arithmetic
  have hsat1 : spec_output_size dims ia ib C * (C.map dims).prod ≤ U64_MAX :=
    le_trans hOUTK_le hU
  have hsat2 : spec_output_size dims ia ib C * (C.map dims).prod * 2 ≤ U64_MAX := by
    rw [hUeq]; omega
  have hAw : wrapProd (ia.map dims) = (ia.map dims).prod := by
    apply wrapProd_eq
    · intro x hx
      obtain ⟨c, _, rfl⟩ := List.mem_map.mp hx
      exact hpos c
    · rw [h2pow]; omega
  have hBw : wrapProd (ib.map dims) = (ib.map dims).prod := by
    apply wrapProd_eq
    · intro x hx
      obtain ⟨c, _, rfl⟩ := List.mem_map.mp hx
      exact hpos c
    · rw [h2pow]; omega
  have hAB : (ia.map dims).prod + (ib.map dims).prod < 2 ^ 64 := by
    rw [h2pow]; omega
  have hABO : (ia.map dims).prod + (ib.map dims).prod +
      spec_output_size dims ia ib C < 2 ^ 64 := by
    rw [h2pow]; omega
  -- assemble
  simp only [CostModel.compute_pairwise_cost]
  rw [hfold]
  rw [foldlM_div_eq (dimInsertZip (dimInsertZip [] ia (ia.map dims)) ib (ib.map dims))
    dims ((setInter (sortedDedup ia) (sortedDedup ib)).filter
      (fun c => ! memChar (sortedDedup C) c))
    (spec_output_size dims ia ib C) hdmCNC hpos]
  simp only [Option.pure_def, hKw, hAw, hBw, wrapAdd_eq hAB]
  simp only [Option.bind_eq_bind, Option.some_bind]
  simp only [satMul_eq hsat1, satMul_eq hsat2, wrapAdd_eq hABO]
  rw [show spec_output_size dims ia ib C * (C.map dims).prod * 2 =
    spec_pairwise_flops dims ia ib C from by
      unfold spec_pairwise_flops spec_contracted_size; ring]
  rfl

/-! ### Claim C6 — pairwise cost formula -/

/-- Claim C6 (amended): for a pairwise contraction whose operand index lists
`I_a` and `I_b` are each duplicate-free, whose contracted indices `C` are
duplicate-free and occur in both operands, with every dimension size positive
and no `u64` saturation (`3 * prod(all operand dims) < 2^64`),
`compute_pairwise_cost` returns exactly the specification formulas
`flops = 2 * |output| * |K|` and `memory = |S_a| + |S_b| + |output|`.  (The
original unqualified claim is false when an operand repeats an index: the code
multiplies `output_size` once per occurrence — see the counterexample.) -/
theorem C6_pairwise_cost_formula (m : CostModel) (dims : Char → Nat)
    (ia ib C : List Char)
    (hna : ia.Nodup) (hnb : ib.Nodup) (hnC : C.Nodup)
    (hCa : ∀ c ∈ C, c ∈ ia) (hCb : ∀ c ∈ C, c ∈ ib)
    (hpos : ∀ c, 0 < dims c)
    (hb : 3 * ((ia ++ ib).map dims).prod < 2 ^ 64) :
    m.compute_pairwise_cost (ia.map dims) (ib.map dims) ia ib C =
      some (ContractionCost.new (spec_pairwise_flops dims ia ib C)
        (spec_pairwise_memory dims ia ib C) m.alpha) :=
  compute_pairwise_cost_spec m dims ia ib C hna hnb hnC hCa hCb hpos hb

/-- Witness for C6 at `ij,jk` with contracted `j` and all dimensions 3. -/
theorem C6_pairwise_cost_formula_witness :
    CostModel.compute_pairwise_cost ⟨1⟩ ((['i', 'j'] : List Char).map (fun _ => 3))
        ((['j', 'k'] : List Char).map (fun _ => 3)) ['i', 'j'] ['j', 'k'] ['j'] =
      some (ContractionCost.new
        (spec_pairwise_flops (fun _ => 3) ['i', 'j'] ['j', 'k'] ['j'])
        (spec_pairwise_memory (fun _ => 3) ['i', 'j'] ['j', 'k'] ['j'])
        (CostModel.alpha ⟨1⟩)) :=
  C6_pairwise_cost_formula ⟨1⟩ (fun _ => 3) ['i', 'j'] ['j', 'k'] ['j']
    (by decide) (by decide) (by decide) (by decide) (by decide)
    (fun _ => by norm_num) (by decide)

/-- Counterexample to the original C6: with a repeated index in one operand
(`indices_a = [i, i]`, shapes `[3, 3]` and `[3]`, nothing contracted) the code
returns `flops = 18` while the spec formula `2 * |output| * |K|` gives `6`. -/
theorem C6_pairwise_cost_counterexample :
    (CostModel.compute_pairwise_cost ⟨0⟩ [3, 3] [3] ['i', 'i'] ['i'] []).map
        ContractionCost.flops = some 18 ∧
    spec_pairwise_flops (fun _ => 3) ['i', 'i'] ['i'] [] = 6 := by
  constructor
  · decide
  · decide

/-! ### Infrastructure for C5: sortedness, trimming, arrow splitting -/

theorem insertAsc_sorted {c : Char} {l : List Char} (h : List.Sorted (· ≤ ·) l) :
    List.Sorted (· ≤ ·) (insertAsc c l) := by
  induction l with
  | nil => simp [insertAsc]
  | cons x xs ih =>
    unfold insertAsc
    by_cases hcx : c ≤ x
    · simp only [hcx, if_true, ite_true]
      rw [List.sorted_cons]
      refine ⟨?_, h⟩
      intro b hb
      rcases List.mem_cons.mp hb with rfl | hb
      · exact hcx
      · exact le_trans hcx (List.rel_of_sorted_cons h b hb)
    · simp only [hcx, if_false, ite_false]
      rw [List.sorted_cons] at h ⊢
      obtain ⟨hx, hxs⟩ := h
      refine ⟨?_, ih hxs⟩
      intro b hb
      have hb2 := (insertAsc_perm c xs).mem_iff.mp hb
      rcases List.mem_cons.mp hb2 with rfl | hbxs
      · exact le_of_not_le hcx
      · exact hx b hbxs

theorem sortChars_sorted (l : List Char) : List.Sorted (· ≤ ·) (sortChars l) := by
  induction l with
  | nil => simp [sortChars]
  | cons x xs ih => exact insertAsc_sorted ih

theorem sortedDedup_sorted (l : List Char) :
    List.Sorted (· < ·) (sortedDedup l) := by
  have h1 : List.Sorted (· ≤ ·) (sortedDedup l) := sortChars_sorted _
  have h2 : (sortedDedup l).Nodup := sortedDedup_nodup l
  have := List.Pairwise.and h1 h2
  exact this.imp (fun hab => lt_of_le_of_ne hab.1 hab.2)

theorem filter_length_eq_count (l : List Char) (c : Char) :
    (l.filter (fun x => x = c)).length = l.count c := by
  induction l with
  | nil => rfl
  | cons x xs ih =>
    by_cases h : x = c <;> simp [List.filter_cons, List.count_cons, h, ih]

theorem splitArrow_eq (c : Char) (l : List Char)
    (h : ¬(c = '-' ∧ ∃ r, l = '>' :: r)) :
    splitArrow (c :: l) = (splitArrow l).map (fun pq => (c :: pq.1, pq.2)) := by
  rw [splitArrow.eq_def]
  split
  · rename_i heq
    cases heq
  · rename_i rest heq
    injection heq with e1 e2
    exact absurd ⟨e1, _, e2⟩ h
  · rename_i c3 rest3 heq
    injection heq with e1 e2
    subst e1
    subst e2
    cases h3 : splitArrow l with
    | none => rfl
    | some pq => rfl

theorem splitArrow_none_append (s t : List Char) (h : splitArrow s = none) :
    splitArrow (s ++ '-' :: '>' :: t) = some (s, t) := by
  induction s with
  | nil => rfl
  | cons c rest ih =>
    have hpat : ¬(c = '-' ∧ ∃ r, rest = '>' :: r) := by
      rintro ⟨rfl, r, rfl⟩
      simp [splitArrow] at h
    have h2 : splitArrow rest = none := by
      rw [splitArrow_eq c rest hpat] at h
      cases h3 : splitArrow rest with
      | none => rfl
      | some pq => rw [h3] at h; cases h
    have hpat2 : ¬(c = '-' ∧ ∃ r, (rest ++ '-' :: '>' :: t) = '>' :: r) := by
      rintro ⟨rfl, r, hr⟩
      cases rest with
      | nil => simp at hr
      | cons d ds =>
        rw [List.cons_append] at hr
        injection hr with e1 e2
        exact hpat ⟨rfl, ds, by rw [e1]⟩
    rw [List.cons_append, splitArrow_eq c _ hpat2, ih h2]
    rfl

theorem named_indices_push_ellipsis (a : Subscript) :
    a.push_ellipsis.named_indices = a.named_indices := by
  unfold Subscript.push_ellipsis
  by_cases h : a.has_ellipsis
  · simp [h]
  · simp [h, Subscript.named_indices, List.filterMap_append, EIndex.as_char]

theorem named_indices_push_named (a : Subscript) (c : Char) :
    (a.push_named c).named_indices = a.named_indices ++ [c] := by
  simp [Subscript.push_named, Subscript.named_indices, List.filterMap_append,
    EIndex.as_char]

theorem getLast?_mem_of_eq {l : List Char} {c : Char} (h : l.getLast? = some c) :
    c ∈ l := by
  induction l with
  | nil => cases h
  | cons x xs ih =>
    cases xs with
    | nil =>
      simp only [List.getLast?_singleton] at h
      injection h with e
      subst e
      exact List.mem_cons_self _ _
    | cons y ys =>
      rw [List.getLast?_cons_cons] at h
      exact List.mem_cons_of_mem x (ih h)

theorem getLast?_append_right {l r : List Char} (h : r ≠ []) :
    (l ++ r).getLast? = r.getLast? := by
  induction l with
  | nil => rfl
  | cons x xs ih =>
    rw [List.cons_append]
    cases hxr : xs ++ r with
    | nil =>
      rcases List.append_eq_nil.mp hxr with ⟨_, h2⟩
      exact absurd h2 h
    | cons y ys =>
      rw [List.getLast?_cons_cons, ← hxr, ih]

theorem strTrim_eq_self (l : List Char)
    (h1 : ∀ c, l.head? = some c → isTrimSpace c = false)
    (h2 : ∀ c, l.getLast? = some c → isTrimSpace c = false) :
    strTrim l = l := by
  unfold strTrim
  cases l with
  | nil => rfl
  | cons x xs =>
    have hx : isTrimSpace x = false := h1 x rfl
    have hx' : ¬(isTrimSpace x = true) := by simp [hx]
    rw [List.dropWhile_cons_of_neg hx']
    cases hr : (x :: xs).reverse with
    | nil => exact absurd hr (by simp)
    | cons y ys =>
      have hy : isTrimSpace y = false := by
        apply h2
        rw [← List.head?_reverse, hr]
        rfl
      have hy' : ¬(isTrimSpace y = true) := by simp [hy]
      rw [List.dropWhile_cons_of_neg hy']
      rw [show y :: ys = (x :: xs).reverse from hr.symm]
      rw [List.reverse_reverse]

theorem strTrim_head {l : List Char} (h : strTrim l = l) {c : Char}
    (hc : l.head? = some c) : isTrimSpace c = false := by
  cases l with
  | nil => cases hc
  | cons x xs =>
    have e : x = c := by injection hc
    cases hmc : isTrimSpace c
    · rfl
    · exfalso
      have hx : isTrimSpace x = true := by rw [e]; exact hmc
      have hlen : (strTrim (x :: xs)).length < (x :: xs).length := by
        unfold strTrim
        rw [List.dropWhile_cons_of_pos (by simp [hx])]
        calc ((xs.dropWhile isTrimSpace).reverse.dropWhile isTrimSpace).reverse.length
            = ((xs.dropWhile isTrimSpace).reverse.dropWhile isTrimSpace).length := by
              rw [List.length_reverse]
          _ ≤ (xs.dropWhile isTrimSpace).reverse.length :=
              (List.dropWhile_sublist _).length_le
          _ = (xs.dropWhile isTrimSpace).length := by rw [List.length_reverse]
          _ ≤ xs.length := (List.dropWhile_sublist _).length_le
          _ < (x :: xs).length := by simp
      rw [h] at hlen
      exact lt_irrefl _ hlen

theorem parse_subscript_aux_letters (l : List Char) (acc : Subscript) :
    ∀ s', parse_subscript_aux l acc = Except.ok s' →
      ∀ c ∈ s'.named_indices, c ∈ acc.named_indices ∨ isEinsumLetter c = true := by
  induction l, acc using parse_subscript_aux.induct with
  | case1 acc =>
    intro s' hps c hc
    simp only [parse_subscript_aux] at hps
    injection hps with e
    subst e
    exact Or.inl hc
  | case2 acc rest2 h =>
    intro s' hps
    simp [parse_subscript_aux, h] at hps
  | case3 acc rest2 h ih =>
    intro s' hps c hc
    rw [show parse_subscript_aux ('.' :: '.' :: '.' :: rest2) acc =
      parse_subscript_aux rest2 acc.push_ellipsis from by
        simp [parse_subscript_aux, h]] at hps
    rcases ih s' hps c hc with hin | hl
    · left
      rwa [named_indices_push_ellipsis] at hin
    · exact Or.inr hl
  | case4 rest acc h =>
    intro s' hps
    exfalso
    cases rest with
    | nil => simp [parse_subscript_aux] at hps
    | cons c rest' =>
      by_cases hc : c = '.'
      · subst hc
        cases rest' with
        | nil => simp [parse_subscript_aux] at hps
        | cons d rest'' =>
          by_cases hd : d = '.'
          · exact h rest'' (by rw [hd])
          · simp [parse_subscript_aux, hd] at hps
      · simp [parse_subscript_aux, hc] at hps
  | case5 c rest acc h hlet ih =>
    intro s' hps x hx
    rw [show parse_subscript_aux (c :: rest) acc =
      parse_subscript_aux rest (acc.push_named c) from by
        simp [parse_subscript_aux, h, hlet]] at hps
    rcases ih s' hps x hx with hin | hl
    · rw [named_indices_push_named] at hin
      rcases List.mem_append.mp hin with hin | hin
      · exact Or.inl hin
      · right
        rcases List.mem_singleton.mp hin with rfl
        exact hlet
    · exact Or.inr hl
  | case6 c rest acc h hlet hsp ih =>
    intro s' hps x hx
    rw [show parse_subscript_aux (c :: rest) acc =
      parse_subscript_aux rest acc from by
        simp [parse_subscript_aux, h, hlet, hsp]] at hps
    exact ih s' hps x hx
  | case7 c rest acc h hlet hsp =>
    intro s' hps
    exfalso
    simp [parse_subscript_aux, h, hlet, hsp] at hps

theorem parse_subscript_letters {l : List Char} {s' : Subscript}
    (h : parse_subscript l = Except.ok s') :
    ∀ c ∈ s'.named_indices, isEinsumLetter c = true := by
  intro c hc
  rcases parse_subscript_aux_letters l Subscript.new s' h c hc with hin | hl
  · simp [Subscript.new, Subscript.named_indices] at hin
  · exact hl

theorem parse_subscripts_letters {ls : List (List Char)} {inputs : List Subscript}
    (h : parse_subscripts ls = Except.ok inputs) :
    ∀ sub ∈ inputs, ∀ c ∈ sub.named_indices, isEinsumLetter c = true := by
  induction ls generalizing inputs with
  | nil =>
    simp only [parse_subscripts] at h
    injection h with e
    subst e
    intro sub hsub
    cases hsub
  | cons x xs ih =>
    unfold parse_subscripts at h
    cases hx : parse_subscript (strTrim x) with
    | error e => rw [hx] at h; cases h
    | ok s1 =>
      rw [hx] at h
      cases hxs : parse_subscripts xs with
      | error e2 => rw [hxs] at h; cases h
      | ok ss =>
        rw [hxs] at h
        injection h with e
        subst e
        intro sub hsub
        rcases List.mem_cons.mp hsub with rfl | hsub
        · exact parse_subscript_letters hx
        · exact ih hxs sub hsub

theorem parse_subscript_aux_all_letters (cs : List Char) (acc : Subscript)
    (h : ∀ c ∈ cs, isEinsumLetter c = true) :
    parse_subscript_aux cs acc = Except.ok ⟨acc.indices ++ cs.map EIndex.named⟩ := by
  induction cs generalizing acc with
  | nil =>
    cases acc
    simp [parse_subscript_aux]
  | cons c rest ih =>
    have hc : isEinsumLetter c = true := h c (List.mem_cons_self c rest)
    have hcdot : ¬(c = '.') := by
      intro e
      rw [e] at hc
      exact absurd hc (by decide)
    rw [show parse_subscript_aux (c :: rest) acc =
      parse_subscript_aux rest (acc.push_named c) from by
        simp [parse_subscript_aux, hcdot, hc]]
    rw [ih (acc.push_named c) (fun x hx => h x (List.mem_cons_of_mem c hx))]
    simp [Subscript.push_named]

theorem parse_output_roundtrip (ell : Bool) (once : List Char)
    (h : ∀ c ∈ once, isEinsumLetter c = true) :
    parse_subscript ((if ell then ['.', '.', '.'] else []) ++ once) =
      Except.ok ⟨(if ell then [EIndex.ellipsis] else []) ++ once.map EIndex.named⟩ := by
  cases ell
  · simpa [parse_subscript, Subscript.new] using
      parse_subscript_aux_all_letters once Subscript.new h
  · simp only [if_true, ite_true, List.cons_append, List.nil_append]
    unfold parse_subscript
    rw [show parse_subscript_aux ('.' :: '.' :: '.' :: once) Subscript.new =
      parse_subscript_aux once (Subscript.new.push_ellipsis) from by
        simp [parse_subscript_aux, Subscript.new, Subscript.has_ellipsis]]
    rw [parse_subscript_aux_all_letters once _ h]
    rfl

theorem head?_mem_of_eq {l : List Char} {c : Char} (h : l.head? = some c) :
    c ∈ l := by
  cases l with
  | nil => cases h
  | cons x xs =>
    have e : x = c := by injection h
    rw [← e]
    exact List.mem_cons_self _ _

theorem letter_not_space {c : Char} (h : isEinsumLetter c = true) :
    isTrimSpace c = false := by
  cases hsp : isTrimSpace c
  · rfl
  · exfalso
    unfold isTrimSpace at hsp
    simp only [Bool.or_eq_true, decide_eq_true_eq] at hsp
    rcases hsp with ((rfl | rfl) | rfl) | rfl <;> exact absurd h (by decide)

theorem filterMap_as_char_named (l : List Char) :
    l.filterMap (fun c => EIndex.as_char (EIndex.named c)) = l := by
  induction l with
  | nil => rfl
  | cons x xs ih => simp [List.filterMap_cons, EIndex.as_char, ih]

theorem flatMap_singleton_chars (l : List Char) :
    l.flatMap (fun c => [c]) = l := by
  induction l with
  | nil => rfl
  | cons x xs ih => simp [List.flatMap_cons, ih]

theorem named_indices_base_append (ell : Bool) (once : List Char) :
    (⟨(if ell then [EIndex.ellipsis] else []) ++ once.map EIndex.named⟩ :
      Subscript).named_indices = once := by
  cases ell <;>
    simp [Subscript.named_indices, List.filterMap_append, List.filterMap_map,
      EIndex.as_char, Function.comp_def, filterMap_as_char_named]

theorem to_string_base_append (ell : Bool) (once : List Char) :
    (⟨(if ell then [EIndex.ellipsis] else []) ++ once.map EIndex.named⟩ :
      Subscript).to_string = (if ell then ['.', '.', '.'] else []) ++ once := by
  cases ell <;>
    simp [Subscript.to_string, List.flatMap_append, List.flatMap_map,
      Function.comp_def, flatMap_singleton_chars]

/-- Claim C5: for a (trimmed) notation string with no `"->"`, the parsed
output subscript consists of an optional leading ellipsis — present exactly
when some input has one — followed by the named output indices; those are
alphabetically sorted and are exactly the indices appearing exactly once
across all inputs; and parsing the string extended with `"->"` and the
printed implicit output yields the same notation (with only the recorded
original string differing). -/
theorem C5_implicit_output (s : List Char) (e : EinsumExpr)
    (hs : strTrim s = s) (hna : splitArrow s = none)
    (hok : parse_einsum s = Except.ok e) :
    e.output.indices =
      (if e.inputs.any Subscript.has_ellipsis then [EIndex.ellipsis] else []) ++
        e.output.named_indices.map EIndex.named ∧
    List.Sorted (· < ·) e.output.named_indices ∧
    (∀ c : Char, c ∈ e.output.named_indices ↔
      (e.inputs.flatMap Subscript.named_indices).count c = 1) ∧
    parse_einsum (s ++ '-' :: '>' :: e.output.to_string) =
      Except.ok { e with original := some (s ++ '-' :: '>' :: e.output.to_string) } := by
  unfold parse_einsum at hok
  rw [hs] at hok
  by_cases hemp : s.isEmpty
  · rw [if_pos hemp] at hok
    cases hok
  · rw [if_neg hemp] at hok
    rw [hna] at hok
    dsimp only at hok
    by_cases hni : (splitComma s).isEmpty ||
        ((splitComma s).length = 1 && ((splitComma s).headD []).isEmpty)
    · rw [if_pos hni] at hok
      cases hok
    · rw [if_neg hni] at hok
      cases hps : parse_subscripts (splitComma s) with
      | error e2 =>
        rw [hps] at hok
        cases hok
      | ok inputs =>
        rw [hps] at hok
        dsimp only at hok
        rw [show infer_output inputs = Except.ok
          (⟨(if inputs.any Subscript.has_ellipsis then [EIndex.ellipsis] else []) ++
            ((sortedDedup (inputs.flatMap Subscript.named_indices)).filter
              (fun c => ((inputs.flatMap Subscript.named_indices).filter
                (fun x => x = c)).length = 1)).map EIndex.named⟩ : Subscript)
          from by
            unfold infer_output
            by_cases hell : inputs.any Subscript.has_ellipsis <;> simp [hell]] at hok
        dsimp only at hok
        injection hok with hE
        subst hE
        have hletters : ∀ c ∈ inputs.flatMap Subscript.named_indices,
            isEinsumLetter c = true := by
          intro c hc
          obtain ⟨sub, hsub, hcs⟩ := List.mem_flatMap.mp hc
          exact parse_subscripts_letters hps sub hsub c hcs
        have honce_letters : ∀ c ∈ (sortedDedup (inputs.flatMap Subscript.named_indices)).filter
            (fun c => ((inputs.flatMap Subscript.named_indices).filter
              (fun x => x = c)).length = 1), isEinsumLetter c = true :=
          fun c hc => hletters c (mem_sortedDedup.mp (List.mem_of_mem_filter hc))
        dsimp only [EinsumExpr.new, EinsumExpr.with_original]
        refine ⟨?_, ?_, ?_, ?_⟩
        · rw [named_indices_base_append]
        · rw [named_indices_base_append]
          exact List.Pairwise.sublist (List.filter_sublist _)
            (sortedDedup_sorted (inputs.flatMap Subscript.named_indices))
        · rw [named_indices_base_append]
          intro c
          constructor
          · intro hc
            have h2 := List.of_mem_filter hc
            simp only [decide_eq_true_eq] at h2
            rw [← filter_length_eq_count]
            exact h2
          · intro hc
            apply List.mem_filter.mpr
            refine ⟨?_, ?_⟩
            · apply mem_sortedDedup.mpr
              by_contra hnot
              rw [List.count_eq_zero_of_not_mem hnot] at hc
              exact absurd hc (by decide)
            · simp only [decide_eq_true_eq]
              rw [filter_length_eq_count]
              exact hc
        · -- the round-trip parse of the explicit form
          rw [to_string_base_append]
          have hout_nospace : ∀ c ∈ ((if inputs.any Subscript.has_ellipsis then
              ['.', '.', '.'] else []) ++
                ((sortedDedup (inputs.flatMap Subscript.named_indices)).filter
                  (fun c => ((inputs.flatMap Subscript.named_indices).filter
                    (fun x => x = c)).length = 1))),
              isTrimSpace c = false := by
            intro c hc
            rcases List.mem_append.mp hc with hdot | hone
            · by_cases hell : inputs.any Subscript.has_ellipsis
              · rw [if_pos hell] at hdot
                have hc' : c = '.' := by simpa using hdot
                rw [hc']
                rfl
              · rw [if_neg hell] at hdot
                cases hdot
            · exact letter_not_space (honce_letters c hone)
          have hs_cons : ∃ x xs, s = x :: xs := by
            cases s with
            | nil => exact absurd rfl hemp
            | cons x xs => exact ⟨x, xs, rfl⟩
          obtain ⟨x, xs, rfl⟩ := hs_cons
          have htrim2 : strTrim ((x :: xs) ++ '-' :: '>' ::
              ((if inputs.any Subscript.has_ellipsis then ['.', '.', '.'] else []) ++
                ((sortedDedup (inputs.flatMap Subscript.named_indices)).filter
                  (fun c => ((inputs.flatMap Subscript.named_indices).filter
                    (fun x => x = c)).length = 1)))) =
              (x :: xs) ++ '-' :: '>' ::
              ((if inputs.any Subscript.has_ellipsis then ['.', '.', '.'] else []) ++
                ((sortedDedup (inputs.flatMap Subscript.named_indices)).filter
                  (fun c => ((inputs.flatMap Subscript.named_indices).filter
                    (fun x => x = c)).length = 1))) := by
            apply strTrim_eq_self
            · intro c hc
              rw [List.cons_append] at hc
              have e : x = c := by injection hc
              rw [← e]
              exact strTrim_head hs rfl
            · intro c hc
              rw [getLast?_append_right (by simp)] at hc
              have hmem := getLast?_mem_of_eq hc
              rcases List.mem_cons.mp hmem with rfl | hmem2
              · rfl
              · rcases List.mem_cons.mp hmem2 with rfl | hmem3
                · rfl
                · exact hout_nospace c hmem3
          have hout_trim : strTrim ((if inputs.any Subscript.has_ellipsis then
              ['.', '.', '.'] else []) ++
                ((sortedDedup (inputs.flatMap Subscript.named_indices)).filter
                  (fun c => ((inputs.flatMap Subscript.named_indices).filter
                    (fun x => x = c)).length = 1))) =
              ((if inputs.any Subscript.has_ellipsis then
              ['.', '.', '.'] else []) ++
                ((sortedDedup (inputs.flatMap Subscript.named_indices)).filter
                  (fun c => ((inputs.flatMap Subscript.named_indices).filter
                    (fun x => x = c)).length = 1))) := by
            apply strTrim_eq_self
            · intro c hc
              exact hout_nospace c (head?_mem_of_eq hc)
            · intro c hc
              exact hout_nospace c (getLast?_mem_of_eq hc)
          have hparse_out := parse_output_roundtrip (inputs.any Subscript.has_ellipsis)
            ((sortedDedup (inputs.flatMap Subscript.named_indices)).filter
              (fun c => ((inputs.flatMap Subscript.named_indices).filter
                (fun x => x = c)).length = 1)) honce_letters
          have hsplit2 := splitArrow_none_append (x :: xs)
            ((if inputs.any Subscript.has_ellipsis then ['.', '.', '.'] else []) ++
              ((sortedDedup (inputs.flatMap Subscript.named_indices)).filter
                (fun c => ((inputs.flatMap Subscript.named_indices).filter
                  (fun x => x = c)).length = 1))) hna
          unfold parse_einsum
          rw [htrim2]
          rw [if_neg (by simp)]
          rw [hsplit2]
          dsimp only
          rw [if_neg hni]
          rw [hps]
          dsimp only
          rw [hout_trim, hparse_out]
          rfl

/-- Witness for C5 at `"ij,jk"`: implicit output `"ik"`, plus the scalar
implicit output of `"ii"`. -/
theorem C5_implicit_output_witness :
    (exprOf "ij,jk").output.named_indices = ['i', 'k'] ∧
    (exprOf "ii").output.indices = [] ∧
    (∀ c : Char, c ∈ (exprOf "ij,jk").output.named_indices ↔
      ((exprOf "ij,jk").inputs.flatMap Subscript.named_indices).count c = 1) ∧
    parse_einsum ("ij,jk".toList ++ '-' :: '>' :: (exprOf "ij,jk").output.to_string) =
      Except.ok { exprOf "ij,jk" with
        original := some ("ij,jk".toList ++ '-' :: '>' ::
          (exprOf "ij,jk").output.to_string) } :=
  ⟨by decide, by decide,
    (C5_implicit_output "ij,jk".toList (exprOf "ij,jk") (by decide) (by decide)
      (by rfl)).2.2.1,
    (C5_implicit_output "ij,jk".toList (exprOf "ij,jk") (by decide) (by decide)
      (by rfl)).2.2.2⟩

/-! ### Infrastructure for C10: identity notations -/

theorem from_chars_named_indices (l : List Char) :
    (Subscript.from_chars l).named_indices = l := by
  simp [Subscript.from_chars, Subscript.named_indices, List.filterMap_map,
    Function.comp_def, filterMap_as_char_named]

theorem from_chars_has_ellipsis (l : List Char) :
    (Subscript.from_chars l).has_ellipsis = false := by
  simp [Subscript.from_chars, Subscript.has_ellipsis, List.any_map,
    Function.comp_def, EIndex.is_ellipsis]

theorem dedupChars_eq_self {l : List Char} (h : l.Nodup) : dedupChars l = l := by
  induction l with
  | nil => rfl
  | cons x xs ih =>
    have hx : ¬ x ∈ xs := (List.nodup_cons.mp h).1
    have ihx := ih (List.nodup_cons.mp h).2
    unfold dedupChars
    rw [ihx]
    have : xs.contains x = false := by
      cases hmc : xs.contains x
      · rfl
      · exact absurd (List.elem_iff.mp hmc) hx
    rw [this]
    simp

theorem sortedDedup_length_nodup {l : List Char} (h : l.Nodup) :
    (sortedDedup l).length = l.length := by
  unfold sortedDedup
  rw [dedupChars_eq_self h, (sortChars_perm l).length_eq]

theorem filterMap_eq_map_of_some {α β : Type} (f : α → Option β) (g : α → β)
    (l : List α) (h : ∀ c ∈ l, f c = some (g c)) : l.filterMap f = l.map g := by
  induction l with
  | nil => rfl
  | cons x xs ih =>
    rw [List.filterMap_cons, h x (List.mem_cons_self x xs), List.map_cons,
      ih (fun c hc => h c (List.mem_cons_of_mem x hc))]

theorem indexOf?_nodup_get {l : List Char} (h : l.Nodup) (k : Nat)
    (hk : k < l.length) : l.indexOf? (l.get ⟨k, hk⟩) = some k := by
  induction l generalizing k with
  | nil => cases hk
  | cons x xs ih =>
    cases k with
    | zero =>
      show (x :: xs).indexOf? x = some 0
      simp [List.indexOf?, List.findIdx?_cons]
    | succ k2 =>
      have hx : ¬ x ∈ xs := (List.nodup_cons.mp h).1
      have hk2 : k2 < xs.length := Nat.lt_of_succ_lt_succ hk
      have hget : (x :: xs).get ⟨k2 + 1, hk⟩ = xs.get ⟨k2, hk2⟩ := rfl
      rw [hget]
      have hne : (x == xs.get ⟨k2, hk2⟩) = false := by
        simp only [beq_eq_false_iff_ne, ne_eq]
        intro e
        exact hx (e ▸ List.get_mem xs k2 hk2)
      show List.findIdx? (fun b => b == xs.get ⟨k2, hk2⟩) (x :: xs) = some (k2 + 1)
      rw [List.findIdx?_cons]
      rw [hne]
      simp only [Bool.false_eq_true, if_false, ite_false]
      rw [List.findIdx?_succ]
      have ihr := ih (List.nodup_cons.mp h).2 k2 hk2
      rw [show List.findIdx? (fun b => b == xs.get ⟨k2, hk2⟩) xs =
        xs.indexOf? (xs.get ⟨k2, hk2⟩) from rfl, ihr]
      rfl

theorem filterMap_indexOf_range {l : List Char} (h : l.Nodup) :
    l.filterMap (fun c => l.indexOf? c) = List.range l.length := by
  have hmap : l.filterMap (fun c => l.indexOf? c) =
      l.map (fun c => (l.indexOf? c).getD 0) := by
    apply filterMap_eq_map_of_some
    intro c hc
    obtain ⟨n, rfl⟩ := List.mem_iff_get.mp hc
    cases n with
    | mk k hk =>
      rw [indexOf?_nodup_get h k hk]
      rfl
  rw [hmap]
  apply List.ext_getElem
  · simp
  · intro k h1 h2
    have hk : k < l.length := by simpa using h1
    simp only [List.getElem_map, List.getElem_range]
    rw [show l[k] = l.get ⟨k, hk⟩ from rfl, indexOf?_nodup_get h k hk]
    rfl

theorem repeatedChars_go_nodup (l : List Char) :
    ∀ (seen rep : List Char), l.Nodup → (∀ c ∈ l, ¬ c ∈ seen) →
      repeatedChars.go l seen rep = rep.reverse := by
  induction l with
  | nil => intro seen rep _ _; rfl
  | cons c rest ih =>
    intro seen rep h hdisj
    have hc : ¬ c ∈ seen := hdisj c (List.mem_cons_self c rest)
    have hcontains : seen.contains c = false := by
      cases hmc : seen.contains c
      · rfl
      · exact absurd (List.elem_iff.mp hmc) hc
    rw [show repeatedChars.go (c :: rest) seen rep =
      repeatedChars.go rest (c :: seen) rep from by
        conv_lhs => rw [repeatedChars.go.eq_def]
        dsimp only
        rw [hcontains]
        simp]
    apply ih _ _ (List.nodup_cons.mp h).2
    intro x hx
    intro hmem
    rcases List.mem_cons.mp hmem with rfl | hmem2
    · exact (List.nodup_cons.mp h).1 hx
    · exact hdisj x (List.mem_cons_of_mem c hx) hmem2

theorem repeatedChars_eq_nil {l : List Char} (h : l.Nodup) :
    repeatedChars l = [] := by
  unfold repeatedChars
  rw [repeatedChars_go_nodup l [] [] h (by intro c _ hmem; cases hmem)]
  rfl

theorem zip_self_all_eq (l : List Nat) :
    ((l.zip l).all (fun p => p.1 = p.2)) = true := by
  induction l with
  | nil => rfl
  | cons x xs ih => simpa using ih

theorem contraction_identity_nil (idx : List Char) :
    (EinsumExpr.new [Subscript.from_chars idx]
      (Subscript.from_chars idx)).contraction_indices = [] := by
  dsimp only [EinsumExpr.new]
  simp only [List.flatMap_cons, List.flatMap_nil, List.append_nil,
    from_chars_named_indices]
  rw [List.filter_eq_nil_iff]
  intro c hc
  rw [memChar_sortedDedup.mpr (mem_sortedDedup.mp hc)]
  simp

theorem is_transpose_identity (e : EinsumExpr) (idx : List Char) (h : idx.Nodup)
    (hin : e.inputs = [Subscript.from_chars idx])
    (hout : e.output = Subscript.from_chars idx)
    (hcon : e.contraction_indices = []) :
    is_transpose e = none := by
  have huni : e.is_unary = true := by simp [EinsumExpr.is_unary, hin]
  have hperm : e.is_permutation_only = true := by
    simp [EinsumExpr.is_permutation_only, hcon]
  unfold is_transpose
  simp only [huni, hperm, hin, hout, List.headD_cons, from_chars_named_indices,
    not_true, Bool.true_eq_false, if_false, ite_false, ne_eq, not_false_eq_true,
    if_true, ite_true]
  rw [filterMap_indexOf_range h]
  simp [zip_self_all_eq]

theorem is_trace_identity (e : EinsumExpr) (idx : List Char) (h : idx.Nodup)
    (hin : e.inputs = [Subscript.from_chars idx])
    (hout : e.output = Subscript.from_chars idx) :
    is_trace e = false := by
  have huni : e.is_unary = true := by simp [EinsumExpr.is_unary, hin]
  unfold is_trace
  by_cases hsc : e.is_scalar_output = true
  · simp only [huni, hsc, hin, hout, List.headD_cons, from_chars_named_indices,
      not_true, Bool.true_eq_false, if_false, ite_false]
    rw [sortedDedup_length_nodup h]
    simp
  · simp [huni, hsc]

theorem is_diagonal_extract_identity (e : EinsumExpr) (idx : List Char)
    (h : idx.Nodup) (hin : e.inputs = [Subscript.from_chars idx]) :
    is_diagonal_extract e = none := by
  have huni : e.is_unary = true := by simp [EinsumExpr.is_unary, hin]
  unfold is_diagonal_extract
  simp [huni, hin, from_chars_named_indices, repeatedChars_eq_nil h]

theorem is_reduction_identity (e : EinsumExpr)
    (hcon : e.contraction_indices = []) :
    is_reduction e = none := by
  have hperm : e.is_permutation_only = true := by
    simp [EinsumExpr.is_permutation_only, hcon]
  unfold is_reduction
  simp [hperm]

theorem recognize_identity_none (e : EinsumExpr) (idx : List Char)
    (h : idx.Nodup)
    (hin : e.inputs = [Subscript.from_chars idx])
    (hout : e.output = Subscript.from_chars idx)
    (hcon : e.contraction_indices = []) :
    recognize_pattern e = none := by
  have huni : e.is_unary = true := by simp [EinsumExpr.is_unary, hin]
  unfold recognize_pattern
  rw [if_pos huni, is_transpose_identity e idx h hin hout hcon,
    is_trace_identity e idx h hin hout,
    is_diagonal_extract_identity e idx h hin,
    is_reduction_identity e hcon]
  simp

/-- Any successfully parsed notation is `EinsumNotation::new` of its own
inputs and output, with the trimmed string recorded. -/
theorem parse_einsum_shape (nota : List Char) (e : EinsumExpr)
    (hok : parse_einsum nota = Except.ok e) :
    e = (EinsumExpr.new e.inputs e.output).with_original (strTrim nota) := by
  unfold parse_einsum at hok
  dsimp only at hok
  by_cases hemp : (strTrim nota).isEmpty
  · rw [if_pos hemp] at hok
    cases hok
  · rw [if_neg hemp] at hok
    cases hsa : splitArrow (strTrim nota) with
    | some pq =>
      rw [hsa] at hok
      cases pq with
      | mk pre post =>
        dsimp only at hok
        by_cases hni : ((splitComma pre).isEmpty ||
            ((splitComma pre).length = 1 && ((splitComma pre).headD []).isEmpty))
        · rw [if_pos hni] at hok
          cases hok
        · rw [if_neg hni] at hok
          cases hps : parse_subscripts (splitComma pre) with
          | error e2 =>
            rw [hps] at hok
            cases hok
          | ok inputs =>
            rw [hps] at hok
            dsimp only at hok
            cases hpo : parse_subscript (strTrim post) with
            | error e2 =>
              rw [hpo] at hok
              cases hok
            | ok output =>
              rw [hpo] at hok
              dsimp only at hok
              injection hok with hE
              subst hE
              rfl
    | none =>
      rw [hsa] at hok
      dsimp only at hok
      by_cases hni : ((splitComma (strTrim nota)).isEmpty ||
          ((splitComma (strTrim nota)).length = 1 &&
            ((splitComma (strTrim nota)).headD []).isEmpty))
      · rw [if_pos hni] at hok
        cases hok
      · rw [if_neg hni] at hok
        cases hps : parse_subscripts (splitComma (strTrim nota)) with
        | error e2 =>
          rw [hps] at hok
          cases hok
        | ok inputs =>
          rw [hps] at hok
          dsimp only at hok
          cases hio : infer_output inputs with
          | error e2 => exact absurd hio (infer_output_ne_error inputs e2)
          | ok output =>
            rw [hio] at hok
            dsimp only at hok
            injection hok with hE
            subst hE
            rfl

theorem from_chars_count (idx : List Char) (c : Char) :
    (Subscript.from_chars idx).count c = (idx.filter (fun x => x = c)).length := by
  induction idx with
  | nil => rfl
  | cons x xs ih =>
    by_cases h : x = c <;>
      simp [Subscript.from_chars, Subscript.count, List.filter_cons, h] <;>
      simpa [Subscript.from_chars, Subscript.count] using ih

theorem from_chars_contains {idx : List Char} {c : Char} (h : c ∈ idx) :
    (Subscript.from_chars idx).contains c = true := by
  simp only [Subscript.from_chars, Subscript.contains, List.any_eq_true]
  exact ⟨EIndex.named c, List.mem_map_of_mem _ h, by simp⟩

/-- `validate_notation` accepts every identity unary notation with distinct
indices. -/
theorem validate_identity_ok (e : EinsumExpr) (idx : List Char) (h : idx.Nodup)
    (hin : e.inputs = [Subscript.from_chars idx])
    (hout : e.output = Subscript.from_chars idx) :
    validate_expr e = Except.ok () := by
  have h1 : validate_output_indices e = Except.ok () := by
    unfold validate_output_indices
    rw [List.find?_eq_none.mpr]
    intro c hc
    rw [hout, from_chars_named_indices] at hc
    simp only [hin, List.any_cons, List.any_nil, Bool.or_false,
      from_chars_contains hc]
    simp
  have h2 : validate_index_counts e = Except.ok () := by
    unfold validate_index_counts
    dsimp only
    have hfind : List.find? (fun c => totalIndexCount e c > 3)
        ((e.inputs.flatMap Subscript.named_indices ++
          e.output.named_indices).dedup) = none := by
      apply List.find?_eq_none.mpr
      intro c hc
      have hc2 : c ∈ idx := by
        rw [hin, hout] at hc
        simp only [List.flatMap_cons, List.flatMap_nil, List.append_nil,
          from_chars_named_indices, List.mem_dedup, List.mem_append] at hc
        rcases hc with hc | hc <;> exact hc
      have hcount : (Subscript.from_chars idx).count c = 1 := by
        rw [from_chars_count, filter_length_eq_count, count_nodup h c, if_pos hc2]
      have htot : totalIndexCount e c = 2 := by
        unfold totalIndexCount
        rw [hin, hout]
        simp [hcount]
      simp [htot]
    rw [hfind]
  have h3 : validate_ellipsis_consistency e = Except.ok () := by
    unfold validate_ellipsis_consistency
    rw [hin, hout]
    simp [from_chars_has_ellipsis]
  unfold validate_expr
  rw [h1, h2, h3]
  rfl

/-- One step of the executor monad with a known outcome. -/
theorem exec_bind_ok {α β : Type} (x : Exec α) (f : α → Exec β) (s s2 : ExecS)
    (a : α) (hx : x s = ExecOut.ok a s2) : (x >>= f) s = f a s2 := by
  show (match x s with
    | ExecOut.ok a s' => f a s'
    | ExecOut.err e s' => ExecOut.err e s'
    | ExecOut.panic => ExecOut.panic) = f a s2
  rw [hx]

theorem select_path_identity (e : EinsumExpr) (idx : List Char)
    (hin : e.inputs = [Subscript.from_chars idx])
    (shapes : List (List Nat)) (cm : CostModel)
    (strategy : ContractionStrategy) :
    select_path e shapes cm strategy = some ContractionPath.new := by
  have hn : e.num_inputs = 1 := by simp [EinsumExpr.num_inputs, hin]
  unfold select_path
  cases strategy <;>
    simp [hn, greedy_path, optimal_path, branch_bound_path,
      MAX_DP_TENSORS, MAX_BB_TENSORS]

theorem create_plan_identity (e : EinsumExpr) (idx : List Char) (h : idx.Nodup)
    (hin : e.inputs = [Subscript.from_chars idx])
    (hout : e.output = Subscript.from_chars idx)
    (hcon : e.contraction_indices = [])
    (shapes : List (List Nat)) (strategy : ContractionStrategy) :
    create_plan e shapes strategy =
      some (ExecutionPlan.from_contraction_path ContractionPath.new
        (plan_output_shape e shapes) (initialIndices e)) := by
  unfold create_plan
  rw [recognize_identity_none e idx h hin hout hcon,
    select_path_identity e idx hin shapes { alpha := 64 } strategy]

/-! ### Claim C10 — identity notations are no-ops -/

/-- Claim C10: for a unary notation whose output subscript is identical to its
(duplicate-free, ellipsis-free) input subscript, no fast path matches, every
strategy produces a plan with zero steps and no fast path, and a shape-valid
`einsum` call returns `Ok` with the executor state untouched (no kernel
launches, no allocations) and the caller's output tensor unmodified. -/
theorem C10_identity_unary_noop (nota idx : List Char) (e : EinsumExpr)
    (ins : List TensorHandle) (out0 : TensorHandle) (cfg : Option EinsumConfig)
    (s : ExecS)
    (hnd : idx.Nodup)
    (hok : parse_einsum nota = Except.ok e)
    (hin : e.inputs = [Subscript.from_chars idx])
    (hout : e.output = Subscript.from_chars idx)
    (hv : ∃ vr, validate_shapes e (ins.map TensorHandle.shape) = Except.ok vr) :
    recognize_pattern e = none ∧
    (∀ strategy, (create_plan e (ins.map TensorHandle.shape) strategy).map
        (fun p => (p.num_steps, p.uses_fast_path)) = some (0, false)) ∧
    einsum nota ins out0 cfg s = ExecOut.ok out0 s := by
  have hcon : e.contraction_indices = [] := by
    have h1 := congrArg EinsumExpr.contraction_indices (parse_einsum_shape nota e hok)
    rw [hin, hout] at h1
    exact h1.trans (contraction_identity_nil idx)
  refine ⟨recognize_identity_none e idx hnd hin hout hcon, ?_, ?_⟩
  · intro strategy
    rw [create_plan_identity e idx hnd hin hout hcon]
    rfl
  · obtain ⟨vr, hvs⟩ := hv
    have hval := validate_identity_ok e idx hnd hin hout
    unfold einsum
    rw [exec_bind_ok _ _ s s e (by rw [hok]; rfl)]
    dsimp only
    rw [exec_bind_ok _ _ s s () (by rw [hval]; rfl)]
    cases hc : (cfg.getD EinsumConfig.default).validate_shapes with
    | true =>
      simp only [if_true, ite_true]
      rw [exec_bind_ok _ _ s s vr (by rw [hvs]; rfl)]
      rw [exec_bind_ok _ _ s s () (by rfl)]
      rw [create_plan_identity e idx hnd hin hout hcon]
      rfl
    | false =>
      simp only [Bool.false_eq_true, if_false, ite_false]
      rw [exec_bind_ok _ _ s s () (by rfl)]
      rw [create_plan_identity e idx hnd hin hout hcon]
      rfl

/-- Witness for C10 at `"ij->ij"` on a `[2, 3]` tensor. -/
theorem C10_identity_unary_noop_witness :
    recognize_pattern (exprOf "ij->ij") = none ∧
    (∀ strategy, (create_plan (exprOf "ij->ij")
        ([cTensor 1 [2, 3]].map TensorHandle.shape) strategy).map
        (fun p => (p.num_steps, p.uses_fast_path)) = some (0, false)) ∧
    einsum "ij->ij".toList [cTensor 1 [2, 3]] (cTensor 2 [2, 3]) none execS0 =
      ExecOut.ok (cTensor 2 [2, 3]) execS0 :=
  C10_identity_unary_noop "ij->ij".toList ['i', 'j'] (exprOf "ij->ij")
    [cTensor 1 [2, 3]] (cTensor 2 [2, 3]) none execS0
    (by decide) (by rfl) (by decide) (by decide) ⟨_, by rfl⟩

/-! ### Claim C3 — empty tensors and kernel launches -/

/-- Claim C3 (amended): the elementary kernels guard empty tensors — when the
(matching-shape) operands have a zero dimension, the Hadamard, dot-product and
outer-product launchers return `Ok` with the executor state untouched, so no
kernel is launched.  The original universal claim is false: the matmul fast
path has no such guard and delegates an empty GEMM (see the
counterexample). -/
theorem C3_elementary_kernels_empty_guard (lhs rhs out : TensorHandle)
    (s : ExecS) (hsh : lhs.shape = rhs.shape) (hout : lhs.shape = out.shape)
    (h0 : usizeProd lhs.shape = 0) :
    launch_hadamard lhs rhs out s = ExecOut.ok () s ∧
    launch_dot_product lhs rhs out s = ExecOut.ok () s ∧
    launch_outer_product lhs rhs out s = ExecOut.ok () s := by
  refine ⟨?_, ?_, ?_⟩
  · unfold launch_hadamard
    rw [if_neg (by rw [hsh]; exact fun h => h rfl)]
    rw [if_neg (by rw [hout]; exact fun h => h rfl)]
    rw [if_pos h0]
    rfl
  · unfold launch_dot_product
    rw [if_neg (by rw [hsh]; exact fun h => h rfl)]
    rw [if_pos h0]
    rfl
  · unfold launch_outer_product
    dsimp only
    rw [if_pos (by simp [h0])]
    rfl

/-- Witness for C3 on `[0, 4]` operands. -/
theorem C3_elementary_kernels_empty_guard_witness :
    launch_hadamard (cTensor 1 [0, 4]) (cTensor 2 [0, 4]) (cTensor 3 [0, 4])
      execS0 = ExecOut.ok () execS0 ∧
    launch_dot_product (cTensor 1 [0, 4]) (cTensor 2 [0, 4]) (cTensor 3 [0, 4])
      execS0 = ExecOut.ok () execS0 ∧
    launch_outer_product (cTensor 1 [0, 4]) (cTensor 2 [0, 4]) (cTensor 3 [0, 4])
      execS0 = ExecOut.ok () execS0 :=
  C3_elementary_kernels_empty_guard (cTensor 1 [0, 4]) (cTensor 2 [0, 4])
    (cTensor 3 [0, 4]) execS0 (by rfl) (by rfl) (by rfl)

/-- C3 counterexample: a valid einsum call on an empty `[0, 4]` matrix takes
the matmul fast path and launches a GEMM — the executor does not return
without launching kernels. -/
theorem C3_empty_matmul_launches_gemm :
    einsum "ij,jk->ik".toList [cTensor 1 [0, 4], cTensor 2 [4, 5]]
      (cTensor 3 [0, 5]) none execS0 =
    ExecOut.ok (cTensor 3 [0, 5])
      { nextId := 1000,
        trace := [LaunchEvent.gemm (cTensor 1 [0, 4]) (cTensor 2 [4, 5])
          (cTensor 3 [0, 5])] } ∧
    ([LaunchEvent.gemm (cTensor 1 [0, 4]) (cTensor 2 [4, 5])
      (cTensor 3 [0, 5])] : List LaunchEvent) ≠ execS0.trace := by
  constructor
  · rfl
  · decide

/-! ### Claim C7 — multi-axis reduction order and rebinding -/

theorem insertDesc_perm (a : Nat) (l : List Nat) :
    List.Perm (insertDesc a l) (a :: l) := by
  induction l with
  | nil => simp [insertDesc]
  | cons x xs ih =>
    unfold insertDesc
    by_cases h : x ≤ a
    · simp [h]
    · simp only [h, if_false, ite_false]
      exact (List.Perm.cons x ih).trans (List.Perm.swap a x xs)

theorem sortNatDesc_perm (l : List Nat) : List.Perm (sortNatDesc l) l := by
  induction l with
  | nil => exact List.Perm.refl _
  | cons x xs ih =>
    exact (insertDesc_perm x (sortNatDesc xs)).trans (List.Perm.cons x ih)

theorem insertDesc_sorted {a : Nat} {l : List Nat}
    (h : List.Sorted (· ≥ ·) l) : List.Sorted (· ≥ ·) (insertDesc a l) := by
  induction l with
  | nil => simp [insertDesc]
  | cons x xs ih =>
    unfold insertDesc
    by_cases hxa : x ≤ a
    · simp only [hxa, if_true, ite_true]
      rw [List.sorted_cons]
      refine ⟨?_, h⟩
      intro b hb
      rcases List.mem_cons.mp hb with rfl | hb
      · exact hxa
      · exact le_trans (List.rel_of_sorted_cons h b hb) hxa
    · simp only [hxa, if_false, ite_false]
      rw [List.sorted_cons] at h ⊢
      obtain ⟨hx, hxs⟩ := h
      refine ⟨?_, ih hxs⟩
      intro b hb
      rcases List.mem_cons.mp ((insertDesc_perm a xs).mem_iff.mp hb) with rfl | hb2
      · exact le_of_not_le hxa
      · exact hx b hb2

theorem sortNatDesc_sorted (l : List Nat) :
    List.Sorted (· ≥ ·) (sortNatDesc l) := by
  induction l with
  | nil => simp [sortNatDesc]
  | cons x xs ih => exact insertDesc_sorted ih

/-- Claim C7: multi-axis sum reductions process the axes in descending order
(`sortNatDesc` is a descending-sorted permutation of the requested axes, and
`execute_multi_axis_reduce` runs the chain on it); each non-final step reduces
the current tensor into a freshly allocated keep-dim workspace that becomes
the next step's input; a single-axis (or final) reduction delegates the
external reduce directly to the caller's output when the output shape is the
keep-dim shape, and otherwise reduces into a keep-dim intermediate and
rebinds the output's buffer handle to it with contiguous strides recomputed
on the squeezed shape. -/
theorem C7_multi_axis_reduce_descending (input output : TensorHandle)
    (axes : List Nat) (s : ExecS) :
    (List.Sorted (· ≥ ·) (sortNatDesc axes) ∧
      List.Perm (sortNatDesc axes) axes) ∧
    (∀ axis, axis < input.shape.length →
      (output.shape = input.shape.set axis 1 →
        execute_reduce [input] output [axis] s =
          ExecOut.ok output
            { s with trace := s.trace ++ [LaunchEvent.reduceK input output axis] }) ∧
      (¬ output.shape = input.shape.set axis 1 →
        execute_reduce [input] output [axis] s =
          ExecOut.ok
            { output with handle := s.nextId,
                          strides := compute_strides output.shape }
            { nextId := s.nextId + 1,
              trace := s.trace ++ [LaunchEvent.reduceK input
                { handle := s.nextId, shape := input.shape.set axis 1,
                  strides := compute_strides (input.shape.set axis 1),
                  dtype := input.dtype } axis] })) ∧
    (∀ (dtype : Nat) (current out0 : TensorHandle) (axis : Nat)
      (rest : List Nat) (s0 : ExecS), rest ≠ [] → axis < current.shape.length →
      execute_multi_axis_reduce.go dtype current out0 (axis :: rest) s0 =
        execute_multi_axis_reduce.go dtype
          { handle := s0.nextId, shape := current.shape.set axis 1,
            strides := compute_strides (current.shape.set axis 1),
            dtype := dtype }
          out0 rest
          { nextId := s0.nextId + 1,
            trace := s0.trace ++ [LaunchEvent.reduceK current
              { handle := s0.nextId, shape := current.shape.set axis 1,
                strides := compute_strides (current.shape.set axis 1),
                dtype := dtype } axis] }) ∧
    (1 < axes.length →
      execute_reduce [input] output axes s =
        execute_multi_axis_reduce input output axes s) ∧
    execute_multi_axis_reduce input output axes s =
      execute_multi_axis_reduce.go input.dtype input output (sortNatDesc axes) s := by
  refine ⟨⟨sortNatDesc_sorted axes, sortNatDesc_perm axes⟩, ?_, ?_, ?_, ?_⟩
  · intro axis haxis
    constructor
    · intro h2
      unfold execute_reduce
      rw [if_neg (by simp)]
      rw [if_neg (by simp)]
      rw [if_neg (by simp)]
      simp only [List.getD_cons_zero]
      rw [exec_bind_ok _ _ s s (input.shape.set axis 1)
        (by unfold setKeepDim; rw [if_pos haxis]; rfl)]
      rw [if_pos h2]
      rfl
    · intro h2
      unfold execute_reduce
      rw [if_neg (by simp)]
      rw [if_neg (by simp)]
      rw [if_neg (by simp)]
      simp only [List.getD_cons_zero]
      rw [exec_bind_ok _ _ s s (input.shape.set axis 1)
        (by unfold setKeepDim; rw [if_pos haxis]; rfl)]
      rw [if_neg h2]
      rfl
  · intro dtype current out0 axis rest s0 hrest haxis
    conv_lhs => rw [execute_multi_axis_reduce.go.eq_def]
    dsimp only
    rw [exec_bind_ok _ _ s0 s0 (current.shape.set axis 1)
      (by unfold setKeepDim; rw [if_pos haxis]; rfl)]
    rw [if_neg (by simp [hrest])]
    rfl
  · intro hlen
    unfold execute_reduce
    rw [if_neg (by simp)]
    simp only [List.getD_cons_zero]
    rw [if_pos hlen]
  · unfold execute_multi_axis_reduce
    rfl

/-- Witness for C7: `ij->i` on a `[2048, 2048]` input reduces into a keep-dim
`[2048, 1]` intermediate and rebinds the `[2048]`-shaped output to it. -/
theorem C7_multi_axis_reduce_descending_witness :
    (¬ (cTensor 2 [2048]).shape = (cTensor 1 [2048, 2048]).shape.set 1 1) ∧
    execute_reduce [cTensor 1 [2048, 2048]] (cTensor 2 [2048]) [1] execS0 =
      ExecOut.ok
        { cTensor 2 [2048] with handle := execS0.nextId
                                strides := compute_strides (cTensor 2 [2048]).shape }
        { nextId := execS0.nextId + 1,
          trace := execS0.trace ++ [LaunchEvent.reduceK (cTensor 1 [2048, 2048])
            { handle := execS0.nextId,
              shape := (cTensor 1 [2048, 2048]).shape.set 1 1,
              strides := compute_strides ((cTensor 1 [2048, 2048]).shape.set 1 1),
              dtype := (cTensor 1 [2048, 2048]).dtype } 1] } ∧
    ({ cTensor 2 [2048] with handle := execS0.nextId
                             strides := compute_strides (cTensor 2 [2048]).shape }).shape
      = [2048] :=
  ⟨by decide,
    ((C7_multi_axis_reduce_descending (cTensor 1 [2048, 2048]) (cTensor 2 [2048])
      [1] execS0).2.1 1 (by decide)).2 (by decide),
    by decide⟩

/-! ### Infrastructure for C9: contraction-state and path-length facts -/

theorem length_filter_ne_one {n i : Nat} (hi : i < n) :
    ((List.range n).filter (fun k => decide (k ≠ i))).length = n - 1 := by
  induction n with
  | zero => cases hi
  | succ m ih =>
    rw [List.range_succ, List.filter_append]
    by_cases him : i = m
    · subst him
      have h1 : (List.range i).filter (fun k => decide (k ≠ i)) = List.range i := by
        apply List.filter_eq_self.mpr
        intro k hk
        have hk2 := List.mem_range.mp hk
        simp only [decide_eq_true_eq]
        omega
      have h2 : ([i].filter (fun k => decide (k ≠ i))) = [] := by
        simp
      rw [h1, h2, List.length_append, List.length_range]
      simp
    · have hi2 : i < m := by omega
      have hmi : m ≠ i := fun hh => him hh.symm
      have h2 : ([m].filter (fun k => decide (k ≠ i))) = [m] := by
        simp [hmi]
      rw [h2, List.length_append, ih hi2]
      simp
      omega

theorem length_filter_ne_two {n i j : Nat} (hij : i < j) (hj : j < n) :
    ((List.range n).filter (fun k => decide (k ≠ i ∧ k ≠ j))).length = n - 2 := by
  induction n with
  | zero => cases hj
  | succ m ih =>
    rw [List.range_succ, List.filter_append]
    by_cases hjm : j = m
    · subst hjm
      have h1 : (List.range j).filter (fun k => decide (k ≠ i ∧ k ≠ j)) =
          (List.range j).filter (fun k => decide (k ≠ i)) := by
        apply List.filter_congr
        intro k hk
        have hk2 := List.mem_range.mp hk
        simp only [decide_eq_true_eq, ne_eq]
        have : ¬ k = j := by omega
        simp [this]
      have h2 : ([j].filter (fun k => decide (k ≠ i ∧ k ≠ j))) = [] := by
        simp
      rw [h1, h2, List.append_nil, length_filter_ne_one (show i < j from hij)]
      omega
    · have hj2 : j < m := by omega
      have h2 : ([m].filter (fun k => decide (k ≠ i ∧ k ≠ j))) = [m] := by
        have hmi : ¬ m = i := by omega
        have hmj : ¬ m = j := by omega
        simp [hmi, hmj]
      rw [h2, List.length_append, ih hj2]
      simp
      omega

theorem contract_some {st : TensorState} {i j : Nat} {out : List Char}
    (hij : i < j) (hj : j < st.len) :
    ∃ st', st.contract i j out = some st' := by
  unfold TensorState.contract
  rw [if_neg (not_not_intro ⟨hij, hj⟩)]
  exact ⟨_, rfl⟩

theorem contract_len_shapes {st : TensorState} {i j : Nat} {out : List Char}
    {st' : TensorState} (hij : i < j) (hj : j < st.len)
    (h : st.contract i j out = some st') :
    st'.len = st.len - 1 ∧
    ∃ result, st'.shapes =
      (((List.range st.len).filter (fun k => decide (k ≠ i ∧ k ≠ j))).map
        (fun k => st.shapes.getD k [])) ++ [result] := by
  unfold TensorState.contract at h
  rw [if_neg (not_not_intro ⟨hij, hj⟩)] at h
  injection h with e
  subst e
  constructor
  · show (((List.range st.len).filter _).map _ ++ _).length = st.len - 1
    rw [List.length_append, List.length_map, length_filter_ne_two hij hj]
    simp only [List.length_singleton]
    omega
  · exact ⟨_, rfl⟩

theorem mem_drop_range_ge {n m x : Nat} (h : x ∈ (List.range n).drop m) :
    m ≤ x := by
  obtain ⟨k, hk, he⟩ := List.mem_iff_getElem.mp h
  rw [List.getElem_drop] at he
  rw [List.getElem_range] at he
  omega

theorem pairList_mem_bounds {n i j : Nat} (h : (i, j) ∈ pairList n) :
    i < j ∧ j < n := by
  unfold pairList at h
  obtain ⟨a, ha, hmem⟩ := List.mem_flatMap.mp h
  obtain ⟨b, hb, heq⟩ := List.mem_map.mp hmem
  have e1 : a = i := congrArg Prod.fst heq
  have e2 : b = j := congrArg Prod.snd heq
  subst e1
  subst e2
  constructor
  · have := mem_drop_range_ge hb
    omega
  · exact List.mem_range.mp (List.mem_of_mem_drop hb)

theorem foldlM_opt_inv {α β : Type} (f : β → α → Option β) (P : β → Prop)
    (l : List α) (hstep : ∀ b a, a ∈ l → P b → ∀ b', f b a = some b' → P b') :
    ∀ {b0 bf : β}, P b0 → l.foldlM f b0 = some bf → P bf := by
  induction l with
  | nil =>
    intro b0 bf h0 h
    injection h with e
    subst e
    exact h0
  | cons x xs ih =>
    intro b0 bf h0 h
    rw [List.foldlM_cons] at h
    cases hx : f b0 x with
    | none => rw [hx] at h; cases h
    | some b1 =>
      rw [hx] at h
      exact ih (fun b a ha => hstep b a (List.mem_cons_of_mem x ha)) 
        (hstep b0 x (List.mem_cons_self x xs) h0 b1 hx) h

theorem find_best_pair_bounds {state : TensorState} {out : List Char}
    {cm : CostModel} {i j : Nat} {step : ContractionStep}
    (h : find_best_pair state out cm = some (i, j, step)) :
    i < j ∧ j < state.len := by
  unfold find_best_pair at h
  dsimp only at h
  simp only [Option.bind_eq_bind] at h
  rw [Option.bind_eq_some] at h
  obtain ⟨res, hres, h2⟩ := h
  rw [Option.bind_eq_some] at h2
  obtain ⟨st2, hst2, h3⟩ := h2
  have hinv : (fun (acc : ContractionCost × (Nat × Nat) × Option ContractionStep) =>
      acc.2.2.isSome = true → acc.2.1 ∈ pairList state.len) res := by
    apply foldlM_opt_inv _ _ _ _ _ hres
    · intro b a ha hb b' hf hsome
      cases hev : evaluate_pair state a.1 a.2 out cm with
      | none => rw [hev] at hf; cases hf
      | some sc =>
        rw [hev] at hf
        obtain ⟨sstep, scost⟩ := sc
        simp only [Option.bind_eq_bind, Option.some_bind] at hf
        by_cases hlt : (scost.lt b.1) = true
        · rw [if_pos hlt] at hf
          injection hf with e
          subst e
          simpa using ha
        · rw [if_neg hlt] at hf
          injection hf with e
          subst e
          exact hb hsome
    · intro hsome
      simp at hsome
  injection h3 with e
  have e1 : res.2.1.1 = i := by
    have := congrArg (fun (t : Nat × Nat × ContractionStep) => t.1) e
    simpa using this
  have e2 : res.2.1.2 = j := by
    have := congrArg (fun (t : Nat × Nat × ContractionStep) => t.2.1) e
    simpa using this
  have hmem := hinv (by rw [hst2]; rfl)
  have hpq : ((i, j) : Nat × Nat) ∈ pairList state.len := by
    have h4 : (res.2.1.1, res.2.1.2) ∈ pairList state.len := by
      simpa using hmem
    rw [e1, e2] at h4
    exact h4
  exact pairList_mem_bounds hpq

theorem greedy_loop_length (cm : CostModel) (out : List Char) :
    ∀ (fuel : Nat) (state : TensorState) (path p : ContractionPath),
      greedy_loop cm out fuel state path = some p →
      p.steps.length = path.steps.length + (state.len - 1) := by
  intro fuel
  induction fuel with
  | zero =>
    intro state path p h
    unfold greedy_loop at h
    by_cases hl : state.len > 1
    · rw [if_pos hl] at h
      cases h
    · rw [if_neg hl] at h
      injection h with e
      subst e
      omega
  | succ f ih =>
    intro state path p h
    unfold greedy_loop at h
    by_cases hl : state.len ≤ 1
    · rw [if_pos hl] at h
      injection h with e
      subst e
      omega
    · rw [if_neg hl] at h
      simp only [Option.bind_eq_bind] at h
      rw [Option.bind_eq_some] at h
      obtain ⟨t, hfb, h2⟩ := h
      obtain ⟨i, j, step⟩ := t
      have hb := find_best_pair_bounds hfb
      simp only [] at h2
      rw [Option.bind_eq_some] at h2
      obtain ⟨st', hc, h3⟩ := h2
      have hcl := (contract_len_shapes hb.1 hb.2 hc).1
      have hrec := ih st' (path.push step) p h3
      rw [hrec, hcl]
      simp only [ContractionPath.push, List.length_append, List.length_singleton]
      omega

/-! ### Claim C9 — path lengths and contraction-state shrinkage -/

/-- Claim C9 (amended): `TensorState::contract` (with in-bounds positions
`i < j`) removes the two operand positions and appends exactly one result
tensor, so the tensor count drops by exactly one; and whenever `greedy_path`
returns a path it has exactly `n - 1` steps.  The original claim is false for
`optimal_path`: when every pairwise cost saturates at `u64::MAX` the DP keeps
no entry for the full set and returns a path with fewer than `n - 1` steps
(see the counterexample, where `n = 2` and the returned path has 0 steps
while `greedy_path` panics). -/
theorem C9_contract_and_greedy_path_steps (e : EinsumExpr)
    (shapes : List (List Nat)) (cm : CostModel)
    (hsh : shapes.length = e.num_inputs) :
    (∀ (st : TensorState) (i j : Nat) (out : List Char) (st' : TensorState),
      i < j → j < st.len → st.contract i j out = some st' →
      st'.len = st.len - 1 ∧
      ∃ result, st'.shapes =
        (((List.range st.len).filter (fun k => decide (k ≠ i ∧ k ≠ j))).map
          (fun k => st.shapes.getD k [])) ++ [result]) ∧
    (∀ p, greedy_path e shapes cm = some p →
      p.steps.length = e.num_inputs - 1) := by
  constructor
  · intro st i j out st' hij hj hc
    exact contract_len_shapes hij hj hc
  · intro p hp
    unfold greedy_path at hp
    by_cases h0 : e.num_inputs = 0
    · rw [if_pos h0] at hp
      injection hp with e'
      subst e'
      simp [ContractionPath.new, h0]
    · rw [if_neg h0] at hp
      by_cases h1 : e.num_inputs = 1
      · rw [if_pos h1] at hp
        injection hp with e'
        subst e'
        simp [ContractionPath.new, h1]
      · rw [if_neg h1] at hp
        have hlen := greedy_loop_length cm (sortedDedup e.output.named_indices)
          e.num_inputs (TensorState.new shapes (initialIndices e))
          ContractionPath.new p hp
        rw [hlen]
        simp only [ContractionPath.new, TensorState.new, TensorState.len, hsh]
        simp

/-- Witness for C9 on `ij,jk->ik` with shapes `[4,2]`, `[2,3]`. -/
theorem C9_contract_and_greedy_path_steps_witness :
    ((TensorState.new [[4, 2], [2, 3]] [['i', 'j'], ['j', 'k']]).contract 0 1
        ['i', 'k']).map TensorState.len = some 1 ∧
    (∀ p, greedy_path (exprOf "ij,jk->ik") [[4, 2], [2, 3]] flopModel = some p →
      p.steps.length = 1) := by
  have H := C9_contract_and_greedy_path_steps (exprOf "ij,jk->ik")
    [[4, 2], [2, 3]] flopModel (by decide)
  constructor
  · obtain ⟨st', hc⟩ := @contract_some
      (TensorState.new [[4, 2], [2, 3]] [['i', 'j'], ['j', 'k']]) 0 1
      ['i', 'k'] (by decide) (by decide)
    have hlen := (H.1 (TensorState.new [[4, 2], [2, 3]] [['i', 'j'], ['j', 'k']])
      0 1 ['i', 'k'] st' (by decide) (by decide) hc).1
    rw [hc]
    rw [show (some st').map TensorState.len = some st'.len from rfl, hlen]
    decide
  · intro p hp
    have := H.2 p hp
    simpa using this

/-- C9 counterexample: with `2^32`-sized dimensions every pairwise cost
saturates to the `u64::MAX` sentinel; `optimal_path` then returns a path with
0 steps for a 2-input notation (instead of `n - 1 = 1`), and `greedy_path`
panics. -/
theorem C9_optimal_path_zero_steps :
    (exprOf "ij,jk->ik").num_inputs = 2 ∧
    (optimal_path (exprOf "ij,jk->ik") [[2 ^ 32, 2 ^ 32], [2 ^ 32, 2 ^ 32]]
      flopModel).map (fun p => p.steps.length) = some 0 ∧
    greedy_path (exprOf "ij,jk->ik") [[2 ^ 32, 2 ^ 32], [2 ^ 32, 2 ^ 32]]
      flopModel = none := by
  refine ⟨by decide, by rfl, by rfl⟩

/-! ### Infrastructure for C1: cost algebra and path replay -/

theorem satAdd_assoc (a b c : Nat) : satAdd (satAdd a b) c = satAdd a (satAdd b c) := by
  unfold satAdd U64_MAX
  omega

theorem cost_add_assoc (a b c : ContractionCost) :
    (a.add b).add c = a.add (b.add c) := by
  unfold ContractionCost.add
  simp only [satAdd_assoc]

theorem cost_zero_add {c : ContractionCost} (h : CostClamped c) :
    ContractionCost.zero.add c = c := by
  obtain ⟨h1, h2, h3⟩ := h
  unfold ContractionCost.add ContractionCost.zero
  have e1 : satAdd 0 c.flops = c.flops := by unfold satAdd; omega
  have e2 : satAdd 0 c.memory = c.memory := by unfold satAdd; omega
  have e3 : satAdd 0 c.total = c.total := by unfold satAdd; omega
  rw [e1, e2, e3]

theorem cpc_clamped {cm : CostModel} {sa sb : List Nat} {ia ib C : List Char}
    {c : ContractionCost} (h : cm.compute_pairwise_cost sa sb ia ib C = some c) :
    CostClamped c := by
  unfold CostModel.compute_pairwise_cost at h
  simp only [Option.bind_eq_bind] at h
  rw [Option.bind_eq_some] at h
  obtain ⟨osz, hosz, h2⟩ := h
  injection h2 with e
  subst e
  refine ⟨?_, ?_, ?_⟩
  · show satMul _ 2 ≤ U64_MAX
    unfold satMul
    omega
  · show wrapAdd _ _ ≤ U64_MAX
    unfold wrapAdd U64_MAX
    omega
  · show satAdd _ _ ≤ U64_MAX
    unfold satAdd
    omega

theorem cost_add_clamped (a b : ContractionCost) : CostClamped (a.add b) := by
  unfold ContractionCost.add CostClamped satAdd
  refine ⟨?_, ?_, ?_⟩ <;> exact Nat.min_le_right _ _

theorem cost_add_zero {c : ContractionCost} (h : CostClamped c) :
    c.add ContractionCost.zero = c := by
  obtain ⟨h1, h2, h3⟩ := h
  unfold ContractionCost.add ContractionCost.zero
  have e1 : satAdd c.flops 0 = c.flops := by unfold satAdd; omega
  have e2 : satAdd c.memory 0 = c.memory := by unfold satAdd; omega
  have e3 : satAdd c.total 0 = c.total := by unfold satAdd; omega
  rw [e1, e2, e3]

theorem replayPair_cons (cm : CostModel) (step : ContractionStep)
    (rest : List ContractionStep) (s : TensorState) (acc : ContractionCost) :
    replayPair cm (step :: rest) s acc =
      (cm.compute_pairwise_cost
        (s.shapes.getD step.inputs.1 []) (s.shapes.getD step.inputs.2 [])
        (s.indices.getD step.inputs.1 []) (s.indices.getD step.inputs.2 [])
        step.contracted_indices).bind (fun cost =>
          (s.contract step.inputs.1 step.inputs.2 step.result_indices).bind
            (fun s' => replayPair cm rest s' (acc.add cost))) := by
  rfl

theorem cpcl_eq_replay (cm : CostModel) :
    ∀ (l : List ContractionStep) (s : TensorState) (acc : ContractionCost),
      compute_path_cost_loop cm l s acc = (replayPair cm l s acc).map Prod.snd := by
  intro l
  induction l with
  | nil => intro s acc; rfl
  | cons step rest ih =>
    intro s acc
    rw [replayPair_cons]
    unfold compute_path_cost_loop
    cases hc : cm.compute_pairwise_cost
        (s.shapes.getD step.inputs.1 []) (s.shapes.getD step.inputs.2 [])
        (s.indices.getD step.inputs.1 []) (s.indices.getD step.inputs.2 [])
        step.contracted_indices with
    | none => rfl
    | some c =>
      simp only [Option.bind_eq_bind, Option.some_bind]
      cases hs : s.contract step.inputs.1 step.inputs.2 step.result_indices with
      | none => rfl
      | some s' =>
        simp only [Option.some_bind]
        exact ih s' (acc.add c)

theorem replayPair_append (cm : CostModel) :
    ∀ (l1 l2 : List ContractionStep) (s : TensorState) (acc : ContractionCost),
      replayPair cm (l1 ++ l2) s acc =
        (replayPair cm l1 s acc).bind (fun p => replayPair cm l2 p.1 p.2) := by
  intro l1
  induction l1 with
  | nil => intro l2 s acc; rfl
  | cons step rest ih =>
    intro l2 s acc
    rw [List.cons_append, replayPair_cons, replayPair_cons]
    cases hc : cm.compute_pairwise_cost
        (s.shapes.getD step.inputs.1 []) (s.shapes.getD step.inputs.2 [])
        (s.indices.getD step.inputs.1 []) (s.indices.getD step.inputs.2 [])
        step.contracted_indices with
    | none => rfl
    | some c =>
      simp only [Option.some_bind]
      cases hs : s.contract step.inputs.1 step.inputs.2 step.result_indices with
      | none => rfl
      | some s' =>
        simp only [Option.some_bind]
        exact ih l2 s' (acc.add c)

theorem replayPair_shift (cm : CostModel) :
    ∀ (l : List ContractionStep) (s : TensorState) (acc : ContractionCost),
      CostClamped acc →
      replayPair cm l s acc =
        (replayPair cm l s ContractionCost.zero).map
          (fun p => (p.1, acc.add p.2)) := by
  intro l
  induction l with
  | nil =>
    intro s acc hacc
    show some (s, acc) =
      (some ((s : TensorState), ContractionCost.zero)).map
        (fun p => (p.1, acc.add p.2))
    rw [show (some ((s : TensorState), ContractionCost.zero)).map
        (fun p => (p.1, acc.add p.2)) =
      some (s, acc.add ContractionCost.zero) from rfl]
    rw [cost_add_zero hacc]
  | cons step rest ih =>
    intro s acc hacc
    rw [replayPair_cons, replayPair_cons]
    cases hc : cm.compute_pairwise_cost
        (s.shapes.getD step.inputs.1 []) (s.shapes.getD step.inputs.2 [])
        (s.indices.getD step.inputs.1 []) (s.indices.getD step.inputs.2 [])
        step.contracted_indices with
    | none => rfl
    | some c =>
      simp only [Option.some_bind]
      cases hs : s.contract step.inputs.1 step.inputs.2 step.result_indices with
      | none => rfl
      | some s' =>
        simp only [Option.some_bind]
        rw [ih s' (acc.add c) (cost_add_clamped acc c),
          ih s' (ContractionCost.zero.add c) (cost_add_clamped _ c)]
        rw [cost_zero_add (cpc_clamped hc)]
        cases hz : replayPair cm rest s' ContractionCost.zero with
        | none => rfl
        | some p =>
          rw [show (some p).map (fun q => (q.1, (acc.add c).add q.2)) =
            some (p.1, (acc.add c).add p.2) from rfl]
          rw [show (some p).map (fun q => (q.1, c.add q.2)) =
            some (p.1, c.add p.2) from rfl]
          rw [show (some ((p.1 : TensorState), c.add p.2)).map
              (fun q => (q.1, acc.add q.2)) =
            some (p.1, acc.add (c.add p.2)) from rfl]
          rw [cost_add_assoc]

theorem ofSteps_steps (l : List ContractionStep) :
    (ContractionPath.ofSteps l).steps = l := by
  have hgen : ∀ (l : List ContractionStep) (p : ContractionPath),
      (l.foldl ContractionPath.push p).steps = p.steps ++ l := by
    intro l
    induction l with
    | nil => intro p; simp
    | cons x xs ih =>
      intro p
      rw [List.foldl_cons, ih]
      simp [ContractionPath.push]
  unfold ContractionPath.ofSteps
  rw [hgen]
  rfl

theorem replayPair_clamped (cm : CostModel) :
    ∀ (l : List ContractionStep) (s : TensorState) (acc : ContractionCost)
      (ts : TensorState) (c : ContractionCost),
      CostClamped acc → replayPair cm l s acc = some (ts, c) → CostClamped c := by
  intro l
  induction l with
  | nil =>
    intro s acc ts c hacc h
    injection h with e
    have := congrArg Prod.snd e
    dsimp at this
    rw [← this]
    exact hacc
  | cons step rest ih =>
    intro s acc ts c hacc h
    rw [replayPair_cons] at h
    rw [Option.bind_eq_some] at h
    obtain ⟨cost, hc, h2⟩ := h
    rw [Option.bind_eq_some] at h2
    obtain ⟨s', hs, h3⟩ := h2
    exact ih s' (acc.add cost) ts c (cost_add_clamped acc cost) h3

theorem evaluate_pair_spec {state : TensorState} {i j : Nat} {out : List Char}
    {cm : CostModel} {step : ContractionStep} {cost : ContractionCost}
    (h : evaluate_pair state i j out cm = some (step, cost)) :
    step.inputs = (i, j) ∧
    cm.compute_pairwise_cost (state.shapes.getD i []) (state.shapes.getD j [])
      (state.indices.getD i []) (state.indices.getD j [])
      step.contracted_indices = some cost := by
  unfold evaluate_pair at h
  dsimp only at h
  simp only [Option.bind_eq_bind] at h
  rw [Option.bind_eq_some] at h
  obtain ⟨c, hc, h2⟩ := h
  injection h2 with e
  have es : _ = step := congrArg Prod.fst e
  have ec : c = cost := congrArg Prod.snd e
  subst ec
  subst es
  exact ⟨rfl, hc⟩

theorem mapM_mem {α β : Type} (f : α → Option β) :
    ∀ (l : List α) (r : List β), l.mapM f = some r →
      ∀ x ∈ r, ∃ a ∈ l, f a = some x := by
  intro l
  induction l with
  | nil =>
    intro r h x hx
    injection h with e
    subst e
    cases hx
  | cons a as ih =>
    intro r h x hx
    rw [List.mapM_cons] at h
    simp only [Option.bind_eq_bind] at h
    rw [Option.bind_eq_some] at h
    obtain ⟨b, hb, h2⟩ := h
    rw [Option.bind_eq_some] at h2
    obtain ⟨bs, hbs, h3⟩ := h2
    injection h3 with e
    subst e
    rcases List.mem_cons.mp hx with rfl | hx2
    · exact ⟨a, List.mem_cons_self a as, hb⟩
    · obtain ⟨a2, ha2, hfa⟩ := ih bs hbs x hx2
      exact ⟨a2, List.mem_cons_of_mem a ha2, hfa⟩

theorem generate_candidates_mem {state : TensorState} {out : List Char}
    {cm : CostModel} {l : List (Nat × Nat × ContractionCost × ContractionStep)}
    (h : generate_candidates state out cm = some l) :
    ∀ x ∈ l, evaluate_pair state x.1 x.2.1 out cm = some (x.2.2.2, x.2.2.1) := by
  intro x hx
  obtain ⟨p, hp, hfp⟩ := mapM_mem _ _ _ h x hx
  simp only [Option.bind_eq_bind] at hfp
  rw [Option.bind_eq_some] at hfp
  obtain ⟨sc, hsc, h2⟩ := hfp
  obtain ⟨st2, c2⟩ := sc
  injection h2 with e
  subst e
  exact hsc

theorem mem_insertByCost {x y : Nat × Nat × ContractionCost × ContractionStep} :
    ∀ {l : List (Nat × Nat × ContractionCost × ContractionStep)},
      y ∈ insertByCost x l → y = x ∨ y ∈ l := by
  intro l
  induction l with
  | nil =>
    intro h
    rcases List.mem_singleton.mp h with rfl
    exact Or.inl rfl
  | cons z rest ih =>
    intro h
    unfold insertByCost at h
    by_cases hcmp : x.2.2.1.total < z.2.2.1.total
    · rw [if_pos hcmp] at h
      rcases List.mem_cons.mp h with rfl | h2
      · exact Or.inl rfl
      · exact Or.inr h2
    · rw [if_neg hcmp] at h
      rcases List.mem_cons.mp h with rfl | h2
      · exact Or.inr (List.mem_cons_self _ _)
      · rcases ih h2 with h3 | h3
        · exact Or.inl h3
        · exact Or.inr (List.mem_cons_of_mem z h3)

theorem mem_sortByCost {y : Nat × Nat × ContractionCost × ContractionStep}
    {l : List (Nat × Nat × ContractionCost × ContractionStep)}
    (h : y ∈ sortByCost l) : y ∈ l := by
  have hgen : ∀ (l acc : List (Nat × Nat × ContractionCost × ContractionStep)),
      y ∈ l.foldl (fun acc x => insertByCost x acc) acc → y ∈ acc ∨ y ∈ l := by
    intro l
    induction l with
    | nil =>
      intro acc h2
      exact Or.inl h2
    | cons x xs ih =>
      intro acc h2
      rw [List.foldl_cons] at h2
      rcases ih (insertByCost x acc) h2 with h3 | h3
      · rcases mem_insertByCost h3 with rfl | h4
        · exact Or.inr (List.mem_cons_self _ _)
        · exact Or.inl h4
      · exact Or.inr (List.mem_cons_of_mem x h3)
  rcases hgen l [] h with h2 | h2
  · cases h2
  · exact h2

theorem bb_loop_inv (cm : CostModel) (outI : List Char)
    (shapes0 : List (List Nat)) (idx0 : List (List Char)) (CG : Nat)
    (search : BBState → TensorState → List ContractionStep → ContractionCost →
      Nat → Option BBState)
    (hsearch : ∀ st ts path cost depth stf,
      replayPair cm path (TensorState.new shapes0 idx0) ContractionCost.zero =
        some (ts, cost) →
      bbInv cm shapes0 idx0 CG st →
      search st ts path cost depth = some stf →
      bbInv cm shapes0 idx0 CG stf) :
    ∀ (cands : List (Nat × Nat × ContractionCost × ContractionStep))
      (st : BBState) (ts : TensorState) (path : List ContractionStep)
      (cost : ContractionCost) (depth : Nat) (stf : BBState),
      replayPair cm path (TensorState.new shapes0 idx0) ContractionCost.zero =
        some (ts, cost) →
      bbInv cm shapes0 idx0 CG st →
      (∀ x ∈ cands, evaluate_pair ts x.1 x.2.1 outI cm = some (x.2.2.2, x.2.2.1)) →
      bb_candidates_loop cm outI search ts path cost depth st cands = some stf →
      bbInv cm shapes0 idx0 CG stf := by
  intro cands
  induction cands with
  | nil =>
    intro st ts path cost depth stf hR hQ hcand hloop
    unfold bb_candidates_loop at hloop
    injection hloop with e
    subst e
    exact hQ
  | cons x rest ih =>
    obtain ⟨i, j, step_cost, step⟩ := x
    intro st ts path cost depth stf hR hQ hcand hloop
    unfold bb_candidates_loop at hloop
    dsimp only at hloop
    split at hloop
    · injection hloop with e
      subst e
      exact hQ
    · simp only [Option.bind_eq_bind] at hloop
      rw [Option.bind_eq_some] at hloop
      obtain ⟨nts, hct, h2⟩ := hloop
      rw [Option.bind_eq_some] at h2
      obtain ⟨st2, hsrch, h3⟩ := h2
      have hev := hcand (i, j, step_cost, step) (List.mem_cons_self _ _)
      obtain ⟨hinp, hcpc⟩ := evaluate_pair_spec hev
      have hi1 : step.inputs.1 = i := by rw [hinp]
      have hi2 : step.inputs.2 = j := by rw [hinp]
      have hstep : replayPair cm [step] ts cost = some (nts, cost.add step_cost) := by
        rw [replayPair_cons, hi1, hi2, hcpc]
        simp only [Option.some_bind]
        rw [hct]
        simp only [Option.some_bind]
        rfl
      have hR2 : replayPair cm (path ++ [step]) (TensorState.new shapes0 idx0)
          ContractionCost.zero = some (nts, cost.add step_cost) := by
        rw [replayPair_append, hR]
        show replayPair cm [step] ts cost = some (nts, cost.add step_cost)
        exact hstep
      have hQ2 := hsearch st nts (path ++ [step]) (cost.add step_cost) (depth + 1)
        st2 hR2 hQ hsrch
      by_cases hnode : st2.nodes_explored ≥ MAX_NODES
      · rw [if_pos hnode] at h3
        injection h3 with e
        subst e
        exact hQ2
      · rw [if_neg hnode] at h3
        exact ih st2 ts path cost depth stf hR hQ2
          (fun y hy => hcand y (List.mem_cons_of_mem _ hy)) h3

theorem bb_search_inv (cm : CostModel) (outI : List Char)
    (shapes0 : List (List Nat)) (idx0 : List (List Char)) (CG : Nat) :
    ∀ (fuel : Nat) (st : BBState) (ts : TensorState) (path : List ContractionStep)
      (cost : ContractionCost) (depth : Nat) (stf : BBState),
      replayPair cm path (TensorState.new shapes0 idx0) ContractionCost.zero =
        some (ts, cost) →
      bbInv cm shapes0 idx0 CG st →
      bb_search cm outI fuel st ts path cost depth = some stf →
      bbInv cm shapes0 idx0 CG stf := by
  intro fuel
  induction fuel with
  | zero =>
    intro st ts path cost depth stf hR hQ h
    exact Option.noConfusion h
  | succ fuel ih =>
    intro st ts path cost depth stf hR hQ h
    unfold bb_search at h
    dsimp only at h
    have hQ1 : bbInv cm shapes0 idx0 CG
        { st with nodes_explored := st.nodes_explored + 1 } := hQ
    split at h
    · injection h with e
      subst e
      exact hQ1
    · split at h
      · -- tensor_state.len ≤ 1: leaf, possibly a new best
        split at h
        · rename_i hlt
          injection h with e
          subst e
          refine ⟨⟨ContractionPath.ofSteps path, cost, rfl, ?_, rfl⟩, ?_⟩
          · unfold compute_path_cost
            rw [ofSteps_steps, cpcl_eq_replay, hR]
            rfl
          · simp only [ContractionCost.lt, decide_eq_true_eq] at hlt
            exact le_trans (Nat.le_of_lt hlt) hQ.2
        · injection h with e
          subst e
          exact hQ1
      · split at h
        · -- depth limit: greedy completion
          simp only [Option.bind_eq_bind] at h
          rw [Option.bind_eq_some] at h
          obtain ⟨remaining, hrem, h2⟩ := h
          split at h2
          · rename_i hlt
            rw [Option.bind_eq_some] at h2
            obtain ⟨gsteps, hgs, h3⟩ := h2
            injection h3 with e
            subst e
            unfold greedy_remaining_cost at hrem
            simp only [Option.bind_eq_bind] at hrem
            rw [Option.bind_eq_some] at hrem
            obtain ⟨gs2, hgs2, hloop⟩ := hrem
            rw [hgs] at hgs2
            injection hgs2 with e2
            subst e2
            rw [cpcl_eq_replay] at hloop
            cases hpair : replayPair cm gsteps ts ContractionCost.zero with
            | none =>
              rw [hpair] at hloop
              exact Option.noConfusion hloop
            | some pr =>
              obtain ⟨tsf, rcost⟩ := pr
              rw [hpair] at hloop
              simp only [Option.map_some'] at hloop
              injection hloop with hrc
              subst hrc
              have hc0 : CostClamped ContractionCost.zero :=
                ⟨Nat.zero_le _, Nat.zero_le _, Nat.zero_le _⟩
              have hclamped := replayPair_clamped cm path
                (TensorState.new shapes0 idx0) ContractionCost.zero ts cost hc0 hR
              have hRfull : replayPair cm (path ++ gsteps)
                  (TensorState.new shapes0 idx0) ContractionCost.zero =
                  some (tsf, cost.add rcost) := by
                rw [replayPair_append, hR]
                show replayPair cm gsteps ts cost = some (tsf, cost.add rcost)
                rw [replayPair_shift cm gsteps ts cost hclamped, hpair]
                rfl
              refine ⟨⟨ContractionPath.ofSteps (path ++ gsteps), cost.add rcost,
                rfl, ?_, rfl⟩, ?_⟩
              · unfold compute_path_cost
                rw [ofSteps_steps, cpcl_eq_replay, hRfull]
                rfl
              · simp only [ContractionCost.lt, decide_eq_true_eq] at hlt
                exact le_trans (Nat.le_of_lt hlt) hQ.2
          · injection h2 with e
            subst e
            exact hQ1
        · split at h
          · -- pruned by the optimistic lower bound
            injection h with e
            subst e
            exact hQ1
          · -- recurse over the sorted candidate list
            simp only [Option.bind_eq_bind] at h
            rw [Option.bind_eq_some] at h
            obtain ⟨cands, hcands, h2⟩ := h
            exact bb_loop_inv cm outI shapes0 idx0 CG (bb_search cm outI fuel) ih
              (sortByCost cands) _ ts path cost depth stf hR hQ1
              (fun x hx => generate_candidates_mem hcands x (mem_sortByCost hx)) h2

/-! ### Claim C1 — cost ordering of the three optimizers -/

/-- **C1** (corrected direction).  For every instance on which the greedy
optimizer succeeds (with its path's replayed cost) and the branch-and-bound
optimizer succeeds, the branch-and-bound path's replayed total cost is less
than or equal to the greedy path's — because B&B is seeded with the greedy
path and only ever replaces its incumbent with a strictly cheaper complete
path.  (The spec's claimed chain has the inequality the other way around:
`cost(greedy_path) ≤ cost(branch_bound_path)` is refuted by the
counterexample below.) -/
theorem C1_branch_bound_le_greedy (e : EinsumExpr) (shapes : List (List Nat))
    (cm : CostModel) (pg pb : ContractionPath) (cg : ContractionCost)
    (hg : greedy_path e shapes cm = some pg)
    (hgc : compute_path_cost pg shapes (initialIndices e) cm = some cg)
    (hb : branch_bound_path e shapes cm = some pb) :
    ∃ cb, compute_path_cost pb shapes (initialIndices e) cm = some cb ∧
      cb.total ≤ cg.total := by
  unfold branch_bound_path at hb
  dsimp only at hb
  split at hb
  · injection hb with e1
    subst e1
    exact ⟨ContractionCost.zero, rfl, Nat.zero_le _⟩
  · simp only [Option.bind_eq_bind] at hb
    rw [Option.bind_eq_some] at hb
    obtain ⟨pg2, hg2, hb2⟩ := hb
    rw [hg] at hg2
    injection hg2 with e1
    subst e1
    rw [Option.bind_eq_some] at hb2
    obtain ⟨cg2, hgc2, hb3⟩ := hb2
    rw [hgc] at hgc2
    injection hgc2 with e1
    subst e1
    rw [Option.bind_eq_some] at hb3
    obtain ⟨final, hfin, hpb⟩ := hb3
    injection hpb with e2
    have hR0 : replayPair cm [] (TensorState.new shapes (initialIndices e))
        ContractionCost.zero =
        some (TensorState.new shapes (initialIndices e), ContractionCost.zero) := rfl
    have hQ0 : bbInv cm shapes (initialIndices e) cg.total
        { best_path := some pg, best_cost := cg, nodes_explored := 0 } :=
      ⟨⟨pg, cg, rfl, hgc, rfl⟩, Nat.le_refl _⟩
    have hQf := bb_search_inv cm (sortedDedup e.output.named_indices) shapes
      (initialIndices e) cg.total (e.num_inputs + 1) _ _ [] ContractionCost.zero 0
      final hR0 hQ0 hfin
    obtain ⟨⟨p, c, hbp, hcomp, hceq⟩, htot⟩ := hQf
    rw [hbp] at e2
    simp only [Option.getD_some] at e2
    subst e2
    refine ⟨c, hcomp, ?_⟩
    rw [hceq]
    exact htot

/-- Witness for C1: on `"ij,jk,kl->il"` with shapes `[[4,2],[2,3],[3,5]]`
under the pure-FLOP model, greedy returns the left-to-right path of total
cost 168 and branch-and-bound the cheaper path of total cost 140 ≤ 168. -/
theorem C1_branch_bound_le_greedy_witness :
    ∃ cb, compute_path_cost
        { steps := [{ inputs := (1, 2), contracted_indices := ['k'],
                      result_indices := ['j', 'l'], estimated_flops := 60 },
                    { inputs := (0, 1), contracted_indices := ['j'],
                      result_indices := ['i', 'l'], estimated_flops := 80 }],
          total_flops := 140, total_memory := 0 }
        [[4, 2], [2, 3], [3, 5]] (initialIndices (exprOf "ij,jk,kl->il"))
        flopModel = some cb ∧
      cb.total ≤ ContractionCost.total { flops := 168, memory := 73, total := 168 } :=
  C1_branch_bound_le_greedy (exprOf "ij,jk,kl->il") [[4, 2], [2, 3], [3, 5]]
    flopModel
    { steps := [{ inputs := (0, 1), contracted_indices := ['j'],
                  result_indices := ['i', 'k'], estimated_flops := 48 },
                { inputs := (0, 1), contracted_indices := ['k'],
                  result_indices := ['l', 'i'], estimated_flops := 120 }],
      total_flops := 168, total_memory := 0 }
    { steps := [{ inputs := (1, 2), contracted_indices := ['k'],
                  result_indices := ['j', 'l'], estimated_flops := 60 },
                { inputs := (0, 1), contracted_indices := ['j'],
                  result_indices := ['i', 'l'], estimated_flops := 80 }],
      total_flops := 140, total_memory := 0 }
    { flops := 168, memory := 73, total := 168 }
    rfl rfl rfl

/-- Counterexample to C1 as stated: on `"ij,jk,kl->il"` with shapes
`[[4,2],[2,3],[3,5]]` under the pure-FLOP model (α = 0), the greedy path
costs 168 while the branch-and-bound path (like the optimal path) costs
140, so `cost(greedy_path) ≤ cost(branch_bound_path)` is false. -/
theorem C1_greedy_exceeds_branch_bound :
    ((greedy_path (exprOf "ij,jk,kl->il") [[4, 2], [2, 3], [3, 5]] flopModel).bind
        (fun p => compute_path_cost p [[4, 2], [2, 3], [3, 5]]
          (initialIndices (exprOf "ij,jk,kl->il")) flopModel)).map
        ContractionCost.total = some 168 ∧
    ((branch_bound_path (exprOf "ij,jk,kl->il") [[4, 2], [2, 3], [3, 5]] flopModel).bind
        (fun p => compute_path_cost p [[4, 2], [2, 3], [3, 5]]
          (initialIndices (exprOf "ij,jk,kl->il")) flopModel)).map
        ContractionCost.total = some 140 ∧
    ((optimal_path (exprOf "ij,jk,kl->il") [[4, 2], [2, 3], [3, 5]] flopModel).bind
        (fun p => compute_path_cost p [[4, 2], [2, 3], [3, 5]]
          (initialIndices (exprOf "ij,jk,kl->il")) flopModel)).map
        ContractionCost.total = some 140 ∧
    ¬ (168 : Nat) ≤ 140 :=
  ⟨rfl, rfl, rfl, by decide⟩

end CubekEinsum
